import Mathlib

set_option linter.unusedVariables false
set_option maxRecDepth 100000

/-!
# Routing protocols: distance vector, link state, path vector

A shallow embedding of the three protocol engines `dvrpp.c`, `ls.c` and `pv.c`, each in
its own namespace (`DV`, `LS`, `PV`), followed by the properties proved about them.

* `node_t` and `cost_t` are C `int`s; both are `Int` here. The sentinel "no node" is `-1`.
* A fixed-size array is a total function `Int → α`; the slots of a C array of `MAX_NODES`
  entries are the indices `0 .. MAX_NODES - 1`, and `memcmp` looks at these only. A write
  past the last slot, which C leaves undefined, lands outside of them.
* The simulator (`routing-simulator.h`) is the record `Host`: the constants of the header and
  the answers of its primitives during one handler invocation. A loop
  `for (n = get_first_node(); n <= get_last_node(); n = get_next_node(n))` is a fold over
  `Host.nodes`.
* The effects `set_route` and `send_message` are returned as lists, in call order.
* The only loop that is not bounded by its header is the predecessor walk of `run_dijkstra`;
  it takes fuel, and the functions that run it return an `Option`.
-/

/-- The simulator as seen by one handler invocation: the header constants
`MAX_NODES` and `COST_INFINITY`, the enumeration produced by
`get_first_node` / `get_next_node` / `get_last_node`, `get_current_node()` and
`get_link_cost(n)`. -/
structure Host where
  MAX_NODES : Nat
  COST_INFINITY : Int
  nodes : List Int
  current_node : Int
  link_cost : Int → Int

/-- Modelled from the spec: the macro `COST_ADD` of `routing-simulator.h`, a header that is
not among the sources. "Addition is saturating: `Infinity + x = Infinity` for any x, and
addition never overflows past `Infinity`." -/
def COST_ADD (inf a b : Int) : Int :=
  if a = inf ∨ b = inf then inf else min (a + b) inf

/-- Array store `a[i] = v`. -/
def store {α : Type} (a : Int → α) (i : Int) (v : α) : Int → α :=
  fun j => if j = i then v else a j

/-- One call `set_route(dest, next_hop, cost)`. -/
structure Route where
  dest : Int
  next_hop : Int
  cost : Int
deriving DecidableEq

/-- A line of three nodes `0 - 1 - 2` seen from node `0`: only node `1` is a live neighbour. -/
def line_host : Host :=
  { MAX_NODES := 4, COST_INFINITY := 1000, nodes := [0, 1, 2], current_node := 0,
    link_cost := fun n => if n = 0 then 0 else if n = 1 then 1 else 1000 }

namespace DV

/-- Message format of `dvrpp.c`. -/
structure data_t where
  distance_vector : Int → Int

/-- State format of `dvrpp.c`. -/
structure state_t where
  distance_vector : Int → Int
  neighbor_costs : Int → Int → Int
  best_next_hop : Int → Int

/-- The state after a handler part, the `set_route` calls it made, and its return value. -/
structure Recalc where
  state : state_t
  routes : List Route
  updated : Bool

/-- The state after a handler, its `set_route` calls and its `send_message` calls. -/
structure Outcome where
  state : state_t
  routes : List Route
  sent : List (Int × data_t)

/-- `init_state` of `dvrpp.c` (the memory comes zeroed from `calloc`). -/
def init_state (h : Host) : state_t :=
  let s0 : state_t :=
    { distance_vector := fun _ => 0, neighbor_costs := fun _ _ => 0, best_next_hop := fun _ => 0 }
  let s1 := h.nodes.foldl (fun (s : state_t) i =>
    let s := { s with distance_vector := store s.distance_vector i h.COST_INFINITY,
                      best_next_hop := store s.best_next_hop i (-1) }
    h.nodes.foldl (fun (s : state_t) j =>
      let s := { s with
        neighbor_costs := store s.neighbor_costs i (store (s.neighbor_costs i) j h.COST_INFINITY) }
      if i = j then
        { s with neighbor_costs := store s.neighbor_costs i (store (s.neighbor_costs i) j 0) }
      else s) s) s0
  { s1 with distance_vector := store s1.distance_vector h.current_node 0 }

/-- The private copy of the distance vector that `broadcast_message` prepares for
neighbour `n`: the `memcpy` followed by the poisoning loop over `dest`. -/
def outgoing_data (h : Host) (s : state_t) (n : Int) : data_t :=
  h.nodes.foldl (fun (out : data_t) dest =>
    if s.best_next_hop dest = n then
      { distance_vector := store out.distance_vector dest h.COST_INFINITY }
    else out) { distance_vector := s.distance_vector }

/-- `broadcast_message` of `dvrpp.c`: the list of `send_message(n, &outgoing_data, _)` calls. -/
def broadcast_message (h : Host) (s : state_t) : List (Int × data_t) :=
  h.nodes.foldl (fun sent n =>
    if h.link_cost n < h.COST_INFINITY ∧ n ≠ h.current_node then
      sent ++ [(n, outgoing_data h s n)]
    else sent) []

/-- The inner loop of `recalculate_distance_vector` for one `dest`:
the final `(best_cost, best_next_hop)`. -/
def best_route (h : Host) (s : state_t) (dest : Int) : Int × Int :=
  h.nodes.foldl (fun (best : Int × Int) n =>
    if n = h.current_node then best
    else
      let cost_via_n := COST_ADD h.COST_INFINITY (h.link_cost n) (s.neighbor_costs n dest)
      if cost_via_n ≤ best.1 then (cost_via_n, n) else best) (h.link_cost dest, -1)

/-- One iteration of the outer loop of `recalculate_distance_vector`. -/
def recalculate_step (h : Host) (acc : Recalc) (dest : Int) : Recalc :=
  if dest = h.current_node then acc
  else
    let best := best_route h acc.state dest
    if best.1 ≠ acc.state.distance_vector dest then
      { state := { acc.state with
          distance_vector := store acc.state.distance_vector dest best.1,
          best_next_hop := store acc.state.best_next_hop dest best.2 },
        routes := acc.routes ++ [{ dest := dest, next_hop := best.2, cost := best.1 }],
        updated := true }
    else acc

/-- `recalculate_distance_vector` of `dvrpp.c`. -/
def recalculate_distance_vector (h : Host) (s : state_t) : Recalc :=
  h.nodes.foldl (recalculate_step h) { state := s, routes := [], updated := false }

/-- `notify_link_change` of `dvrpp.c`. -/
def notify_link_change (h : Host) (s : state_t) (neighbor new_cost : Int) : Outcome :=
  let s1 := { s with
    neighbor_costs := store s.neighbor_costs h.current_node
      (store (s.neighbor_costs h.current_node) neighbor new_cost) }
  let r := recalculate_distance_vector h s1
  if r.updated then
    { state := r.state, routes := r.routes, sent := broadcast_message h r.state }
  else
    { state := r.state, routes := r.routes, sent := [] }

/-- The first loop of `notify_receive_message`: the received vector is copied into row
`sender` of `neighbor_costs`. -/
def receive_vector (h : Host) (s : state_t) (sender : Int) (message : data_t) : state_t :=
  h.nodes.foldl (fun (s : state_t) dest =>
    { s with
      neighbor_costs := store s.neighbor_costs sender
        (store (s.neighbor_costs sender) dest (message.distance_vector dest)) }) s

/-- `notify_receive_message` of `dvrpp.c`. -/
def notify_receive_message (h : Host) (s : state_t) (sender : Int) (message : data_t) : Outcome :=
  let s1 := receive_vector h s sender message
  let r := recalculate_distance_vector h s1
  if r.updated then
    { state := r.state, routes := r.routes, sent := broadcast_message h r.state }
  else
    { state := r.state, routes := r.routes, sent := [] }

/-- A state of node `0` on the line in which neighbour `1` has advertised cost `1` to node `2`. -/
def line_state : state_t :=
  { distance_vector := fun n => if n = 0 then 0 else 1000,
    neighbor_costs := fun a b => if a = b then 0 else if a = 1 ∧ b = 2 then 1 else 1000,
    best_next_hop := fun _ => -1 }

end DV

namespace LS

/-- One owner's entry of the link-state database (`link_state_t` of `ls.c`). -/
structure link_state_t where
  link_cost : Int → Int
  version : Int

/-- Message format of `ls.c`. -/
structure data_t where
  ls : Int → link_state_t

/-- State format of `ls.c`. -/
structure state_t where
  link_states : Int → link_state_t

/-- The state after a handler, its `set_route` calls and its `send_message` calls. -/
structure Outcome where
  state : state_t
  routes : List Route
  sent : List (Int × data_t)

/-- `init_state` of `ls.c` (the memory comes zeroed from `calloc`). -/
def init_state (h : Host) : state_t :=
  h.nodes.foldl (fun (s : state_t) n =>
    let s : state_t :=
      { link_states := store s.link_states n { (s.link_states n) with version := 0 } }
    h.nodes.foldl (fun (s : state_t) dest =>
      let c : Int :=
        if n = h.current_node then h.link_cost dest
        else if n = dest then 0
        else h.COST_INFINITY
      { link_states := store s.link_states n
          { (s.link_states n) with link_cost := store (s.link_states n).link_cost dest c } }) s)
    { link_states := fun _ => { link_cost := fun _ => 0, version := 0 } }

/-- `broadcast_message` of `ls.c`: the list of `send_message(n, &outgoing_data, _)` calls. -/
def broadcast_message (h : Host) (s : state_t) : List (Int × data_t) :=
  h.nodes.foldl (fun sent n =>
    if h.link_cost n < h.COST_INFINITY ∧ n ≠ h.current_node then
      sent ++ [(n, { ls := s.link_states })]
    else sent) []

/-- The local arrays `dist`, `visited` and `pred` of `run_dijkstra`. -/
structure Dijkstra where
  dist : Int → Int
  visited : Int → Bool
  pred : Int → Int

/-- The initialisation loop of `run_dijkstra` and the assignment `dist[current_node] = 0`.
The entries of the local arrays that the loop does not write are never read; they are
filled with `0` here. -/
def dijkstra_init (h : Host) (s : state_t) : Dijkstra :=
  let d := h.nodes.foldl (fun (d : Dijkstra) n =>
    { dist := store d.dist n ((s.link_states h.current_node).link_cost n),
      visited := store d.visited n false,
      pred := store d.pred n h.current_node })
    { dist := fun _ => 0, visited := fun _ => false, pred := fun _ => 0 }
  { d with dist := store d.dist h.current_node 0 }

/-- The loop "find the closest unvisited node" of `run_dijkstra`: the final `(u, min_cost)`. -/
def closest_unvisited (h : Host) (d : Dijkstra) : Int × Int :=
  h.nodes.foldl (fun (best : Int × Int) candidate =>
    if d.visited candidate = false ∧ d.dist candidate < best.2 then
      (candidate, d.dist candidate)
    else best) (-1, h.COST_INFINITY)

/-- One iteration of the loop "update distances for neighbors of the selected node". -/
def relax_step (h : Host) (s : state_t) (u : Int) (d : Dijkstra) (neighbor : Int) : Dijkstra :=
  if d.visited neighbor = false ∧ (s.link_states u).link_cost neighbor < h.COST_INFINITY then
    let alt := COST_ADD h.COST_INFINITY (d.dist u) ((s.link_states u).link_cost neighbor)
    if alt < d.dist neighbor then
      { d with dist := store d.dist neighbor alt, pred := store d.pred neighbor u }
    else d
  else d

/-- The loop "update distances for neighbors of the selected node" of `run_dijkstra`. -/
def relax (h : Host) (s : state_t) (u : Int) (d : Dijkstra) : Dijkstra :=
  h.nodes.foldl (relax_step h s u) d

/-- The main loop of `run_dijkstra`; the list holds the iterations still to run, and the
loop is left early by `break` when no unvisited node is reachable. -/
def main_loop (h : Host) (s : state_t) : List Int → Dijkstra → Dijkstra
  | [], d => d
  | _ :: rest, d =>
    let u := (closest_unvisited h d).1
    if u = -1 then d
    else main_loop h s rest (relax h s u { d with visited := store d.visited u true })

/-- The loop `while (pred[current] != current_node && pred[current] != -1)` of
`run_dijkstra`, run for at most `fuel` tests of its condition: the final
`(next_hop, current)`, or `none` when the fuel does not suffice. -/
def walk_pred (cur : Int) (pred : Int → Int) : Nat → Int → Int → Option (Int × Int)
  | 0, _, _ => none
  | fuel + 1, next_hop, current =>
    if pred current ≠ cur ∧ pred current ≠ -1 then
      walk_pred cur pred fuel (pred current) (pred current)
    else some (next_hop, current)

/-- The body of the last loop of `run_dijkstra` for a node `n` other than the current node:
its `set_route` call, or `none` when the predecessor walk runs out of fuel. -/
def route_to (fuel : Nat) (h : Host) (d : Dijkstra) (n : Int) : Option Route :=
  if d.dist n = h.COST_INFINITY then
    some { dest := n, next_hop := -1, cost := h.COST_INFINITY }
  else
    match walk_pred h.current_node d.pred fuel n n with
    | none => none
    | some (next_hop, current) =>
      if d.pred current ≠ -1 ∧ h.link_cost next_hop < h.COST_INFINITY then
        some { dest := n, next_hop := next_hop, cost := d.dist n }
      else some { dest := n, next_hop := -1, cost := h.COST_INFINITY }

/-- The last loop of `run_dijkstra`: the `set_route` calls in call order. -/
def install_routes (fuel : Nat) (h : Host) (d : Dijkstra) : List Int → Option (List Route)
  | [] => some []
  | n :: rest =>
    if n = h.current_node then install_routes fuel h d rest
    else
      match route_to fuel h d n with
      | none => none
      | some r => (install_routes fuel h d rest).map (fun rs => r :: rs)

/-- `run_dijkstra` of `ls.c`: its `set_route` calls, or `none` when a predecessor walk
needs more than `fuel` tests. -/
def run_dijkstra (fuel : Nat) (h : Host) (s : state_t) : Option (List Route) :=
  install_routes fuel h (main_loop h s h.nodes (dijkstra_init h s)) h.nodes

/-- `notify_link_change` of `ls.c` (the version is an unbounded integer here). -/
def notify_link_change (fuel : Nat) (h : Host) (s : state_t) (neighbor new_cost : Int) :
    Option Outcome :=
  let s1 : state_t :=
    { link_states := store s.link_states h.current_node
        { (s.link_states h.current_node) with
          link_cost := store (s.link_states h.current_node).link_cost neighbor new_cost } }
  let s2 : state_t :=
    { link_states := store s1.link_states h.current_node
        { (s1.link_states h.current_node) with
          version := (s1.link_states h.current_node).version + 1 } }
  match run_dijkstra fuel h s2 with
  | none => none
  | some routes => some { state := s2, routes := routes, sent := broadcast_message h s2 }

/-- The body of the `if` in the loop of `notify_receive_message`: the owner's entry is
replaced by the received one (version, whole struct, then the costs one by one). -/
def replace_entry (h : Host) (s : state_t) (received_data : data_t) (n : Int) : state_t :=
  let s1 : state_t :=
    { link_states := store s.link_states n
        { (s.link_states n) with version := (received_data.ls n).version } }
  let s2 : state_t := { link_states := store s1.link_states n (received_data.ls n) }
  h.nodes.foldl (fun (s : state_t) dest =>
    { link_states := store s.link_states n
        { (s.link_states n) with
          link_cost := store (s.link_states n).link_cost dest
            ((received_data.ls n).link_cost dest) } }) s2

/-- The loop of `notify_receive_message`: the state and the flag `updated` after it. -/
def receive_entries (h : Host) (s : state_t) (received_data : data_t) : state_t × Bool :=
  h.nodes.foldl (fun (acc : state_t × Bool) n =>
    if (received_data.ls n).version > (acc.1.link_states n).version then
      (replace_entry h acc.1 received_data n, true)
    else acc) (s, false)

/-- `notify_receive_message` of `ls.c`. -/
def notify_receive_message (fuel : Nat) (h : Host) (s : state_t) (sender : Int)
    (received_data : data_t) : Option Outcome :=
  let r := receive_entries h s received_data
  if r.2 then
    match run_dijkstra fuel h r.1 with
    | none => none
    | some routes => some { state := r.1, routes := routes, sent := broadcast_message h r.1 }
  else some { state := r.1, routes := [], sent := [] }

/-- The predecessor walk from `v` leaves its loop within `f` tests of the condition, and
every node it moves to is a visited one. -/
def Stops (cur : Int) (visited : Int → Bool) (pred : Int → Int) : Nat → Int → Prop
  | 0, _ => False
  | f + 1, v =>
    (pred v = cur ∨ pred v = -1) ∨ (visited (pred v) = true ∧ Stops cur visited pred f (pred v))

/-- The termination invariant of the main loop after `k` iterations: the walk from a visited
node stops within `k` tests, the walk from any enumerated node within `k + 1`. -/
def WalkInv (h : Host) (k : Nat) (d : Dijkstra) : Prop :=
  (∀ v, d.visited v = true → Stops h.current_node d.visited d.pred k v) ∧
  (∀ v ∈ h.nodes, d.visited v = false → Stops h.current_node d.visited d.pred (k + 1) v)

/-- The database that node `1` of the line floods after its link to node `2` came up with
cost `1`: its own entry has version `1`, the entries of the others are at version `0`. -/
def line_update : data_t :=
  { ls := fun n =>
      if n = 1 then { link_cost := fun d => if d = 1 then 0 else 1, version := 1 }
      else { link_cost := fun d => if d = n then 0 else 1000, version := 0 } }

/-- The cost, with saturating addition, of walking on from node `u` with cost `acc` so far
through the nodes of `p` in order; the edge from `u` to `v` weighs
`link_states[u].link_cost[v]`. -/
def path_cost (h : Host) (s : state_t) : Int → Int → List Int → Int
  | acc, _, [] => acc
  | acc, u, v :: p =>
    path_cost h s (COST_ADD h.COST_INFINITY acc ((s.link_states u).link_cost v)) v p

/-- The total cost of the directed path from the current node through the nodes of `q`, in
order, to `dest`. -/
def route_cost (h : Host) (s : state_t) (q : List Int) (dest : Int) : Int :=
  path_cost h s 0 h.current_node (q ++ [dest])

/-- The invariant of the main loop of `run_dijkstra` after `k` iterations. -/
structure DInv (h : Host) (s : state_t) (k : Nat) (d : Dijkstra) : Prop where
  dist_cur : d.dist h.current_node = 0
  dist_nonneg : ∀ v ∈ h.nodes, 0 ≤ d.dist v
  sound : ∀ v ∈ h.nodes, v ≠ h.current_node → d.dist v < h.COST_INFINITY →
    ∃ q, (∀ n ∈ q, n ∈ h.nodes) ∧ route_cost h s q v = d.dist v
  settled : ∀ v, d.visited v = true → v ∈ h.nodes ∧ d.dist v < h.COST_INFINITY ∧
    ∀ q, (∀ n ∈ q, n ∈ h.nodes) → d.dist v ≤ route_cost h s q v
  frontier : ∀ u, (d.visited u = true ∨ u = h.current_node) → ∀ v ∈ h.nodes,
    d.visited v = false → (s.link_states u).link_cost v < h.COST_INFINITY →
    d.dist v ≤ COST_ADD h.COST_INFINITY (d.dist u) ((s.link_states u).link_cost v)
  direct : ∀ v ∈ h.nodes, v ≠ h.current_node → d.pred v = h.current_node →
    d.dist v = (s.link_states h.current_node).link_cost v
  large : ∀ v ∈ h.nodes, h.COST_INFINITY < d.dist v → d.pred v = h.current_node
  pred_visited : ∀ v ∈ h.nodes, d.pred v = h.current_node ∨ d.visited (d.pred v) = true
  count : ∃ vs : List Int, vs.Nodup ∧ vs.length = k ∧ ∀ x, x ∈ vs ↔ d.visited x = true

/-- A database of node `0` on the line: its own row holds the live link costs, and node `1`
has flooded its link of cost `1` to node `2`. -/
def line_db : state_t :=
  { link_states := fun n =>
      if n = 0 then { link_cost := line_host.link_cost, version := 1 }
      else if n = 1 then { link_cost := fun d => if d = 1 then 0 else 1, version := 1 }
      else { link_cost := fun d => if d = 2 then 0 else if d = 1 then 1 else 1000, version := 0 } }

end LS

namespace PV

/-- Message format of `pv.c`. -/
structure message_t where
  data : Int → Int
  path : Int → Int → Int

/-- State format of `pv.c`. -/
structure state_t where
  neighbor_costs : Int → Int → Int
  paths : Int → Int → Int → Int

/-- The state after `recalculate_distance_vector`, its `set_route` calls and its return
value (during the loop: the local variable `updated`). -/
structure Recalc where
  state : state_t
  routes : List Route
  updated : Bool

/-- The state after a handler, its `set_route` calls and its `send_message` calls. -/
structure Outcome where
  state : state_t
  routes : List Route
  sent : List (Int × message_t)

/-- The message that `broadcast_message` fills in before each send; the entries of the local
`message` that the loop does not write are filled with `0` here. -/
def outgoing_message (h : Host) (s : state_t) : message_t :=
  h.nodes.foldl (fun (m : message_t) dest =>
    { data := store m.data dest (s.neighbor_costs h.current_node dest),
      path := store m.path dest (s.paths h.current_node dest) })
    { data := fun _ => 0, path := fun _ _ => 0 }

/-- `broadcast_message` of `pv.c`: the list of `send_message(n, &message, _)` calls. -/
def broadcast_message (h : Host) (s : state_t) : List (Int × message_t) :=
  h.nodes.foldl (fun sent n =>
    if h.link_cost n < h.COST_INFINITY ∧ n ≠ h.current_node then
      sent ++ [(n, outgoing_message h s)]
    else sent) []

/-- The loop of `contains_cycle` from index `i`, with `k` iterations left. -/
def contains_cycle_from (path : Int → Int) (node : Int) : Nat → Int → Bool
  | 0, _ => false
  | k + 1, i =>
    if path i = -1 then false
    else if path i = node then true
    else contains_cycle_from path node k (i + 1)

/-- `contains_cycle` of `pv.c`. -/
def contains_cycle (h : Host) (path : Int → Int) (node : Int) : Bool :=
  contains_cycle_from path node h.MAX_NODES 0

/-- `init_state` of `pv.c` (the memory comes zeroed from `calloc`). -/
def init_state (h : Host) : state_t :=
  h.nodes.foldl (fun (s : state_t) n =>
    h.nodes.foldl (fun (s : state_t) dest =>
      let s : state_t :=
        { s with
          neighbor_costs := store s.neighbor_costs n
            (store (s.neighbor_costs n) dest (if n = dest then 0 else h.COST_INFINITY)) }
      h.nodes.foldl (fun (s : state_t) next =>
        { s with
          paths := store s.paths n (store (s.paths n) dest (store (s.paths n dest) next (-1))) })
        s) s)
    { neighbor_costs := fun _ _ => 0, paths := fun _ _ _ => 0 }

/-- The loop "construct the new path" of `recalculate_distance_vector` from index `i`, with
`k` iterations left: `best_path[path_index++] = paths[neighbor][dest][i]`. -/
def copy_path (src : Int → Int) : Nat → Int → Int → (Int → Int) → (Int → Int)
  | 0, _, _, best_path => best_path
  | k + 1, i, path_index, best_path =>
    if src i ≠ -1 then copy_path src k (i + 1) (path_index + 1) (store best_path path_index (src i))
    else best_path

/-- The path built for a winning neighbour: `memset` to `-1`, the current node at index `0`,
then the neighbour's path up to its sentinel. -/
def new_path (h : Host) (src : Int → Int) : Int → Int :=
  copy_path src h.MAX_NODES 0 1 (store (fun _ => -1) 0 h.current_node)

/-- The local variables `best_cost`, `best_next_hop` and `best_path`. -/
structure Best where
  best_cost : Int
  best_next_hop : Int
  best_path : Int → Int

/-- One iteration of the loop over `neighbor` of `recalculate_distance_vector`. -/
def best_step (h : Host) (s : state_t) (dest : Int) (b : Best) (neighbor : Int) : Best :=
  if neighbor = h.current_node ∨ h.link_cost neighbor ≥ h.COST_INFINITY then b
  else
    let cost_via_neighbor :=
      COST_ADD h.COST_INFINITY (h.link_cost neighbor) (s.neighbor_costs neighbor dest)
    if contains_cycle h (s.paths neighbor dest) h.current_node = true then b
    else if cost_via_neighbor < b.best_cost then
      { best_cost := cost_via_neighbor, best_next_hop := neighbor,
        best_path := new_path h (s.paths neighbor dest) }
    else b

/-- The loop over `neighbor` of `recalculate_distance_vector` for one `dest`. -/
def best_route (h : Host) (s : state_t) (dest : Int) : Best :=
  h.nodes.foldl (best_step h s dest)
    { best_cost := h.COST_INFINITY, best_next_hop := -1, best_path := fun _ => -1 }

/-- The test `memcmp(a, b, sizeof(best_path)) == 0` on two paths of `MAX_NODES` entries. -/
def same_path (h : Host) (a b : Int → Int) : Bool :=
  (List.range h.MAX_NODES).all (fun i => decide (a (i : Int) = b (i : Int)))

/-- The test `memcmp(p, q, sizeof(paths_copy)) == 0` on two `paths` arrays. -/
def same_paths (h : Host) (p q : Int → Int → Int → Int) : Bool :=
  (List.range h.MAX_NODES).all (fun a =>
    (List.range h.MAX_NODES).all (fun b => same_path h (p (a : Int) (b : Int)) (q (a : Int) (b : Int))))

/-- One iteration of the loop over `dest` of `recalculate_distance_vector`. -/
def recalculate_step (h : Host) (acc : Recalc) (dest : Int) : Recalc :=
  if dest = h.current_node then acc
  else
    let b := best_route h acc.state dest
    if b.best_cost ≠ acc.state.neighbor_costs h.current_node dest ∨
        same_path h (acc.state.paths h.current_node dest) b.best_path = false then
      { state :=
          { neighbor_costs := store acc.state.neighbor_costs h.current_node
              (store (acc.state.neighbor_costs h.current_node) dest b.best_cost),
            paths := store acc.state.paths h.current_node
              (store (acc.state.paths h.current_node) dest b.best_path) },
        routes := acc.routes ++ [{ dest := dest, next_hop := b.best_next_hop, cost := b.best_cost }],
        updated := true }
    else acc

/-- `recalculate_distance_vector` of `pv.c`. -/
def recalculate_distance_vector (h : Host) (s : state_t) : Recalc :=
  let r := h.nodes.foldl (recalculate_step h) { state := s, routes := [], updated := false }
  if same_paths h s.paths r.state.paths = true then { r with updated := false } else r

/-- `invalidate_route` of `pv.c`: the state after it and its `set_route` calls. -/
def invalidate_route (h : Host) (s : state_t) (current_node neighbor : Int) :
    state_t × List Route :=
  h.nodes.foldl (fun (acc : state_t × List Route) dest =>
    if acc.1.paths current_node dest 0 = neighbor then
      ({ neighbor_costs := store acc.1.neighbor_costs current_node
            (store (acc.1.neighbor_costs current_node) dest h.COST_INFINITY),
         paths := store acc.1.paths current_node
            (store (acc.1.paths current_node) dest (fun _ => -1)) },
        acc.2 ++ [{ dest := dest, next_hop := -1, cost := h.COST_INFINITY }])
    else acc) (s, [])

/-- The part of `notify_link_change` before the recomputation: the new cost is stored and,
if it is `COST_INFINITY`, the routes through the neighbour are invalidated. -/
def link_change_update (h : Host) (s : state_t) (neighbor new_cost : Int) :
    state_t × List Route :=
  let s1 : state_t :=
    { s with
      neighbor_costs := store s.neighbor_costs h.current_node
        (store (s.neighbor_costs h.current_node) neighbor new_cost) }
  if new_cost = h.COST_INFINITY then invalidate_route h s1 h.current_node neighbor
  else (s1, [])

/-- `notify_link_change` of `pv.c`. -/
def notify_link_change (h : Host) (s : state_t) (neighbor new_cost : Int) : Outcome :=
  let u := link_change_update h s neighbor new_cost
  let r := recalculate_distance_vector h u.1
  if r.updated then
    { state := r.state, routes := u.2 ++ r.routes, sent := broadcast_message h r.state }
  else
    { state := r.state, routes := u.2 ++ r.routes, sent := [] }

/-- The part of `notify_receive_message` before the recomputation: the costs and the paths
of the message are copied into row `sender`. -/
def receive_update (h : Host) (s : state_t) (sender : Int) (received_message : message_t) :
    state_t :=
  let s1 := h.nodes.foldl (fun (s : state_t) n =>
    { s with
      neighbor_costs := store s.neighbor_costs sender
        (store (s.neighbor_costs sender) n (received_message.data n)) }) s
  h.nodes.foldl (fun (s : state_t) n =>
    h.nodes.foldl (fun (s : state_t) dest =>
      { s with
        paths := store s.paths sender
          (store (s.paths sender) n (store (s.paths sender n) dest (received_message.path n dest))) })
      s) s1

/-- `notify_receive_message` of `pv.c`. -/
def notify_receive_message (h : Host) (s : state_t) (sender : Int)
    (received_message : message_t) : Outcome :=
  let r := recalculate_distance_vector h (receive_update h s sender received_message)
  if r.updated then
    { state := r.state, routes := r.routes, sent := broadcast_message h r.state }
  else
    { state := r.state, routes := r.routes, sent := [] }

/-- The entries of a path before its sentinel, read from index `i` with `k` entries left. -/
def path_entries_from (path : Int → Int) : Nat → Int → List Int
  | 0, _ => []
  | k + 1, i => if path i = -1 then [] else path i :: path_entries_from path k (i + 1)

/-- The entries of a path of `MAX_NODES` slots up to its sentinel `-1`. -/
def path_entries (h : Host) (path : Int → Int) : List Int :=
  path_entries_from path h.MAX_NODES 0

/-- A state of node `0` on the line: the route to node `2` goes through node `1`, which has
advertised cost `5` and path `[1]`; the chosen cost is `6` and the chosen path `[0, 1]`. -/
def line_state : state_t :=
  { neighbor_costs := fun a b =>
      if a = b then 0
      else if a = 0 ∧ b = 1 then 1
      else if a = 0 ∧ b = 2 then 6
      else if a = 1 ∧ b = 2 then 5
      else 1000,
    paths := fun a b i =>
      if a = 0 ∧ b = 1 ∧ i = 0 then 0
      else if a = 0 ∧ b = 2 ∧ i = 0 then 0
      else if a = 0 ∧ b = 2 ∧ i = 1 then 1
      else if a = 1 ∧ b = 2 ∧ i = 0 then 1
      else -1 }

/-- A message of node `1`: its cost to node `2` is now `3`, over the same path `[1]`. -/
def line_message : message_t :=
  { data := fun b => if b = 1 then 0 else if b = 2 then 3 else 1,
    path := fun b i => if (b = 2 ∨ b = 0) ∧ i = 0 then 1 else -1 }

/-- The candidates of the loop over `neighbor`: an enumerated node is considered for `dest`
when it is not the current node, its link is live and the current node does not occur in
the path it has advertised (up to the sentinel). -/
def Candidate (h : Host) (s : state_t) (dest n : Int) : Prop :=
  n ≠ h.current_node ∧ h.link_cost n < h.COST_INFINITY ∧
    h.current_node ∉ path_entries h (s.paths n dest)

/-- The cost of the route to `dest` through neighbour `n`. -/
def cost_via (h : Host) (s : state_t) (dest n : Int) : Int :=
  COST_ADD h.COST_INFINITY (h.link_cost n) (s.neighbor_costs n dest)

/-- The chosen route to `dest` stored in the state is the given one: same cost, and the same
path on the `MAX_NODES` slots. -/
def Chosen (h : Host) (t : state_t) (dest : Int) (b : Best) : Prop :=
  t.neighbor_costs h.current_node dest = b.best_cost ∧
    same_path h (t.paths h.current_node dest) b.best_path = true

end PV

/-- The line `0 - 1 - 2` seen from node `0` after its only link has gone down. -/
def line_host_down : Host :=
  { line_host with link_cost := fun n => if n = 0 then 0 else 1000 }

/-- Four nodes seen from node `0`: nodes `1` and `2` are live neighbours at cost `1` each,
node `3` is not a neighbour. -/
def fork_host : Host :=
  { MAX_NODES := 4, COST_INFINITY := 1000, nodes := [0, 1, 2, 3], current_node := 0,
    link_cost := fun n => if n = 0 then 0 else if n = 1 ∨ n = 2 then 1 else 1000 }

/-- The same four nodes after the link to node `1` has become more expensive. -/
def fork_host_slow : Host :=
  { fork_host with link_cost := fun n => if n = 1 then 5 else fork_host.link_cost n }

namespace DV

/-- The vector that neighbour `n` of the fork sends: `0` to itself, `1` to node `3`. -/
def fork_vector (n : Int) : data_t :=
  { distance_vector := fun d => if d = n then 0 else if d = 3 then 1 else 1000 }

/-- A state of node `0` on the fork in which both neighbours have advertised cost `1` to
node `3` and no distance has been computed yet. -/
def fork_state : state_t :=
  receive_vector fork_host (receive_vector fork_host (init_state fork_host) 1 (fork_vector 1))
    2 (fork_vector 2)

/-- The stored route of a state agrees with a call `set_route(dest, next_hop, cost)`: the
distance and the next hop of `dest` are the ones of the call, and a next hop that is a node
reaches `dest` at exactly this cost according to what it has advertised. -/
def Consistent (h : Host) (t : state_t) (r : Route) : Prop :=
  t.distance_vector r.dest = r.cost ∧ t.best_next_hop r.dest = r.next_hop ∧
    (r.next_hop ≠ -1 →
      COST_ADD h.COST_INFINITY (h.link_cost r.next_hop) (t.neighbor_costs r.next_hop r.dest)
        = r.cost)

/-- The state of node `0` on the fork after both neighbours have advertised cost `1` to node
`3`, reached from `init_state` by two deliveries: the route to `3` goes through node `1`. -/
def fork_learned : state_t :=
  (notify_receive_message fork_host
    (notify_receive_message fork_host (init_state fork_host) 1 (fork_vector 1)).state
    2 (fork_vector 2)).state

/-- The vector in which neighbour `n` of the fork advertises cost `2` to node `3`. -/
def fork_vector_far (n : Int) : data_t :=
  { distance_vector := fun d => if d = n then 0 else if d = 3 then 2 else 1000 }

/-- The state of node `0` on the fork, reached from `init_state` by two deliveries, after
neighbour `1` has advertised cost `1` and neighbour `2` cost `2` to node `3`: the route to
`3` goes through node `1` at cost `2`. -/
def fork_tied : state_t :=
  (notify_receive_message fork_host
    (notify_receive_message fork_host (init_state fork_host) 1 (fork_vector 1)).state
    2 (fork_vector_far 2)).state

end DV

/-- The line `0 - 1 - 2` seen from node `0` after its link to node `1` has changed to
cost `3`. -/
def line_host_far : Host :=
  { line_host with link_cost := fun n => if n = 0 then 0 else if n = 1 then 3 else 1000 }

/-- A sparse universe: the nodes are `1` and `2`, node `0` does not exist; seen from
node `1`. -/
def sparse_host : Host :=
  { MAX_NODES := 4, COST_INFINITY := 1000, nodes := [1, 2], current_node := 1,
    link_cost := fun n => if n = 1 then 0 else if n = 2 then 1 else 1000 }

namespace LS

/-- The database `line_db` with another cost vector in the own row of node `0`: cost `7` to
node `1` instead of the live cost `1`; everything else is the same. -/
def line_db_stale : state_t :=
  { link_states := store line_db.link_states 0
      { link_cost := fun d => if d = 1 then 7 else line_host.link_cost d,
        version := (line_db.link_states 0).version } }

/-- A database whose entry for node `0` carries version `5` and cost `9` to every node. -/
def forged_update : data_t :=
  { ls := fun n =>
      if n = 0 then { link_cost := fun _ => 9, version := 5 }
      else { link_cost := fun d => if d = n then 0 else 1000, version := 0 } }

/-- The list `p` holds, in order, the nodes after `a` of a directed path from `a` to `b` over
enumerated nodes; it is empty only when `a = b`. -/
def IsPath (h : Host) (a b : Int) (p : List Int) : Prop :=
  (∀ n ∈ p, n ∈ h.nodes) ∧ (a :: p).getLast? = some b

end LS

namespace PV

end PV

/-! ## Theorems -/

theorem store_same {α : Type} (a : Int → α) (i : Int) (v : α) : store a i v i = v := by
  simp [store]

theorem store_other {α : Type} (a : Int → α) (i j : Int) (v : α) (hne : j ≠ i) :
    store a i v j = a j := by
  simp [store, hne]

theorem store_self {α : Type} (a : Int → α) (i : Int) : store a i (a i) = a := by
  funext j
  by_cases hj : j = i
  · subst hj; simp [store]
  · simp [store, hj]

namespace DV

/-- The scan of the inner loop over a list of candidates, from any starting pair. -/
theorem best_scan_spec (h : Host) (s : state_t) (dest : Int) (l : List Int) (b0 : Int × Int) :
    let r := l.foldl (fun (best : Int × Int) n =>
      if n = h.current_node then best
      else
        let cost_via_n := COST_ADD h.COST_INFINITY (h.link_cost n) (s.neighbor_costs n dest)
        if cost_via_n ≤ best.1 then (cost_via_n, n) else best) b0
    r.1 ≤ b0.1 ∧
    (∀ n ∈ l, n ≠ h.current_node →
      r.1 ≤ COST_ADD h.COST_INFINITY (h.link_cost n) (s.neighbor_costs n dest)) ∧
    (r = b0 ∨ ∃ n ∈ l, n ≠ h.current_node ∧ r.2 = n ∧
      r.1 = COST_ADD h.COST_INFINITY (h.link_cost n) (s.neighbor_costs n dest)) := by
  induction l generalizing b0 with
  | nil => simp
  | cons a l ih =>
    simp only [List.foldl_cons]
    by_cases ha : a = h.current_node
    · simp only [ha, if_true]
      obtain ⟨h1, h2, h3⟩ := ih b0
      refine ⟨h1, ?_, ?_⟩
      · intro n hn hne
        rcases List.mem_cons.mp hn with heq | hn
        · exact absurd heq hne
        · exact h2 n hn hne
      · rcases h3 with h3 | ⟨n, hn, hne, h4, h5⟩
        · exact Or.inl h3
        · exact Or.inr ⟨n, List.mem_cons_of_mem _ hn, hne, h4, h5⟩
    · simp only [ha, if_false]
      by_cases hc : COST_ADD h.COST_INFINITY (h.link_cost a) (s.neighbor_costs a dest) ≤ b0.1
      · simp only [hc, if_true]
        obtain ⟨h1, h2, h3⟩ :=
          ih (COST_ADD h.COST_INFINITY (h.link_cost a) (s.neighbor_costs a dest), a)
        refine ⟨le_trans h1 hc, ?_, ?_⟩
        · intro n hn hne
          rcases List.mem_cons.mp hn with rfl | hn
          · exact h1
          · exact h2 n hn hne
        · rcases h3 with h3 | ⟨n, hn, hne, h4, h5⟩
          · refine Or.inr ⟨a, List.mem_cons_self _ _, ha, ?_, ?_⟩
            · rw [h3]
            · rw [h3]
          · exact Or.inr ⟨n, List.mem_cons_of_mem _ hn, hne, h4, h5⟩
      · simp only [hc, if_false]
        obtain ⟨h1, h2, h3⟩ := ih b0
        refine ⟨h1, ?_, ?_⟩
        · intro n hn hne
          rcases List.mem_cons.mp hn with rfl | hn
          · exact le_trans h1 (le_of_lt (not_le.mp hc))
          · exact h2 n hn hne
        · rcases h3 with h3 | ⟨n, hn, hne, h4, h5⟩
          · exact Or.inl h3
          · exact Or.inr ⟨n, List.mem_cons_of_mem _ hn, hne, h4, h5⟩

theorem best_route_congr (h : Host) (s t : state_t) (dest : Int)
    (hnc : s.neighbor_costs = t.neighbor_costs) : best_route h s dest = best_route h t dest := by
  simp [best_route, hnc]

theorem recalculate_step_neighbor_costs (h : Host) (acc : Recalc) (dest : Int) :
    (recalculate_step h acc dest).state.neighbor_costs = acc.state.neighbor_costs := by
  unfold recalculate_step
  by_cases hc : dest = h.current_node
  · simp [hc]
  · by_cases hb : (best_route h acc.state dest).1 = acc.state.distance_vector dest
    · simp [hc, hb]
    · simp [hc, hb]

theorem recalculate_fold_neighbor_costs (h : Host) (l : List Int) (acc : Recalc) :
    (l.foldl (recalculate_step h) acc).state.neighbor_costs = acc.state.neighbor_costs := by
  induction l generalizing acc with
  | nil => rfl
  | cons a l ih => rw [List.foldl_cons, ih, recalculate_step_neighbor_costs]

/-- After the iteration for `dest`, the stored distance is the scanned best cost. -/
theorem recalculate_step_at (h : Host) (acc : Recalc) (dest : Int) (hne : dest ≠ h.current_node) :
    (recalculate_step h acc dest).state.distance_vector dest = (best_route h acc.state dest).1 := by
  unfold recalculate_step
  by_cases hb : (best_route h acc.state dest).1 = acc.state.distance_vector dest
  · simp [hne, hb]
  · simp [hne, hb, store]

/-- An iteration keeps a distance that already is the scanned best cost. -/
theorem recalculate_step_keeps (h : Host) (acc : Recalc) (d dest : Int)
    (hd : acc.state.distance_vector dest = (best_route h acc.state dest).1) :
    (recalculate_step h acc d).state.distance_vector dest = (best_route h acc.state dest).1 := by
  unfold recalculate_step
  by_cases hc : d = h.current_node
  · simp [hc, hd]
  · by_cases hb : (best_route h acc.state d).1 = acc.state.distance_vector d
    · simp [hc, hb, hd]
    · by_cases hdd : dest = d
      · subst hdd; simp [hc, hb, store]
      · simp [hc, hb, store, hdd, hd]

theorem recalculate_fold_keeps (h : Host) (l : List Int) (acc : Recalc) (dest : Int)
    (hd : acc.state.distance_vector dest = (best_route h acc.state dest).1) :
    (l.foldl (recalculate_step h) acc).state.distance_vector dest
      = (best_route h acc.state dest).1 := by
  induction l generalizing acc with
  | nil => exact hd
  | cons a l ih =>
    rw [List.foldl_cons]
    have hk := recalculate_step_keeps h acc a dest hd
    have hc := best_route_congr h (recalculate_step h acc a).state acc.state dest
      (recalculate_step_neighbor_costs h acc a)
    rw [← hc] at hk ⊢
    exact ih _ hk

theorem recalculate_fold_at (h : Host) (l : List Int) (acc : Recalc) (dest : Int)
    (hmem : dest ∈ l) (hne : dest ≠ h.current_node) :
    (l.foldl (recalculate_step h) acc).state.distance_vector dest
      = (best_route h acc.state dest).1 := by
  induction l generalizing acc with
  | nil => cases hmem
  | cons a l ih =>
    rw [List.foldl_cons]
    have hc := best_route_congr h (recalculate_step h acc a).state acc.state dest
      (recalculate_step_neighbor_costs h acc a)
    by_cases ha : dest = a
    · subst ha
      have hk := recalculate_step_at h acc dest hne
      rw [← hc] at hk ⊢
      exact recalculate_fold_keeps h l _ dest hk
    · rw [← hc]
      exact ih _ (by rcases List.mem_cons.mp hmem with h1 | h1; exact absurd h1 ha; exact h1)

/-- After `recalculate_distance_vector`, every enumerated destination other than the current
node stores the scanned best cost. -/
theorem recalculate_distance (h : Host) (s : state_t) (dest : Int)
    (hmem : dest ∈ h.nodes) (hne : dest ≠ h.current_node) :
    (recalculate_distance_vector h s).state.distance_vector dest = (best_route h s dest).1 :=
  recalculate_fold_at h h.nodes _ dest hmem hne

/-- C1. DV recompute: after `recalculate_distance_vector`, for every destination `dest` of the
enumeration other than the current node, `distance_vector[dest]` is the minimum of
`linkCost(dest)` and of `COST_ADD(linkCost(n), neighbor_costs[n][dest])` over the nodes `n`
other than the current node: it is a lower bound of all of them and it is one of them. -/
theorem dv_recalculate_is_minimum (h : Host) (s : state_t) (dest : Int)
    (hmem : dest ∈ h.nodes) (hne : dest ≠ h.current_node) :
    (recalculate_distance_vector h s).state.distance_vector dest ≤ h.link_cost dest ∧
    (∀ n ∈ h.nodes, n ≠ h.current_node →
      (recalculate_distance_vector h s).state.distance_vector dest
        ≤ COST_ADD h.COST_INFINITY (h.link_cost n) (s.neighbor_costs n dest)) ∧
    ((recalculate_distance_vector h s).state.distance_vector dest = h.link_cost dest ∨
      ∃ n ∈ h.nodes, n ≠ h.current_node ∧
        (recalculate_distance_vector h s).state.distance_vector dest
          = COST_ADD h.COST_INFINITY (h.link_cost n) (s.neighbor_costs n dest)) := by
  rw [recalculate_distance h s dest hmem hne]
  obtain ⟨h1, h2, h3⟩ := best_scan_spec h s dest h.nodes (h.link_cost dest, -1)
  refine ⟨h1, h2, ?_⟩
  rcases h3 with h3 | ⟨n, hn, hnc, _, h5⟩
  · left
    show (best_route h s dest).1 = h.link_cost dest
    unfold best_route
    rw [h3]
  · exact Or.inr ⟨n, hn, hnc, h5⟩

/-- Witness of C1 on the three-node line: destination `2` seen from node `0`. -/
theorem dv_recalculate_is_minimum_witness :
    (2 : Int) ∈ line_host.nodes ∧ (2 : Int) ≠ line_host.current_node ∧
    (recalculate_distance_vector line_host line_state).state.distance_vector 2
      ≤ line_host.link_cost 2 :=
  ⟨by decide, by decide,
    (dv_recalculate_is_minimum line_host line_state 2 (by decide) (by decide)).1⟩

theorem outgoing_scan (h : Host) (s : state_t) (n : Int) (l : List Int) (out0 : data_t)
    (dest : Int) :
    (l.foldl (fun (out : data_t) dest =>
      if s.best_next_hop dest = n then
        { distance_vector := store out.distance_vector dest h.COST_INFINITY }
      else out) out0).distance_vector dest
    = if dest ∈ l ∧ s.best_next_hop dest = n then h.COST_INFINITY
      else out0.distance_vector dest := by
  induction l generalizing out0 with
  | nil => simp
  | cons a l ih =>
    rw [List.foldl_cons, ih]
    by_cases hl : dest ∈ l ∧ s.best_next_hop dest = n
    · have hl2 : dest ∈ a :: l ∧ s.best_next_hop dest = n := ⟨List.mem_cons_of_mem _ hl.1, hl.2⟩
      rw [if_pos hl, if_pos hl2]
    · rw [if_neg hl]
      by_cases ha : s.best_next_hop a = n
      · rw [if_pos ha]
        by_cases hda : dest = a
        · subst hda
          rw [if_pos ⟨List.mem_cons_self _ _, ha⟩]
          simp [store]
        · have hl2 : ¬ (dest ∈ a :: l ∧ s.best_next_hop dest = n) := by
            rintro ⟨h1, h2⟩
            rcases List.mem_cons.mp h1 with h3 | h3
            · exact hda h3
            · exact hl ⟨h3, h2⟩
          rw [if_neg hl2]
          simp [store, hda]
      · rw [if_neg ha]
        have hl2 : ¬ (dest ∈ a :: l ∧ s.best_next_hop dest = n) := by
          rintro ⟨h1, h2⟩
          rcases List.mem_cons.mp h1 with h3 | h3
          · exact ha (h3 ▸ h2)
          · exact hl ⟨h3, h2⟩
        rw [if_neg hl2]

/-- The vector prepared for neighbour `n`, entry by entry. -/
theorem outgoing_data_at (h : Host) (s : state_t) (n dest : Int) :
    (outgoing_data h s n).distance_vector dest
    = if dest ∈ h.nodes ∧ s.best_next_hop dest = n then h.COST_INFINITY
      else s.distance_vector dest :=
  outgoing_scan h s n h.nodes _ dest

theorem broadcast_scan (h : Host) (s : state_t) (l : List Int) (sent0 : List (Int × data_t))
    (m : Int × data_t) :
    m ∈ l.foldl (fun sent n =>
      if h.link_cost n < h.COST_INFINITY ∧ n ≠ h.current_node then
        sent ++ [(n, outgoing_data h s n)]
      else sent) sent0
    ↔ m ∈ sent0 ∨ (m.1 ∈ l ∧ h.link_cost m.1 < h.COST_INFINITY ∧ m.1 ≠ h.current_node ∧
        m = (m.1, outgoing_data h s m.1)) := by
  induction l generalizing sent0 with
  | nil => simp
  | cons a l ih =>
    rw [List.foldl_cons, ih]
    by_cases hc : h.link_cost a < h.COST_INFINITY ∧ a ≠ h.current_node
    · rw [if_pos hc]
      constructor
      · rintro (h1 | ⟨h1, h2, h3, h4⟩)
        · rcases List.mem_append.mp h1 with h1 | h1
          · exact Or.inl h1
          · have hm : m = (a, outgoing_data h s a) := by simpa using h1
            right
            subst hm
            exact ⟨List.mem_cons_self _ _, hc.1, hc.2, rfl⟩
        · exact Or.inr ⟨List.mem_cons_of_mem _ h1, h2, h3, h4⟩
      · rintro (h1 | ⟨h1, h2, h3, h4⟩)
        · exact Or.inl (List.mem_append_left _ h1)
        · rcases List.mem_cons.mp h1 with h5 | h5
          · left
            apply List.mem_append_right
            rw [h4, h5]
            exact List.mem_singleton_self _
          · exact Or.inr ⟨h5, h2, h3, h4⟩
    · rw [if_neg hc]
      constructor
      · rintro (h1 | ⟨h1, h2, h3, h4⟩)
        · exact Or.inl h1
        · exact Or.inr ⟨List.mem_cons_of_mem _ h1, h2, h3, h4⟩
      · rintro (h1 | ⟨h1, h2, h3, h4⟩)
        · exact Or.inl h1
        · rcases List.mem_cons.mp h1 with h5 | h5
          · exact absurd ⟨h5 ▸ h2, h5 ▸ h3⟩ hc
          · exact Or.inr ⟨h5, h2, h3, h4⟩

/-- The messages of `broadcast_message`: one to every live neighbour, carrying its copy. -/
theorem mem_broadcast_message (h : Host) (s : state_t) (m : Int × data_t) :
    m ∈ broadcast_message h s ↔
      m.1 ∈ h.nodes ∧ h.link_cost m.1 < h.COST_INFINITY ∧ m.1 ≠ h.current_node ∧
        m = (m.1, outgoing_data h s m.1) := by
  unfold broadcast_message
  rw [broadcast_scan]
  simp

/-- C2. DV broadcast: `broadcast_message` sends a message to node `n` exactly when `n` is an
enumerated node other than the current node whose link cost is below `COST_INFINITY`; and in
every message sent to `n`, the entry of every enumerated destination `dest` is `COST_INFINITY`
if `best_next_hop[dest] == n` and `distance_vector[dest]` otherwise. -/
theorem dv_broadcast_poisoned_reverse (h : Host) (s : state_t) :
    (∀ n : Int, (∃ d : data_t, (n, d) ∈ broadcast_message h s) ↔
      (n ∈ h.nodes ∧ n ≠ h.current_node ∧ h.link_cost n < h.COST_INFINITY)) ∧
    (∀ (n : Int) (d : data_t), (n, d) ∈ broadcast_message h s → ∀ dest ∈ h.nodes,
      d.distance_vector dest
        = if s.best_next_hop dest = n then h.COST_INFINITY else s.distance_vector dest) := by
  constructor
  · intro n
    constructor
    · rintro ⟨d, hd⟩
      obtain ⟨h1, h2, h3, _⟩ := (mem_broadcast_message h s (n, d)).mp hd
      exact ⟨h1, h3, h2⟩
    · rintro ⟨h1, h2, h3⟩
      exact ⟨outgoing_data h s n, (mem_broadcast_message h s (n, _)).mpr ⟨h1, h3, h2, rfl⟩⟩
  · intro n d hd dest hdest
    obtain ⟨_, _, _, h4⟩ := (mem_broadcast_message h s (n, d)).mp hd
    have hd2 : d = outgoing_data h s n := by
      have := congrArg Prod.snd h4
      simpa using this
    rw [hd2, outgoing_data_at]
    simp [hdest]

/-- The copy loop of `notify_receive_message` touches `neighbor_costs` only. -/
theorem receive_copy_fields (sender : Int) (message : data_t) (l : List Int) (s : state_t) :
    (l.foldl (fun (s : state_t) dest =>
      { s with
        neighbor_costs := store s.neighbor_costs sender
          (store (s.neighbor_costs sender) dest (message.distance_vector dest)) }) s).distance_vector
      = s.distance_vector ∧
    (l.foldl (fun (s : state_t) dest =>
      { s with
        neighbor_costs := store s.neighbor_costs sender
          (store (s.neighbor_costs sender) dest (message.distance_vector dest)) }) s).best_next_hop
      = s.best_next_hop := by
  induction l generalizing s with
  | nil => exact ⟨rfl, rfl⟩
  | cons a l ih =>
    rw [List.foldl_cons]
    exact ih _

/-- After the copy loop, row `sender` holds the received vector at every enumerated node. -/
theorem receive_copy_at (sender : Int) (message : data_t) (l : List Int) (s : state_t)
    (dest : Int) :
    (l.foldl (fun (s : state_t) dest =>
      { s with
        neighbor_costs := store s.neighbor_costs sender
          (store (s.neighbor_costs sender) dest (message.distance_vector dest)) }) s).neighbor_costs
        sender dest
      = if dest ∈ l then message.distance_vector dest else s.neighbor_costs sender dest := by
  induction l generalizing s with
  | nil => simp
  | cons a l ih =>
    rw [List.foldl_cons, ih]
    by_cases hl : dest ∈ l
    · rw [if_pos hl, if_pos (List.mem_cons_of_mem _ hl)]
    · rw [if_neg hl]
      by_cases hda : dest = a
      · subst hda
        rw [if_pos (List.mem_cons_self _ _)]
        simp [store]
      · have hl2 : ¬ dest ∈ a :: l := by
          intro h1
          rcases List.mem_cons.mp h1 with h3 | h3
          · exact hda h3
          · exact hl h3
        rw [if_neg hl2]
        simp [store, hda]

/-- Copying a vector that row `sender` already holds leaves the state as it is. -/
theorem receive_copy_fixed (sender : Int) (message : data_t) (l : List Int) (s : state_t)
    (hrow : ∀ dest ∈ l, s.neighbor_costs sender dest = message.distance_vector dest) :
    l.foldl (fun (s : state_t) dest =>
      { s with
        neighbor_costs := store s.neighbor_costs sender
          (store (s.neighbor_costs sender) dest (message.distance_vector dest)) }) s = s := by
  induction l generalizing s with
  | nil => rfl
  | cons a l ih =>
    rw [List.foldl_cons]
    have hstep : ({ s with
        neighbor_costs := store s.neighbor_costs sender
          (store (s.neighbor_costs sender) a (message.distance_vector a)) } : state_t) = s := by
      rw [← hrow a (List.mem_cons_self _ _), store_self, store_self]
    rw [hstep]
    exact ih s (fun dest hd => hrow dest (List.mem_cons_of_mem _ hd))

/-- A recomputation over distances that already are the scanned best costs does nothing. -/
theorem recalculate_fold_fixed (h : Host) (l : List Int) (acc : Recalc)
    (hbest : ∀ dest ∈ l, dest ≠ h.current_node →
      acc.state.distance_vector dest = (best_route h acc.state dest).1) :
    l.foldl (recalculate_step h) acc = acc := by
  induction l generalizing acc with
  | nil => rfl
  | cons a l ih =>
    rw [List.foldl_cons]
    have hstep : recalculate_step h acc a = acc := by
      unfold recalculate_step
      by_cases hc : a = h.current_node
      · simp [hc]
      · simp [hc, (hbest a (List.mem_cons_self _ _) hc).symm]
    rw [hstep]
    exact ih acc (fun dest hd => hbest dest (List.mem_cons_of_mem _ hd))

/-- The state that `recalculate_distance_vector` leaves is a fixed point of it. -/
theorem recalculate_twice (h : Host) (s : state_t) :
    recalculate_distance_vector h (recalculate_distance_vector h s).state
      = { state := (recalculate_distance_vector h s).state, routes := [], updated := false } := by
  apply recalculate_fold_fixed
  intro dest hd hne
  show (recalculate_distance_vector h s).state.distance_vector dest = _
  rw [recalculate_distance h s dest hd hne]
  have hnc : (recalculate_distance_vector h s).state.neighbor_costs = s.neighbor_costs :=
    recalculate_fold_neighbor_costs h h.nodes _
  rw [best_route_congr h _ s dest hnc]

/-- The state after `notify_receive_message`, in both branches of its last test. -/
theorem receive_state (h : Host) (s : state_t) (sender : Int) (message : data_t) :
    (notify_receive_message h s sender message).state
      = (recalculate_distance_vector h (receive_vector h s sender message)).state := by
  unfold notify_receive_message
  simp only []
  split_ifs <;> rfl

/-- A delivery that finds its vector already stored and the distances already recomputed
has no effect at all. -/
theorem receive_no_effect (h : Host) (t : state_t) (sender : Int) (message : data_t)
    (hfix : receive_vector h t sender message = t)
    (hrec : recalculate_distance_vector h t = { state := t, routes := [], updated := false }) :
    notify_receive_message h t sender message = { state := t, routes := [], sent := [] } := by
  unfold notify_receive_message
  simp only []
  rw [hfix, hrec]
  simp

/-- C9. DV idempotence: with the host's link costs fixed, delivering the same vector from the
same sender a second time leaves the state as the first delivery left it, and makes no
`set_route` call and no `send_message` call. -/
theorem dv_receive_twice (h : Host) (s : state_t) (sender : Int) (message : data_t) :
    (notify_receive_message h (notify_receive_message h s sender message).state sender
        message).state = (notify_receive_message h s sender message).state ∧
    (notify_receive_message h (notify_receive_message h s sender message).state sender
        message).routes = [] ∧
    (notify_receive_message h (notify_receive_message h s sender message).state sender
        message).sent = [] := by
  have hnc : (notify_receive_message h s sender message).state.neighbor_costs
      = (receive_vector h s sender message).neighbor_costs := by
    rw [receive_state]
    exact recalculate_fold_neighbor_costs h h.nodes _
  have hfix : receive_vector h (notify_receive_message h s sender message).state sender message
      = (notify_receive_message h s sender message).state := by
    apply receive_copy_fixed
    intro dest hd
    rw [hnc]
    unfold receive_vector
    rw [receive_copy_at, if_pos hd]
  have hrec : recalculate_distance_vector h (notify_receive_message h s sender message).state
      = { state := (notify_receive_message h s sender message).state,
          routes := [], updated := false } := by
    rw [receive_state]
    exact recalculate_twice h _
  rw [receive_no_effect h _ sender message hfix hrec]
  exact ⟨rfl, rfl, rfl⟩

end DV

namespace LS

/-- Invariant rule for the main loop of `run_dijkstra`: a property indexed by the number of
completed iterations that every iteration re-establishes holds at the exit, where either
the loop has found no candidate or it has run for the whole list. -/
theorem main_loop_rule (h : Host) (s : state_t) (P : Nat → Dijkstra → Prop)
    (hstep : ∀ k d, P k d → (closest_unvisited h d).1 ≠ -1 →
      P (k + 1) (relax h s (closest_unvisited h d).1
        { d with visited := store d.visited (closest_unvisited h d).1 true }))
    (l : List Int) (k : Nat) (d : Dijkstra) (hP : P k d) :
    ∃ k', k' ≤ k + l.length ∧ P k' (main_loop h s l d) ∧
      ((closest_unvisited h (main_loop h s l d)).1 = -1 ∨ k' = k + l.length) := by
  induction l generalizing k d with
  | nil => exact ⟨k, by simp, hP, Or.inr (by simp)⟩
  | cons a l ih =>
    by_cases hu : (closest_unvisited h d).1 = -1
    · refine ⟨k, by simp, ?_, Or.inl ?_⟩
      · simp [main_loop, hu, hP]
      · simp [main_loop, hu]
    · obtain ⟨k', h1, h2, h3⟩ := ih (k + 1) _ (hstep k d hP hu)
      refine ⟨k', ?_, ?_, ?_⟩
      · simp only [List.length_cons]; omega
      · simpa [main_loop, hu] using h2
      · rcases h3 with h3 | h3
        · left; simpa [main_loop, hu] using h3
        · right; simp only [List.length_cons]; omega

/-- The scan for the closest unvisited node, from any starting pair. -/
theorem closest_scan (d : Dijkstra) (l : List Int) (b0 : Int × Int) :
    let r := l.foldl (fun (best : Int × Int) candidate =>
      if d.visited candidate = false ∧ d.dist candidate < best.2 then
        (candidate, d.dist candidate)
      else best) b0
    (r = b0 ∧ ∀ c ∈ l, d.visited c = false → b0.2 ≤ d.dist c) ∨
    (r.1 ∈ l ∧ d.visited r.1 = false ∧ r.2 = d.dist r.1 ∧ r.2 < b0.2 ∧
      ∀ c ∈ l, d.visited c = false → r.2 ≤ d.dist c) := by
  induction l generalizing b0 with
  | nil => simp
  | cons a l ih =>
    simp only [List.foldl_cons]
    by_cases hc : d.visited a = false ∧ d.dist a < b0.2
    · rw [if_pos hc]
      rcases ih (a, d.dist a) with ⟨h1, h2⟩ | ⟨h1, h2, h3, h4, h5⟩
      · right
        rw [h1]
        refine ⟨List.mem_cons_self _ _, hc.1, rfl, hc.2, ?_⟩
        intro c hcm hv
        rcases List.mem_cons.mp hcm with h6 | h6
        · rw [h6]
        · exact h2 c h6 hv
      · right
        refine ⟨List.mem_cons_of_mem _ h1, h2, h3, lt_trans h4 hc.2, ?_⟩
        intro c hcm hv
        rcases List.mem_cons.mp hcm with h6 | h6
        · rw [h6]; exact le_of_lt h4
        · exact h5 c h6 hv
    · rw [if_neg hc]
      have ha : d.visited a = false → b0.2 ≤ d.dist a := by
        intro hv
        by_contra hlt
        exact hc ⟨hv, not_le.mp hlt⟩
      rcases ih b0 with ⟨h1, h2⟩ | ⟨h1, h2, h3, h4, h5⟩
      · left
        refine ⟨h1, ?_⟩
        intro c hcm hv
        rcases List.mem_cons.mp hcm with h6 | h6
        · rw [h6]; exact ha (h6 ▸ hv)
        · exact h2 c h6 hv
      · right
        refine ⟨List.mem_cons_of_mem _ h1, h2, h3, h4, ?_⟩
        intro c hcm hv
        rcases List.mem_cons.mp hcm with h6 | h6
        · rw [h6]; exact le_trans (le_of_lt h4) (ha (h6 ▸ hv))
        · exact h5 c h6 hv

/-- What `closest_unvisited` returns: no candidate, every unvisited node being at distance
`COST_INFINITY` or more; or an unvisited node of least distance, below `COST_INFINITY`. -/
theorem closest_unvisited_spec (h : Host) (d : Dijkstra) :
    ((closest_unvisited h d).1 = -1 ∧
      ∀ c ∈ h.nodes, d.visited c = false → h.COST_INFINITY ≤ d.dist c) ∨
    ((closest_unvisited h d).1 ∈ h.nodes ∧ d.visited (closest_unvisited h d).1 = false ∧
      d.dist (closest_unvisited h d).1 < h.COST_INFINITY ∧
      ∀ c ∈ h.nodes, d.visited c = false → d.dist (closest_unvisited h d).1 ≤ d.dist c) := by
  rcases closest_scan d h.nodes (-1, h.COST_INFINITY) with ⟨h1, h2⟩ | ⟨h1, h2, h3, h4, h5⟩
  · left
    refine ⟨?_, h2⟩
    show (closest_unvisited h d).1 = -1
    unfold closest_unvisited
    rw [h1]
  · right
    refine ⟨h1, h2, ?_, ?_⟩
    · have := h3 ▸ h4
      exact this
    · intro c hc hv
      have := h5 c hc hv
      rw [h3] at this
      exact this

/-- The relaxation loop, entry by entry: an unvisited enumerated node with a finite link from
`u` that improves its distance gets the new distance and predecessor `u`; every other entry,
and the visited flags, stay. -/
theorem relax_scan (h : Host) (s : state_t) (u : Int) (l : List Int) (d : Dijkstra)
    (hu : d.visited u = true) (v : Int) :
    (l.foldl (relax_step h s u) d).visited = d.visited ∧
    (l.foldl (relax_step h s u) d).dist u = d.dist u ∧
    ((v ∈ l ∧ d.visited v = false ∧ (s.link_states u).link_cost v < h.COST_INFINITY ∧
        COST_ADD h.COST_INFINITY (d.dist u) ((s.link_states u).link_cost v) < d.dist v) →
      (l.foldl (relax_step h s u) d).dist v
          = COST_ADD h.COST_INFINITY (d.dist u) ((s.link_states u).link_cost v) ∧
        (l.foldl (relax_step h s u) d).pred v = u) ∧
    (¬ (v ∈ l ∧ d.visited v = false ∧ (s.link_states u).link_cost v < h.COST_INFINITY ∧
        COST_ADD h.COST_INFINITY (d.dist u) ((s.link_states u).link_cost v) < d.dist v) →
      (l.foldl (relax_step h s u) d).dist v = d.dist v ∧
        (l.foldl (relax_step h s u) d).pred v = d.pred v) := by
  induction l generalizing d with
  | nil => simp
  | cons a l ih =>
    rw [List.foldl_cons]
    by_cases hc : (d.visited a = false ∧ (s.link_states u).link_cost a < h.COST_INFINITY) ∧
        COST_ADD h.COST_INFINITY (d.dist u) ((s.link_states u).link_cost a) < d.dist a
    · -- the entry of `a` is rewritten
      have hau : a ≠ u := by
        intro hau
        rw [hau, hu] at hc
        exact absurd hc.1.1 (by simp)
      have hstep : relax_step h s u d a =
          { d with dist := store d.dist a
                      (COST_ADD h.COST_INFINITY (d.dist u) ((s.link_states u).link_cost a)),
                   pred := store d.pred a u } := by
        unfold relax_step
        rw [if_pos hc.1]
        simp only []
        rw [if_pos hc.2]
      rw [hstep]
      obtain ⟨i1, i2, i3, i4⟩ := ih
        { d with dist := store d.dist a
                    (COST_ADD h.COST_INFINITY (d.dist u) ((s.link_states u).link_cost a)),
                 pred := store d.pred a u } hu
      have hdu : store d.dist a
          (COST_ADD h.COST_INFINITY (d.dist u) ((s.link_states u).link_cost a)) u = d.dist u :=
        store_other _ _ _ _ (Ne.symm hau)
      simp only [hdu] at i2 i3 i4
      refine ⟨i1, i2, ?_, ?_⟩
      · rintro ⟨h1, h2, h3, h4⟩
        by_cases hva : v = a
        · subst hva
          have := i4 (by
            rintro ⟨_, _, _, h8⟩
            rw [store_same] at h8
            exact lt_irrefl _ h8)
          simpa only [store_same] using this
        · have hvl : v ∈ l := by
            rcases List.mem_cons.mp h1 with h5 | h5
            · exact absurd h5 hva
            · exact h5
          apply i3
          refine ⟨hvl, h2, h3, ?_⟩
          rw [store_other _ _ _ _ hva]
          exact h4
      · intro hn
        have hva : v ≠ a := by
          intro hva
          apply hn
          rw [hva]
          exact ⟨List.mem_cons_self _ _, hc.1.1, hc.1.2, hc.2⟩
        have := i4 (by
          rintro ⟨h5, h6, h7, h8⟩
          apply hn
          refine ⟨List.mem_cons_of_mem _ h5, h6, h7, ?_⟩
          rw [store_other _ _ _ _ hva] at h8
          exact h8)
        simp only [store_other _ _ _ _ hva] at this
        exact this
    · have hstep : relax_step h s u d a = d := by
        unfold relax_step
        by_cases hc1 : d.visited a = false ∧ (s.link_states u).link_cost a < h.COST_INFINITY
        · rw [if_pos hc1]
          simp only []
          rw [if_neg (fun hc2 => hc ⟨hc1, hc2⟩)]
        · rw [if_neg hc1]
      rw [hstep]
      obtain ⟨i1, i2, i3, i4⟩ := ih d hu
      refine ⟨i1, i2, ?_, ?_⟩
      · rintro ⟨h1, h2, h3, h4⟩
        apply i3
        refine ⟨?_, h2, h3, h4⟩
        rcases List.mem_cons.mp h1 with h5 | h5
        · exact absurd ⟨⟨h5 ▸ h2, h5 ▸ h3⟩, h5 ▸ h4⟩ hc
        · exact h5
      · intro hn
        apply i4
        rintro ⟨h5, h6, h7, h8⟩
        exact hn ⟨List.mem_cons_of_mem _ h5, h6, h7, h8⟩

theorem stops_succ (cur : Int) (vis : Int → Bool) (pred : Int → Int) (f : Nat) (v : Int)
    (hs : Stops cur vis pred f v) : Stops cur vis pred (f + 1) v := by
  induction f generalizing v with
  | zero => exact absurd hs (by simp [Stops])
  | succ f ih =>
    rcases hs with h1 | ⟨h1, h2⟩
    · exact Or.inl h1
    · exact Or.inr ⟨h1, ih _ h2⟩

theorem stops_mono (cur : Int) (vis : Int → Bool) (pred : Int → Int) (f g : Nat) (v : Int)
    (hfg : f ≤ g) (hs : Stops cur vis pred f v) : Stops cur vis pred g v := by
  induction hfg with
  | refl => exact hs
  | step _ ih => exact stops_succ _ _ _ _ _ ih

/-- A walk that stops keeps stopping when more nodes are visited and the predecessors of
the visited nodes and of its start are kept. -/
theorem stops_congr (cur : Int) (vis vis2 : Int → Bool) (pred pred2 : Int → Int)
    (hvis : ∀ x, vis x = true → vis2 x = true ∧ pred2 x = pred x) (f : Nat) (v : Int)
    (hv : pred2 v = pred v) (hs : Stops cur vis pred f v) : Stops cur vis2 pred2 f v := by
  induction f generalizing v with
  | zero => exact absurd hs (by simp [Stops])
  | succ f ih =>
    rcases hs with h1 | ⟨h1, h2⟩
    · left; rw [hv]; exact h1
    · right
      rw [hv]
      exact ⟨(hvis _ h1).1, ih _ (hvis _ h1).2 h2⟩

/-- A walk that stops within `f` tests returns with fuel `f`. -/
theorem walk_pred_of_stops (cur : Int) (vis : Int → Bool) (pred : Int → Int) (f : Nat)
    (v nh : Int) (hs : Stops cur vis pred f v) : ∃ r, walk_pred cur pred f nh v = some r := by
  induction f generalizing v nh with
  | zero => exact absurd hs (by simp [Stops])
  | succ f ih =>
    unfold walk_pred
    by_cases hc : pred v ≠ cur ∧ pred v ≠ -1
    · rw [if_pos hc]
      rcases hs with h1 | ⟨_, h2⟩
      · rcases h1 with h1 | h1
        · exact absurd h1 hc.1
        · exact absurd h1 hc.2
      · exact ih _ _ h2
    · rw [if_neg hc]
      exact ⟨_, rfl⟩

/-- The initial arrays of `run_dijkstra`, entry by entry. -/
theorem dijkstra_init_scan (h : Host) (s : state_t) (l : List Int) (d : Dijkstra) (v : Int) :
    let r := l.foldl (fun (d : Dijkstra) n =>
      { dist := store d.dist n ((s.link_states h.current_node).link_cost n),
        visited := store d.visited n false,
        pred := store d.pred n h.current_node }) d
    (v ∈ l → r.dist v = (s.link_states h.current_node).link_cost v ∧ r.visited v = false ∧
      r.pred v = h.current_node) ∧
    (v ∉ l → r.dist v = d.dist v ∧ r.visited v = d.visited v ∧ r.pred v = d.pred v) := by
  induction l generalizing d with
  | nil => simp
  | cons a l ih =>
    simp only [List.foldl_cons]
    obtain ⟨i1, i2⟩ := ih
      { dist := store d.dist a ((s.link_states h.current_node).link_cost a),
        visited := store d.visited a false,
        pred := store d.pred a h.current_node }
    constructor
    · intro hv
      by_cases hl : v ∈ l
      · exact i1 hl
      · have hva : v = a := by
          rcases List.mem_cons.mp hv with h1 | h1
          · exact h1
          · exact absurd h1 hl
        have := i2 hl
        subst hva
        simpa [store_same] using this
    · intro hv
      have hl : v ∉ l := fun hl => hv (List.mem_cons_of_mem _ hl)
      have hva : v ≠ a := fun hva => hv (hva ▸ List.mem_cons_self _ _)
      have := i2 hl
      simpa [store_other _ _ _ _ hva] using this

theorem dijkstra_init_visited (h : Host) (s : state_t) (v : Int) :
    (dijkstra_init h s).visited v = false := by
  have hs := dijkstra_init_scan h s h.nodes
    { dist := fun _ => 0, visited := fun _ => false, pred := fun _ => 0 } v
  by_cases hv : v ∈ h.nodes
  · exact (hs.1 hv).2.1
  · exact (hs.2 hv).2.1

theorem dijkstra_init_pred (h : Host) (s : state_t) (v : Int) (hv : v ∈ h.nodes) :
    (dijkstra_init h s).pred v = h.current_node :=
  ((dijkstra_init_scan h s h.nodes
    { dist := fun _ => 0, visited := fun _ => false, pred := fun _ => 0 } v).1 hv).2.2

theorem dijkstra_init_dist (h : Host) (s : state_t) (v : Int) (hv : v ∈ h.nodes) :
    (dijkstra_init h s).dist v
      = if v = h.current_node then 0 else (s.link_states h.current_node).link_cost v := by
  have hs := ((dijkstra_init_scan h s h.nodes
    { dist := fun _ => 0, visited := fun _ => false, pred := fun _ => 0 } v).1 hv).1
  show store _ h.current_node 0 v = _
  by_cases hc : v = h.current_node
  · rw [if_pos hc, hc, store_same]
  · rw [if_neg hc, store_other _ _ _ _ hc]
    exact hs

theorem dijkstra_init_dist_current (h : Host) (s : state_t) :
    (dijkstra_init h s).dist h.current_node = 0 := by
  show store _ h.current_node 0 h.current_node = 0
  rw [store_same]

theorem walk_inv_init (h : Host) (s : state_t) : WalkInv h 0 (dijkstra_init h s) := by
  constructor
  · intro v hv
    rw [dijkstra_init_visited] at hv
    exact absurd hv (by simp)
  · intro v hv _
    exact Or.inl (Or.inl (dijkstra_init_pred h s v hv))

/-- The relaxation loop after marking `u`: flags and the entries of visited nodes stay, and a
predecessor that changes becomes `u`. -/
theorem relax_marked (h : Host) (s : state_t) (u : Int) (d : Dijkstra) :
    (relax h s u { d with visited := store d.visited u true }).visited
        = store d.visited u true ∧
    (∀ x, store d.visited u true x = true →
      (relax h s u { d with visited := store d.visited u true }).pred x = d.pred x ∧
      (relax h s u { d with visited := store d.visited u true }).dist x = d.dist x) ∧
    (∀ x, (relax h s u { d with visited := store d.visited u true }).pred x = d.pred x ∨
      (relax h s u { d with visited := store d.visited u true }).pred x = u) := by
  have hu : ({ d with visited := store d.visited u true } : Dijkstra).visited u = true :=
    store_same _ _ _
  refine ⟨(relax_scan h s u h.nodes _ hu u).1, ?_, ?_⟩
  · intro x hx
    obtain ⟨_, _, _, h4⟩ := relax_scan h s u h.nodes _ hu x
    have := h4 (by
      rintro ⟨_, h6, _, _⟩
      rw [show ({ d with visited := store d.visited u true } : Dijkstra).visited x
        = store d.visited u true x from rfl, hx] at h6
      exact absurd h6 (by simp))
    exact ⟨this.2, this.1⟩
  · intro x
    obtain ⟨_, _, h3, h4⟩ := relax_scan h s u h.nodes _ hu x
    by_cases hc : (x ∈ h.nodes ∧
        ({ d with visited := store d.visited u true } : Dijkstra).visited x = false ∧
        (s.link_states u).link_cost x < h.COST_INFINITY ∧
        COST_ADD h.COST_INFINITY (({ d with visited := store d.visited u true } : Dijkstra).dist u)
          ((s.link_states u).link_cost x)
          < ({ d with visited := store d.visited u true } : Dijkstra).dist x)
    · exact Or.inr (h3 hc).2
    · exact Or.inl (h4 hc).2

theorem walk_inv_step (h : Host) (s : state_t) (k : Nat) (d : Dijkstra) (hinv : WalkInv h k d)
    (hu : (closest_unvisited h d).1 ≠ -1) :
    WalkInv h (k + 1) (relax h s (closest_unvisited h d).1
      { d with visited := store d.visited (closest_unvisited h d).1 true }) := by
  obtain ⟨hv1, hv2, hv3⟩ := relax_marked h s (closest_unvisited h d).1 d
  rcases closest_unvisited_spec h d with ⟨h1, _⟩ | ⟨hmem, hunv, _, _⟩
  · exact absurd h1 hu
  generalize (closest_unvisited h d).1 = u at *
  generalize relax h s u { d with visited := store d.visited u true } = d2 at *
  have hold : ∀ x, d.visited x = true → d2.visited x = true ∧ d2.pred x = d.pred x := by
    intro x hx
    have hx2 : store d.visited u true x = true := by
      unfold store
      split_ifs
      · rfl
      · exact hx
    exact ⟨by rw [hv1]; exact hx2, (hv2 x hx2).1⟩
  have hu2 : d2.visited u = true := by rw [hv1]; exact store_same _ _ _
  have hpu : d2.pred u = d.pred u := (hv2 u (store_same _ _ _)).1
  have hsu : Stops h.current_node d2.visited d2.pred (k + 1) u :=
    stops_congr _ _ _ _ _ hold _ _ hpu (hinv.2 u hmem hunv)
  constructor
  · intro v hv
    by_cases hvu : v = u
    · rw [hvu]; exact hsu
    · have hvd : d.visited v = true := by
        rw [hv1, store_other _ _ _ _ hvu] at hv
        exact hv
      exact stops_succ _ _ _ _ _ (stops_congr _ _ _ _ _ hold _ _ (hold v hvd).2 (hinv.1 v hvd))
  · intro v hv hunv2
    have hvu : v ≠ u := by
      intro hvu
      rw [hvu, hu2] at hunv2
      exact absurd hunv2 (by simp)
    have hvd : d.visited v = false := by
      rw [hv1, store_other _ _ _ _ hvu] at hunv2
      exact hunv2
    rcases hv3 v with hp | hp
    · exact stops_succ _ _ _ _ _ (stops_congr _ _ _ _ _ hold _ _ hp (hinv.2 v hv hvd))
    · right
      rw [hp]
      exact ⟨hu2, hsu⟩

/-- After the main loop, the predecessor walk from every enumerated node stops within
`|nodes| + 1` tests of its condition. -/
theorem main_loop_stops (h : Host) (s : state_t) (v : Int) (hv : v ∈ h.nodes) :
    Stops h.current_node (main_loop h s h.nodes (dijkstra_init h s)).visited
      (main_loop h s h.nodes (dijkstra_init h s)).pred (h.nodes.length + 1) v := by
  obtain ⟨k, hk, hinv, _⟩ := main_loop_rule h s (WalkInv h)
    (fun k d hP hu => walk_inv_step h s k d hP hu) h.nodes 0 _ (walk_inv_init h s)
  by_cases hvis : (main_loop h s h.nodes (dijkstra_init h s)).visited v = true
  · exact stops_mono _ _ _ _ _ _ (by omega) (hinv.1 v hvis)
  · exact stops_mono _ _ _ _ _ _ (by omega) (hinv.2 v hv (by simpa using hvis))

theorem route_to_returns (fuel : Nat) (h : Host) (d : Dijkstra) (n : Int)
    (hw : ∃ r, walk_pred h.current_node d.pred fuel n n = some r) :
    ∃ r, route_to fuel h d n = some r := by
  unfold route_to
  by_cases hd : d.dist n = h.COST_INFINITY
  · rw [if_pos hd]; exact ⟨_, rfl⟩
  · rw [if_neg hd]
    obtain ⟨r, hr⟩ := hw
    rw [hr]
    simp only []
    split_ifs
    · exact ⟨_, rfl⟩
    · exact ⟨_, rfl⟩

theorem install_routes_returns (fuel : Nat) (h : Host) (d : Dijkstra) (l : List Int)
    (hw : ∀ n ∈ l, ∃ r, walk_pred h.current_node d.pred fuel n n = some r) :
    ∃ rs, install_routes fuel h d l = some rs := by
  induction l with
  | nil => exact ⟨[], rfl⟩
  | cons a l ih =>
    obtain ⟨rs, hrs⟩ := ih (fun n hn => hw n (List.mem_cons_of_mem _ hn))
    unfold install_routes
    by_cases hc : a = h.current_node
    · rw [if_pos hc]; exact ⟨rs, hrs⟩
    · rw [if_neg hc]
      obtain ⟨r, hr⟩ := route_to_returns fuel h d a (hw a (List.mem_cons_self _ _))
      rw [hr, hrs]
      exact ⟨_, rfl⟩

/-- `run_dijkstra` returns: with fuel for `|nodes| + 1` tests every predecessor walk ends. -/
theorem run_dijkstra_returns (fuel : Nat) (h : Host) (s : state_t)
    (hfuel : h.nodes.length + 1 ≤ fuel) : ∃ rs, run_dijkstra fuel h s = some rs := by
  apply install_routes_returns
  intro n hn
  exact walk_pred_of_stops _ _ _ _ _ _ (stops_mono _ _ _ _ _ _ hfuel (main_loop_stops h s n hn))

end LS

theorem store_store {α : Type} (a : Int → α) (i : Int) (v w : α) :
    store (store a i v) i w = store a i w := by
  funext j
  by_cases hj : j = i
  · simp [store, hj]
  · simp [store, hj]

namespace LS

/-- The copy of the costs one by one rewrites an entry that already is the received one. -/
theorem replace_costs_fixed (received_data : data_t) (n : Int) (l : List Int) (t : state_t)
    (ht : t.link_states n = received_data.ls n) :
    l.foldl (fun (s : state_t) dest =>
      ({ link_states := store s.link_states n
          { (s.link_states n) with
            link_cost := store (s.link_states n).link_cost dest
              ((received_data.ls n).link_cost dest) } } : state_t)) t = t := by
  induction l with
  | nil => rfl
  | cons a l ih =>
    rw [List.foldl_cons]
    have hstep : (⟨store t.link_states n ⟨store (t.link_states n).link_cost a
        ((received_data.ls n).link_cost a), (t.link_states n).version⟩⟩ : state_t) = t := by
      rw [← ht, store_self]
      have : (⟨(t.link_states n).link_cost, (t.link_states n).version⟩ : link_state_t)
          = t.link_states n := rfl
      rw [this, store_self]
    show List.foldl _ (⟨store t.link_states n ⟨store (t.link_states n).link_cost a
        ((received_data.ls n).link_cost a), (t.link_states n).version⟩⟩ : state_t) l = t
    rw [hstep]
    exact ih

/-- The three assignments that replace an entry amount to one store of the received entry. -/
theorem replace_entry_eq (h : Host) (s : state_t) (received_data : data_t) (n : Int) :
    replace_entry h s received_data n
      = { link_states := store s.link_states n (received_data.ls n) } := by
  unfold replace_entry
  simp only [store_store]
  exact replace_costs_fixed received_data n h.nodes _ (store_same _ _ _)

/-- The loop of `notify_receive_message` from any state and flag, owner by owner. -/
theorem receive_scan (h : Host) (received_data : data_t) (l : List Int) (acc : state_t × Bool)
    (owner : Int) :
    let r := l.foldl (fun (acc : state_t × Bool) n =>
      if (received_data.ls n).version > (acc.1.link_states n).version then
        (replace_entry h acc.1 received_data n, true)
      else acc) acc
    r.1.link_states owner
      = (if owner ∈ l ∧ (received_data.ls owner).version > (acc.1.link_states owner).version
          then received_data.ls owner else acc.1.link_states owner) ∧
    (r.2 = true ↔ (acc.2 = true ∨
      ∃ n ∈ l, (received_data.ls n).version > (acc.1.link_states n).version)) ∧
    ((¬ ∃ n ∈ l, (received_data.ls n).version > (acc.1.link_states n).version) → r = acc) := by
  induction l generalizing acc with
  | nil => simp
  | cons a l ih =>
    simp only [List.foldl_cons]
    by_cases hc : (received_data.ls a).version > (acc.1.link_states a).version
    · rw [if_pos hc, replace_entry_eq]
      obtain ⟨i1, i2, _⟩ :=
        ih (({ link_states := store acc.1.link_states a (received_data.ls a) } : state_t), true)
      dsimp only at i1 i2
      refine ⟨?_, ?_, ?_⟩
      · rw [i1]
        by_cases hoa : owner = a
        · subst hoa
          rw [store_same, if_neg (by rintro ⟨_, h2⟩; exact lt_irrefl _ h2),
            if_pos ⟨List.mem_cons_self _ _, hc⟩]
        · rw [store_other _ _ _ _ hoa]
          by_cases hl : owner ∈ l ∧
              (received_data.ls owner).version > (acc.1.link_states owner).version
          · rw [if_pos hl, if_pos ⟨List.mem_cons_of_mem _ hl.1, hl.2⟩]
          · rw [if_neg hl, if_neg]
            rintro ⟨h1, h2⟩
            rcases List.mem_cons.mp h1 with h3 | h3
            · exact hoa h3
            · exact hl ⟨h3, h2⟩
      · rw [i2]
        constructor
        · intro _
          exact Or.inr ⟨a, List.mem_cons_self _ _, hc⟩
        · intro _
          exact Or.inl rfl
      · intro hn
        exact absurd ⟨a, List.mem_cons_self _ _, hc⟩ hn
    · rw [if_neg hc]
      obtain ⟨i1, i2, i3⟩ := ih acc
      refine ⟨?_, ?_, ?_⟩
      · rw [i1]
        by_cases hl : owner ∈ l ∧
            (received_data.ls owner).version > (acc.1.link_states owner).version
        · rw [if_pos hl, if_pos ⟨List.mem_cons_of_mem _ hl.1, hl.2⟩]
        · rw [if_neg hl, if_neg]
          rintro ⟨h1, h2⟩
          rcases List.mem_cons.mp h1 with h3 | h3
          · exact hc (h3 ▸ h2)
          · exact hl ⟨h3, h2⟩
      · rw [i2]
        constructor
        · rintro (h1 | ⟨n, h1, h2⟩)
          · exact Or.inl h1
          · exact Or.inr ⟨n, List.mem_cons_of_mem _ h1, h2⟩
        · rintro (h1 | ⟨n, h1, h2⟩)
          · exact Or.inl h1
          · rcases List.mem_cons.mp h1 with h3 | h3
            · exact absurd (h3 ▸ h2) hc
            · exact Or.inr ⟨n, h3, h2⟩
      · intro hn
        apply i3
        rintro ⟨n, h1, h2⟩
        exact hn ⟨n, List.mem_cons_of_mem _ h1, h2⟩

/-- After the loop of `notify_receive_message`: an enumerated owner whose received version is
strictly greater holds the received entry, every other entry is kept; the flag is set exactly
when some entry was replaced; and without a replacement the state is the old one. -/
theorem receive_entries_spec (h : Host) (s : state_t) (received_data : data_t) (owner : Int) :
    (receive_entries h s received_data).1.link_states owner
      = (if owner ∈ h.nodes ∧ (received_data.ls owner).version > (s.link_states owner).version
          then received_data.ls owner else s.link_states owner) ∧
    ((receive_entries h s received_data).2 = true ↔
      ∃ n ∈ h.nodes, (received_data.ls n).version > (s.link_states n).version) ∧
    ((¬ ∃ n ∈ h.nodes, (received_data.ls n).version > (s.link_states n).version) →
      receive_entries h s received_data = (s, false)) := by
  obtain ⟨h1, h2, h3⟩ := receive_scan h received_data h.nodes (s, false) owner
  refine ⟨h1, ?_, h3⟩
  rw [show ((receive_entries h s received_data).2 = true ↔ _) from h2]
  simp

/-- `notify_receive_message` returns, and what it returns. -/
theorem receive_returns (fuel : Nat) (h : Host) (s : state_t) (sender : Int)
    (received_data : data_t) (hfuel : h.nodes.length + 1 ≤ fuel) :
    ∃ o, notify_receive_message fuel h s sender received_data = some o ∧
      o.state = (receive_entries h s received_data).1 ∧
      ((receive_entries h s received_data).2 = true →
        run_dijkstra fuel h o.state = some o.routes ∧ o.sent = broadcast_message h o.state) ∧
      ((receive_entries h s received_data).2 = false → o.routes = [] ∧ o.sent = []) := by
  unfold notify_receive_message
  simp only []
  by_cases hu : (receive_entries h s received_data).2 = true
  · rw [if_pos hu]
    obtain ⟨rs, hrs⟩ := run_dijkstra_returns fuel h (receive_entries h s received_data).1 hfuel
    rw [hrs]
    refine ⟨_, rfl, rfl, fun _ => ⟨hrs, rfl⟩, fun hf => ?_⟩
    rw [hu] at hf
    exact absurd hf (by simp)
  · rw [if_neg hu]
    exact ⟨_, rfl, rfl, fun ht => absurd ht hu, fun _ => ⟨rfl, rfl⟩⟩

/-- `notify_link_change` returns, and the state it leaves. -/
theorem link_change_returns (fuel : Nat) (h : Host) (s : state_t) (neighbor new_cost : Int)
    (hfuel : h.nodes.length + 1 ≤ fuel) :
    ∃ o, notify_link_change fuel h s neighbor new_cost = some o ∧
      (o.state.link_states h.current_node).version
        = (s.link_states h.current_node).version + 1 ∧
      (o.state.link_states h.current_node).link_cost
        = store (s.link_states h.current_node).link_cost neighbor new_cost ∧
      (∀ owner, owner ≠ h.current_node → o.state.link_states owner = s.link_states owner) ∧
      run_dijkstra fuel h o.state = some o.routes ∧ o.sent = broadcast_message h o.state := by
  unfold notify_link_change
  simp only []
  obtain ⟨rs, hrs⟩ := run_dijkstra_returns fuel h
    { link_states := store
        (store s.link_states h.current_node
          { (s.link_states h.current_node) with
            link_cost := store (s.link_states h.current_node).link_cost neighbor new_cost })
        h.current_node
        { (store s.link_states h.current_node
            { (s.link_states h.current_node) with
              link_cost := store (s.link_states h.current_node).link_cost neighbor new_cost }
            h.current_node) with
          version := (store s.link_states h.current_node
            { (s.link_states h.current_node) with
              link_cost := store (s.link_states h.current_node).link_cost neighbor new_cost }
            h.current_node).version + 1 } } hfuel
  rw [hrs]
  refine ⟨_, rfl, ?_, ?_, ?_, hrs, rfl⟩
  · simp [store]
  · simp [store]
  · intro owner ho
    simp [store, ho]

/-- C4. LS monotonic versions: both handlers return, and for every owner the version stored
in `link_states[owner]` after the handler is greater than or equal to the version stored
before it (versions are unbounded integers). -/
theorem ls_versions_never_decrease (fuel : Nat) (h : Host) (s : state_t) (owner : Int)
    (hfuel : h.nodes.length + 1 ≤ fuel) :
    (∀ neighbor new_cost : Int, ∃ o, notify_link_change fuel h s neighbor new_cost = some o ∧
      (s.link_states owner).version ≤ (o.state.link_states owner).version) ∧
    (∀ (sender : Int) (received_data : data_t),
      ∃ o, notify_receive_message fuel h s sender received_data = some o ∧
      (s.link_states owner).version ≤ (o.state.link_states owner).version) := by
  constructor
  · intro neighbor new_cost
    obtain ⟨o, h1, h2, _, h4, _⟩ := link_change_returns fuel h s neighbor new_cost hfuel
    refine ⟨o, h1, ?_⟩
    by_cases ho : owner = h.current_node
    · rw [ho, h2]; omega
    · rw [h4 owner ho]
  · intro sender received_data
    obtain ⟨o, h1, h2, _⟩ := receive_returns fuel h s sender received_data hfuel
    refine ⟨o, h1, ?_⟩
    rw [h2, (receive_entries_spec h s received_data owner).1]
    split_ifs with hc
    · exact le_of_lt hc.2
    · exact le_refl _

/-- C8. LS idempotence: after `notify_receive_message` has processed a database, delivering
that database again, or any database whose versions are at most those of the first, from any
sender, leaves the state as it is and makes no `set_route` and no `send_message` call. -/
theorem ls_receive_again (fuel : Nat) (h : Host) (s : state_t) (sender : Int)
    (received_data : data_t) (hfuel : h.nodes.length + 1 ≤ fuel) :
    ∃ o, notify_receive_message fuel h s sender received_data = some o ∧
      ∀ (sender2 : Int) (older : data_t),
        (∀ owner ∈ h.nodes, (older.ls owner).version ≤ (received_data.ls owner).version) →
        notify_receive_message fuel h o.state sender2 older
          = some { state := o.state, routes := [], sent := [] } := by
  obtain ⟨o, h1, h2, _⟩ := receive_returns fuel h s sender received_data hfuel
  refine ⟨o, h1, ?_⟩
  intro sender2 older hold
  have hno : ¬ ∃ n ∈ h.nodes, (older.ls n).version > (o.state.link_states n).version := by
    rintro ⟨n, hn, hgt⟩
    rw [h2, (receive_entries_spec h s received_data n).1] at hgt
    have := hold n hn
    split_ifs at hgt with hc
    · omega
    · have hc2 : ¬ (received_data.ls n).version > (s.link_states n).version :=
        fun h5 => hc ⟨hn, h5⟩
      omega
  have hfix := (receive_entries_spec h o.state older 0).2.2 hno
  unfold notify_receive_message
  simp only []
  rw [hfix]
  simp

/-- Witness of C4 on the three-node line: the link to node `1` changes to cost `5`. -/
theorem ls_versions_never_decrease_witness :
    line_host.nodes.length + 1 ≤ 4 ∧
    ∃ o, notify_link_change 4 line_host (init_state line_host) 1 5 = some o ∧
      ((init_state line_host).link_states 0).version ≤ (o.state.link_states 0).version :=
  ⟨by decide, (ls_versions_never_decrease 4 line_host (init_state line_host) 0 (by decide)).1 1 5⟩

/-- Witness of C8 on the three-node line: the database of node `1` is delivered twice. -/
theorem ls_receive_again_witness :
    line_host.nodes.length + 1 ≤ 4 ∧
    ∃ o, notify_receive_message 4 line_host (init_state line_host) 1 line_update = some o ∧
      notify_receive_message 4 line_host o.state 1 line_update
        = some { state := o.state, routes := [], sent := [] } :=
  ⟨by decide,
    (ls_receive_again 4 line_host (init_state line_host) 1 line_update (by decide)).imp
      (fun _ ho => ⟨ho.1, ho.2 1 line_update (fun _ _ => le_refl _)⟩)⟩

end LS

namespace PV

/-- `contains_cycle` answers whether the node is among the entries before the sentinel. -/
theorem contains_cycle_from_iff (path : Int → Int) (node : Int) (k : Nat) (i : Int) :
    contains_cycle_from path node k i = true ↔ node ∈ path_entries_from path k i := by
  induction k generalizing i with
  | zero => simp [contains_cycle_from, path_entries_from]
  | succ k ih =>
    unfold contains_cycle_from path_entries_from
    by_cases h1 : path i = -1
    · simp [h1]
    · rw [if_neg h1, if_neg h1]
      by_cases h2 : path i = node
      · simp [h2]
      · rw [if_neg h2, ih]
        constructor
        · intro hm; exact List.mem_cons_of_mem _ hm
        · intro hm
          rcases List.mem_cons.mp hm with h3 | h3
          · exact absurd h3.symm h2
          · exact h3

theorem contains_cycle_iff (h : Host) (path : Int → Int) (node : Int) :
    contains_cycle h path node = true ↔ node ∈ path_entries h path :=
  contains_cycle_from_iff path node h.MAX_NODES 0

/-- The entries before the sentinel are not the sentinel. -/
theorem path_entries_from_ne (path : Int → Int) (k : Nat) (i : Int) :
    ∀ x ∈ path_entries_from path k i, x ≠ -1 := by
  induction k generalizing i with
  | zero => simp [path_entries_from]
  | succ k ih =>
    unfold path_entries_from
    by_cases h1 : path i = -1
    · simp [h1]
    · rw [if_neg h1]
      intro x hx
      rcases List.mem_cons.mp hx with h3 | h3
      · rw [h3]; exact h1
      · exact ih _ x h3

/-- The copy loop writes nothing below `path_index`. -/
theorem copy_path_below (src : Int → Int) (k : Nat) (i p : Int) (best : Int → Int) (j : Int)
    (hj : j < p) : copy_path src k i p best j = best j := by
  induction k generalizing i p best with
  | zero => rfl
  | succ k ih =>
    unfold copy_path
    by_cases h1 : src i ≠ -1
    · rw [if_pos h1, ih _ _ _ (by omega), store_other _ _ _ _ (by omega)]
    · rw [if_neg h1]

/-- Every slot after the copy loop holds its old content or an entry of the source path. -/
theorem copy_path_slot (src : Int → Int) (k : Nat) (i p : Int) (best : Int → Int) (j : Int) :
    copy_path src k i p best j = best j ∨
      copy_path src k i p best j ∈ path_entries_from src k i := by
  induction k generalizing i p best with
  | zero => exact Or.inl rfl
  | succ k ih =>
    unfold copy_path path_entries_from
    by_cases h1 : src i = -1
    · simp [h1]
    · rw [if_pos h1, if_neg h1]
      rcases ih (i + 1) (p + 1) (store best p (src i)) with h2 | h2
      · by_cases hjp : j = p
        · right
          rw [h2, hjp, store_same]
          exact List.mem_cons_self _ _
        · left
          rw [h2, store_other _ _ _ _ hjp]
      · exact Or.inr (List.mem_cons_of_mem _ h2)

/-- Reading the copied entries back: over slots that were `-1` from `path_index` on, what
the copy loop leaves reads as the entries of the source path. -/
theorem copy_path_entries (src : Int → Int) (k : Nat) (i p : Int) (best : Int → Int) (n : Nat)
    (hbest : ∀ j, p ≤ j → best j = -1) (hn : (path_entries_from src k i).length ≤ n) :
    path_entries_from (copy_path src k i p best) n p = path_entries_from src k i := by
  induction k generalizing i p best n with
  | zero =>
    cases n with
    | zero => rfl
    | succ n => simp [copy_path, path_entries_from, hbest p (le_refl _)]
  | succ k ih =>
    by_cases h1 : src i = -1
    · have hc : copy_path src (k + 1) i p best = best := by
        unfold copy_path; simp [h1]
      have he : path_entries_from src (k + 1) i = [] := by
        unfold path_entries_from; simp [h1]
      rw [hc, he]
      cases n with
      | zero => rfl
      | succ n => simp [path_entries_from, hbest p (le_refl _)]
    · have hc : copy_path src (k + 1) i p best
          = copy_path src k (i + 1) (p + 1) (store best p (src i)) := by
        conv_lhs => unfold copy_path
        rw [if_pos h1]
      have he : path_entries_from src (k + 1) i = src i :: path_entries_from src k (i + 1) := by
        conv_lhs => unfold path_entries_from
        rw [if_neg h1]
      rw [he] at hn
      rw [hc, he]
      cases n with
      | zero => simp at hn
      | succ n =>
        have hp : copy_path src k (i + 1) (p + 1) (store best p (src i)) p = src i := by
          rw [copy_path_below _ _ _ _ _ _ (by omega), store_same]
        conv_lhs => unfold path_entries_from
        rw [hp, if_neg h1]
        congr 1
        apply ih
        · intro j hj
          rw [store_other _ _ _ _ (by omega)]
          exact hbest j (by omega)
        · simpa using hn

/-- The path built for a winning neighbour has the current node in slot `0`. -/
theorem new_path_zero (h : Host) (src : Int → Int) : new_path h src 0 = h.current_node := by
  unfold new_path
  rw [copy_path_below _ _ _ _ _ _ (by omega), store_same]

/-- Every other slot of it holds `-1` or an entry of the neighbour's path. -/
theorem new_path_slot (h : Host) (src : Int → Int) (j : Int) (hj : j ≠ 0) :
    new_path h src j = -1 ∨ new_path h src j ∈ path_entries h src := by
  unfold new_path path_entries
  rcases copy_path_slot src h.MAX_NODES 0 1 (store (fun _ => -1) 0 h.current_node) j with h1 | h1
  · left
    rw [h1, store_other _ _ _ _ hj]
  · exact Or.inr h1

/-- Its entries are the current node followed by the entries of the neighbour's path, when
these are fewer than `MAX_NODES`. -/
theorem new_path_entries (h : Host) (src : Int → Int) (hcur : h.current_node ≠ -1)
    (hlen : (path_entries h src).length < h.MAX_NODES) :
    path_entries h (new_path h src) = h.current_node :: path_entries h src := by
  unfold path_entries at hlen ⊢
  obtain ⟨m, hm⟩ : ∃ m, h.MAX_NODES = m + 1 := ⟨h.MAX_NODES - 1, by omega⟩
  conv_lhs => rw [hm]; unfold path_entries_from
  rw [new_path_zero, if_neg hcur]
  congr 1
  unfold new_path
  apply copy_path_entries
  · intro j hj
    rw [store_other _ _ _ _ (by omega)]
  · omega

/-- One iteration of the loop over `neighbor`: a candidate of strictly better cost wins,
and nothing else changes the best route so far. -/
theorem best_step_eq (h : Host) (s : state_t) (dest : Int) (b : Best) (n : Int) :
    ((Candidate h s dest n ∧ cost_via h s dest n < b.best_cost) →
      best_step h s dest b n
        = { best_cost := cost_via h s dest n, best_next_hop := n,
            best_path := new_path h (s.paths n dest) }) ∧
    (¬ (Candidate h s dest n ∧ cost_via h s dest n < b.best_cost) →
      best_step h s dest b n = b) := by
  unfold best_step Candidate cost_via
  by_cases h1 : n = h.current_node ∨ h.link_cost n ≥ h.COST_INFINITY
  · rw [if_pos h1]
    refine ⟨?_, fun _ => rfl⟩
    rintro ⟨⟨h2, h3, _⟩, _⟩
    rcases h1 with h1 | h1
    · exact absurd h1 h2
    · exact absurd h3 (not_lt.mpr h1)
  · rw [if_neg h1]
    have h2 : n ≠ h.current_node := fun h2 => h1 (Or.inl h2)
    have h3 : h.link_cost n < h.COST_INFINITY := by
      by_contra h3
      exact h1 (Or.inr (not_lt.mp h3))
    simp only []
    by_cases h4 : contains_cycle h (s.paths n dest) h.current_node = true
    · rw [if_pos h4]
      refine ⟨?_, fun _ => rfl⟩
      rintro ⟨⟨_, _, h5⟩, _⟩
      exact absurd ((contains_cycle_iff _ _ _).mp h4) h5
    · rw [if_neg h4]
      have h5 : h.current_node ∉ path_entries h (s.paths n dest) :=
        fun h5 => h4 ((contains_cycle_iff _ _ _).mpr h5)
      by_cases h6 : COST_ADD h.COST_INFINITY (h.link_cost n) (s.neighbor_costs n dest)
          < b.best_cost
      · rw [if_pos h6]
        exact ⟨fun _ => rfl, fun h7 => absurd ⟨⟨h2, h3, h5⟩, h6⟩ h7⟩
      · rw [if_neg h6]
        exact ⟨fun h7 => absurd h7.2 h6, fun _ => rfl⟩

/-- The loop over `neighbor` from any starting triple: either nothing beats the start, or
the result is the first candidate of least cost. -/
theorem best_scan (h : Host) (s : state_t) (dest : Int) (l : List Int) (b0 : Best) :
    (l.foldl (best_step h s dest) b0 = b0 ∧
      ∀ m ∈ l, Candidate h s dest m → b0.best_cost ≤ cost_via h s dest m) ∨
    (∃ l1 n l2, l = l1 ++ n :: l2 ∧ Candidate h s dest n ∧
      l.foldl (best_step h s dest) b0
        = { best_cost := cost_via h s dest n, best_next_hop := n,
            best_path := new_path h (s.paths n dest) } ∧
      cost_via h s dest n < b0.best_cost ∧
      (∀ m ∈ l1, Candidate h s dest m → cost_via h s dest n < cost_via h s dest m) ∧
      (∀ m ∈ l2, Candidate h s dest m → cost_via h s dest n ≤ cost_via h s dest m)) := by
  induction l generalizing b0 with
  | nil => left; simp
  | cons a l ih =>
    rw [List.foldl_cons]
    by_cases hc : Candidate h s dest a ∧ cost_via h s dest a < b0.best_cost
    · rw [(best_step_eq h s dest b0 a).1 hc]
      right
      rcases ih { best_cost := cost_via h s dest a, best_next_hop := a,
                  best_path := new_path h (s.paths a dest) } with
        ⟨h1, h2⟩ | ⟨l1, n, l2, h1, h2, h3, h4, h5, h6⟩
      · exact ⟨[], a, l, rfl, hc.1, h1, hc.2, by simp, h2⟩
      · refine ⟨a :: l1, n, l2, by rw [h1]; rfl, h2, h3, lt_trans h4 hc.2, ?_, h6⟩
        intro m hm hcand
        rcases List.mem_cons.mp hm with h7 | h7
        · rw [h7]; exact h4
        · exact h5 m h7 hcand
    · rw [(best_step_eq h s dest b0 a).2 hc]
      have ha : Candidate h s dest a → b0.best_cost ≤ cost_via h s dest a := by
        intro hcand
        by_contra hlt
        exact hc ⟨hcand, not_le.mp hlt⟩
      rcases ih b0 with ⟨h1, h2⟩ | ⟨l1, n, l2, h1, h2, h3, h4, h5, h6⟩
      · left
        refine ⟨h1, ?_⟩
        intro m hm hcand
        rcases List.mem_cons.mp hm with h7 | h7
        · rw [h7]; exact ha (h7 ▸ hcand)
        · exact h2 m h7 hcand
      · right
        refine ⟨a :: l1, n, l2, by rw [h1]; rfl, h2, h3, h4, ?_, h6⟩
        intro m hm hcand
        rcases List.mem_cons.mp hm with h7 | h7
        · rw [h7]; exact lt_of_lt_of_le h4 (ha (h7 ▸ hcand))
        · exact h5 m h7 hcand

/-- What the loop over `neighbor` leaves for `dest`: nothing, when no candidate costs less
than `COST_INFINITY`; otherwise the first candidate of least cost and the path built for it. -/
theorem best_route_spec (h : Host) (s : state_t) (dest : Int) :
    (best_route h s dest
        = { best_cost := h.COST_INFINITY, best_next_hop := -1, best_path := fun _ => -1 } ∧
      ∀ m ∈ h.nodes, Candidate h s dest m → h.COST_INFINITY ≤ cost_via h s dest m) ∨
    (∃ l1 n l2, h.nodes = l1 ++ n :: l2 ∧ Candidate h s dest n ∧
      best_route h s dest
        = { best_cost := cost_via h s dest n, best_next_hop := n,
            best_path := new_path h (s.paths n dest) } ∧
      cost_via h s dest n < h.COST_INFINITY ∧
      (∀ m ∈ l1, Candidate h s dest m → cost_via h s dest n < cost_via h s dest m) ∧
      (∀ m ∈ l2, Candidate h s dest m → cost_via h s dest n ≤ cost_via h s dest m)) :=
  best_scan h s dest h.nodes _

/-- The loop over `neighbor` reads the rows of the other nodes only. -/
theorem best_route_rows (h : Host) (s t : state_t) (dest : Int)
    (hrows : ∀ n, n ≠ h.current_node →
      t.neighbor_costs n = s.neighbor_costs n ∧ t.paths n = s.paths n) :
    best_route h t dest = best_route h s dest := by
  unfold best_route
  congr 1
  funext b n
  unfold best_step
  by_cases h1 : n = h.current_node
  · simp [h1]
  · rw [(hrows n h1).1, (hrows n h1).2]

theorem same_path_iff (h : Host) (a b : Int → Int) :
    same_path h a b = true ↔ ∀ i : Nat, i < h.MAX_NODES → a (i : Int) = b (i : Int) := by
  unfold same_path
  simp [List.all_eq_true]

theorem same_path_refl (h : Host) (a : Int → Int) : same_path h a a = true :=
  (same_path_iff h a a).mpr (fun _ _ => rfl)

/-- An iteration of the loop over `dest` keeps the rows of the other nodes. -/
theorem recalculate_step_rows (h : Host) (acc : Recalc) (d : Int) (n : Int)
    (hn : n ≠ h.current_node) :
    (recalculate_step h acc d).state.neighbor_costs n = acc.state.neighbor_costs n ∧
    (recalculate_step h acc d).state.paths n = acc.state.paths n := by
  unfold recalculate_step
  by_cases hc : d = h.current_node
  · simp [hc]
  · rw [if_neg hc]
    simp only []
    split_ifs
    · exact ⟨store_other _ _ _ _ hn, store_other _ _ _ _ hn⟩
    · exact ⟨rfl, rfl⟩

theorem recalculate_fold_rows (h : Host) (l : List Int) (acc : Recalc) (n : Int)
    (hn : n ≠ h.current_node) :
    (l.foldl (recalculate_step h) acc).state.neighbor_costs n = acc.state.neighbor_costs n ∧
    (l.foldl (recalculate_step h) acc).state.paths n = acc.state.paths n := by
  induction l generalizing acc with
  | nil => exact ⟨rfl, rfl⟩
  | cons a l ih =>
    rw [List.foldl_cons]
    obtain ⟨h1, h2⟩ := ih (recalculate_step h acc a)
    obtain ⟨h3, h4⟩ := recalculate_step_rows h acc a n hn
    exact ⟨h1.trans h3, h2.trans h4⟩

/-- After the iteration for `dest` the state holds the route found for `dest`. -/
theorem chosen_step_at (h : Host) (acc : Recalc) (dest : Int)
    (hne : dest ≠ h.current_node) :
    Chosen h (recalculate_step h acc dest).state dest (best_route h acc.state dest) := by
  unfold recalculate_step Chosen
  rw [if_neg hne]
  simp only []
  by_cases hc : (best_route h acc.state dest).best_cost
        ≠ acc.state.neighbor_costs h.current_node dest ∨
      same_path h (acc.state.paths h.current_node dest) (best_route h acc.state dest).best_path
        = false
  · rw [if_pos hc]
    simp only [store_same]
    exact ⟨trivial, same_path_refl _ _⟩
  · rw [if_neg hc]
    constructor
    · by_contra h1
      exact hc (Or.inl (fun h2 => h1 h2.symm))
    · by_contra h1
      exact hc (Or.inr (by simpa using h1))

/-- An iteration keeps a stored route that already is the route found for its destination. -/
theorem chosen_step_keeps (h : Host) (acc : Recalc) (d dest : Int)
    (hd : Chosen h acc.state dest (best_route h acc.state dest)) :
    Chosen h (recalculate_step h acc d).state dest (best_route h acc.state dest) := by
  by_cases hdd : d = dest
  · by_cases hc : dest = h.current_node
    · unfold recalculate_step
      rw [hdd, if_pos hc]
      exact hd
    · rw [hdd]
      exact chosen_step_at h acc dest hc
  · unfold recalculate_step
    by_cases hc : d = h.current_node
    · rw [if_pos hc]; exact hd
    · rw [if_neg hc]
      simp only []
      split_ifs
      · unfold Chosen at hd ⊢
        simp only [store_same, store_other _ _ _ _ (Ne.symm hdd)]
        exact hd
      · exact hd

theorem chosen_fold_keeps (h : Host) (l : List Int) (acc : Recalc) (dest : Int)
    (hd : Chosen h acc.state dest (best_route h acc.state dest)) :
    Chosen h (l.foldl (recalculate_step h) acc).state dest (best_route h acc.state dest) := by
  induction l generalizing acc with
  | nil => exact hd
  | cons a l ih =>
    rw [List.foldl_cons]
    have hk := chosen_step_keeps h acc a dest hd
    have hc := best_route_rows h acc.state (recalculate_step h acc a).state dest
      (fun n hn => recalculate_step_rows h acc a n hn)
    rw [← hc] at hk ⊢
    exact ih _ hk

theorem chosen_fold_at (h : Host) (l : List Int) (acc : Recalc) (dest : Int)
    (hmem : dest ∈ l) (hne : dest ≠ h.current_node) :
    Chosen h (l.foldl (recalculate_step h) acc).state dest (best_route h acc.state dest) := by
  induction l generalizing acc with
  | nil => cases hmem
  | cons a l ih =>
    rw [List.foldl_cons]
    have hc := best_route_rows h acc.state (recalculate_step h acc a).state dest
      (fun n hn => recalculate_step_rows h acc a n hn)
    by_cases ha : dest = a
    · subst ha
      have hk := chosen_step_at h acc dest hne
      rw [← hc] at hk ⊢
      exact chosen_fold_keeps h l _ dest hk
    · rw [← hc]
      exact ih _ (by rcases List.mem_cons.mp hmem with h1 | h1; exact absurd h1 ha; exact h1)

/-- The state that `recalculate_distance_vector` leaves is the one of its loop. -/
theorem recalculate_state (h : Host) (s : state_t) :
    (recalculate_distance_vector h s).state
      = (h.nodes.foldl (recalculate_step h) { state := s, routes := [], updated := false }).state := by
  unfold recalculate_distance_vector
  simp only []
  split_ifs <;> rfl

/-- After `recalculate_distance_vector`, every enumerated destination other than the current
node holds the route that the loop over `neighbor` finds for it in the old state. -/
theorem recalculate_chosen (h : Host) (s : state_t) (dest : Int)
    (hmem : dest ∈ h.nodes) (hne : dest ≠ h.current_node) :
    Chosen h (recalculate_distance_vector h s).state dest (best_route h s dest) := by
  rw [recalculate_state]
  exact chosen_fold_at h h.nodes _ dest hmem hne

/-- Paths that agree on the `MAX_NODES` slots have the same entries. -/
theorem path_entries_from_congr (m : Nat) (a b : Int → Int)
    (hab : ∀ i : Nat, i < m → a (i : Int) = b (i : Int)) (k i : Nat) (hk : i + k ≤ m) :
    path_entries_from a k (i : Int) = path_entries_from b k (i : Int) := by
  induction k generalizing i with
  | zero => rfl
  | succ k ih =>
    unfold path_entries_from
    rw [hab i (by omega)]
    have := ih (i + 1) (by omega)
    rw [Nat.cast_succ] at this
    rw [this]

theorem path_entries_congr (h : Host) (a b : Int → Int) (hab : same_path h a b = true) :
    path_entries h a = path_entries h b := by
  have := path_entries_from_congr h.MAX_NODES a b ((same_path_iff h a b).mp hab)
    h.MAX_NODES 0 (by omega)
  simpa [path_entries] using this

/-- C3. PV loop freedom: in a state whose stored paths (of enumerated nodes to enumerated
destinations) all have fewer than `MAX_NODES` entries before the sentinel, after `recalculate_distance_vector` the chosen path `paths[self][dest]`
of every enumerated destination other than the current node is either empty (all `-1`) or
has the current node in slot `0` and in no other slot. -/
theorem pv_chosen_path_loop_free (h : Host) (s : state_t) (dest : Int)
    (hbound : ∀ n ∈ h.nodes, ∀ d ∈ h.nodes,
      (path_entries h (s.paths n d)).length < h.MAX_NODES)
    (hcur : h.current_node ≠ -1) (hmem : dest ∈ h.nodes) (hne : dest ≠ h.current_node) :
    (∀ i : Nat, i < h.MAX_NODES →
      (recalculate_distance_vector h s).state.paths h.current_node dest (i : Int) = -1) ∨
    ((recalculate_distance_vector h s).state.paths h.current_node dest 0 = h.current_node ∧
      ∀ i : Nat, 1 ≤ i → i < h.MAX_NODES →
        (recalculate_distance_vector h s).state.paths h.current_node dest (i : Int)
          ≠ h.current_node) := by
  have hch := (same_path_iff h _ _).mp (recalculate_chosen h s dest hmem hne).2
  have hpos : 0 < h.MAX_NODES := lt_of_le_of_lt (Nat.zero_le _) (hbound dest hmem dest hmem)
  rcases best_route_spec h s dest with ⟨h1, _⟩ | ⟨l1, n, l2, _, hcand, h1, _⟩
  · left
    intro i hi
    rw [hch i hi, h1]
  · right
    rw [h1] at hch
    simp only [] at hch
    constructor
    · have := hch 0 hpos
      rw [Nat.cast_zero] at this
      rw [this, new_path_zero]
    · intro i hi1 hi2
      rw [hch i hi2]
      rcases new_path_slot h (s.paths n dest) (i : Int) (by omega) with h2 | h2
      · rw [h2]; exact fun h3 => hcur h3.symm
      · intro h3
        rw [h3] at h2
        exact hcand.2.2 h2

/-- A sentinel at offset `j` bounds the number of entries by `j`. -/
theorem path_entries_from_sentinel (path : Int → Int) (k : Nat) (i : Int) (j : Nat)
    (hj : path (i + j) = -1) : (path_entries_from path k i).length ≤ j := by
  induction k generalizing i j with
  | zero => simp [path_entries_from]
  | succ k ih =>
    unfold path_entries_from
    by_cases h1 : path i = -1
    · simp [h1]
    · rw [if_neg h1]
      cases j with
      | zero => simp at hj; exact absurd hj h1
      | succ j =>
        have := ih (i + 1) j (by rw [← hj]; congr 1; push_cast; ring)
        simp only [List.length_cons]
        omega

/-- The paths of the example state have at most two entries. -/
theorem line_state_bound (n d : Int) :
    (path_entries line_host (line_state.paths n d)).length < line_host.MAX_NODES :=
  lt_of_le_of_lt
    (path_entries_from_sentinel _ _ _ 2 (by simp [line_state]))
    (by decide)

/-- Witness of C3 on the three-node line: destination `2` seen from node `0`. -/
theorem pv_chosen_path_loop_free_witness :
    (∀ n ∈ line_host.nodes, ∀ d ∈ line_host.nodes,
      (path_entries line_host (line_state.paths n d)).length < line_host.MAX_NODES) ∧
    line_host.current_node ≠ -1 ∧ (2 : Int) ∈ line_host.nodes ∧
    (2 : Int) ≠ line_host.current_node ∧
    ((∀ i : Nat, i < line_host.MAX_NODES →
      (recalculate_distance_vector line_host line_state).state.paths
        line_host.current_node 2 (i : Int) = -1) ∨
    ((recalculate_distance_vector line_host line_state).state.paths
        line_host.current_node 2 0 = line_host.current_node ∧
      ∀ i : Nat, 1 ≤ i → i < line_host.MAX_NODES →
        (recalculate_distance_vector line_host line_state).state.paths
          line_host.current_node 2 (i : Int) ≠ line_host.current_node)) :=
  ⟨fun n _ d _ => line_state_bound n d, by decide, by decide, by decide,
    pv_chosen_path_loop_free line_host line_state 2 (fun n _ d _ => line_state_bound n d)
      (by decide) (by decide) (by decide)⟩

theorem same_paths_iff (h : Host) (p q : Int → Int → Int → Int) :
    same_paths h p q = true ↔
      ∀ a b c : Nat, a < h.MAX_NODES → b < h.MAX_NODES → c < h.MAX_NODES →
        p (a : Int) (b : Int) (c : Int) = q (a : Int) (b : Int) (c : Int) := by
  unfold same_paths
  simp only [List.all_eq_true, List.mem_range, same_path_iff]
  constructor
  · intro hh a b c ha hb hc
    exact hh a ha b hb c hc
  · intro hh a ha b hb c hc
    exact hh a b c ha hb hc

/-- An iteration of the loop over `dest` that leaves `updated` unset has changed nothing. -/
theorem recalculate_step_not_updated (h : Host) (acc : Recalc) (d : Int)
    (hu : (recalculate_step h acc d).updated = false) : recalculate_step h acc d = acc := by
  unfold recalculate_step at hu ⊢
  by_cases hc : d = h.current_node
  · rw [if_pos hc]
  · rw [if_neg hc] at hu ⊢
    simp only [] at hu ⊢
    by_cases h1 : (best_route h acc.state d).best_cost
          ≠ acc.state.neighbor_costs h.current_node d ∨
        same_path h (acc.state.paths h.current_node d) (best_route h acc.state d).best_path
          = false
    · rw [if_pos h1] at hu
      exact absurd hu (by simp)
    · rw [if_neg h1]

theorem recalculate_step_updated (h : Host) (acc : Recalc) (d : Int)
    (hu : acc.updated = true) : (recalculate_step h acc d).updated = true := by
  unfold recalculate_step
  by_cases hc : d = h.current_node
  · rw [if_pos hc]; exact hu
  · rw [if_neg hc]
    simp only []
    split_ifs
    · rfl
    · exact hu

theorem recalculate_fold_updated (h : Host) (l : List Int) (acc : Recalc)
    (hu : acc.updated = true) : (l.foldl (recalculate_step h) acc).updated = true := by
  induction l generalizing acc with
  | nil => exact hu
  | cons a l ih =>
    rw [List.foldl_cons]
    exact ih _ (recalculate_step_updated h acc a hu)

/-- A loop over `dest` that leaves `updated` unset has changed nothing. -/
theorem recalculate_fold_not_updated (h : Host) (l : List Int) (acc : Recalc)
    (hu : (l.foldl (recalculate_step h) acc).updated = false) :
    l.foldl (recalculate_step h) acc = acc := by
  induction l generalizing acc with
  | nil => rfl
  | cons a l ih =>
    rw [List.foldl_cons] at hu ⊢
    by_cases h1 : (recalculate_step h acc a).updated = true
    · rw [recalculate_fold_updated h l _ h1] at hu
      exact absurd hu (by simp)
    · have h2 := recalculate_step_not_updated h acc a (by simpa using h1)
      rw [h2] at hu ⊢
      exact ih acc hu

/-- The return value of `recalculate_distance_vector`: non-zero exactly when some slot of
the `paths` array has changed. -/
theorem recalculate_updated_iff (h : Host) (s : state_t) :
    (recalculate_distance_vector h s).updated = true ↔
      ∃ a b c : Nat, a < h.MAX_NODES ∧ b < h.MAX_NODES ∧ c < h.MAX_NODES ∧
        (recalculate_distance_vector h s).state.paths (a : Int) (b : Int) (c : Int)
          ≠ s.paths (a : Int) (b : Int) (c : Int) := by
  have hiff := same_paths_iff h s.paths
    (h.nodes.foldl (recalculate_step h) { state := s, routes := [], updated := false }).state.paths
  rw [recalculate_state]
  unfold recalculate_distance_vector
  simp only []
  by_cases hsame : same_paths h s.paths
      (h.nodes.foldl (recalculate_step h)
        { state := s, routes := [], updated := false }).state.paths = true
  · rw [if_pos hsame]
    constructor
    · intro hf
      exact absurd hf (by simp)
    · rintro ⟨a, b, c, ha, hb, hc, hne⟩
      exact absurd (hiff.mp hsame a b c ha hb hc).symm hne
  · rw [if_neg hsame]
    have hex : ∃ a b c : Nat, a < h.MAX_NODES ∧ b < h.MAX_NODES ∧ c < h.MAX_NODES ∧
        (h.nodes.foldl (recalculate_step h)
          { state := s, routes := [], updated := false }).state.paths (a : Int) (b : Int) (c : Int)
          ≠ s.paths (a : Int) (b : Int) (c : Int) := by
      by_contra hno
      apply hsame
      rw [hiff]
      intro a b c ha hb hc
      by_contra hne
      exact hno ⟨a, b, c, ha, hb, hc, fun h1 => hne h1.symm⟩
    constructor
    · intro _
      exact hex
    · intro _
      by_contra hu
      have hfix := recalculate_fold_not_updated h h.nodes
        { state := s, routes := [], updated := false } (by simpa using hu)
      obtain ⟨a, b, c, _, _, _, hne⟩ := hex
      rw [hfix] at hne
      exact hne rfl

/-- The messages of `broadcast_message`: one copy of the message to every live neighbour. -/
theorem broadcast_live (h : Host) (s : state_t) (l : List Int)
    (sent0 : List (Int × message_t)) (n : Int) (hn : n ∈ l)
    (hlive : h.link_cost n < h.COST_INFINITY) (hne : n ≠ h.current_node) :
    (n, outgoing_message h s) ∈ l.foldl (fun sent n =>
      if h.link_cost n < h.COST_INFINITY ∧ n ≠ h.current_node then
        sent ++ [(n, outgoing_message h s)]
      else sent) sent0 := by
  have hkeep : ∀ (l : List Int) (sent0 : List (Int × message_t)) (m : Int × message_t),
      m ∈ sent0 → m ∈ l.foldl (fun sent n =>
        if h.link_cost n < h.COST_INFINITY ∧ n ≠ h.current_node then
          sent ++ [(n, outgoing_message h s)]
        else sent) sent0 := by
    intro l
    induction l with
    | nil => intro _ _ hm; exact hm
    | cons a l ih =>
      intro sent0 m hm
      rw [List.foldl_cons]
      apply ih
      split_ifs
      · exact List.mem_append_left _ hm
      · exact hm
  induction l generalizing sent0 with
  | nil => cases hn
  | cons a l ih =>
    rw [List.foldl_cons]
    rcases List.mem_cons.mp hn with h1 | h1
    · apply hkeep
      rw [← h1, if_pos ⟨hlive, hne⟩]
      exact List.mem_append_right _ (List.mem_singleton_self _)
    · exact ih _ h1

/-- The loop that fills the message, from any starting message, entry by entry. -/
theorem message_scan (h : Host) (s : state_t) (l : List Int) (m0 : message_t) (dest : Int) :
    (dest ∈ l →
      (l.foldl (fun (m : message_t) dest =>
        ({ data := store m.data dest (s.neighbor_costs h.current_node dest),
           path := store m.path dest (s.paths h.current_node dest) } : message_t)) m0).data dest
        = s.neighbor_costs h.current_node dest ∧
      (l.foldl (fun (m : message_t) dest =>
        ({ data := store m.data dest (s.neighbor_costs h.current_node dest),
           path := store m.path dest (s.paths h.current_node dest) } : message_t)) m0).path dest
        = s.paths h.current_node dest) ∧
    (dest ∉ l →
      (l.foldl (fun (m : message_t) dest =>
        ({ data := store m.data dest (s.neighbor_costs h.current_node dest),
           path := store m.path dest (s.paths h.current_node dest) } : message_t)) m0).data dest
        = m0.data dest ∧
      (l.foldl (fun (m : message_t) dest =>
        ({ data := store m.data dest (s.neighbor_costs h.current_node dest),
           path := store m.path dest (s.paths h.current_node dest) } : message_t)) m0).path dest
        = m0.path dest) := by
  induction l generalizing m0 with
  | nil => simp
  | cons a l ih =>
    simp only [List.foldl_cons]
    obtain ⟨i1, i2⟩ := ih
      { data := store m0.data a (s.neighbor_costs h.current_node a),
        path := store m0.path a (s.paths h.current_node a) }
    constructor
    · intro hd
      by_cases hl : dest ∈ l
      · exact i1 hl
      · have hda : dest = a := by
          rcases List.mem_cons.mp hd with h1 | h1
          · exact h1
          · exact absurd h1 hl
        obtain ⟨k1, k2⟩ := i2 hl
        rw [k1, k2, hda]
        exact ⟨store_same _ _ _, store_same _ _ _⟩
    · intro hd
      have hl : dest ∉ l := fun hl => hd (List.mem_cons_of_mem _ hl)
      have hda : dest ≠ a := fun hda => hd (hda ▸ List.mem_cons_self _ _)
      obtain ⟨k1, k2⟩ := i2 hl
      rw [k1, k2]
      exact ⟨store_other _ _ _ _ hda, store_other _ _ _ _ hda⟩

/-- The message of `broadcast_message` carries, for every enumerated destination, the chosen
cost and the chosen path. -/
theorem outgoing_message_at (h : Host) (s : state_t) (dest : Int) (hd : dest ∈ h.nodes) :
    (outgoing_message h s).data dest = s.neighbor_costs h.current_node dest ∧
    (outgoing_message h s).path dest = s.paths h.current_node dest :=
  (message_scan h s h.nodes _ dest).1 hd

/-- C10 as stated fails: on the three-node line, node `0` holds the route to node `2` through
node `1` at cost `6` with path `[0, 1]`; node `1` advertises the new cost `3` over the same
path. `notify_receive_message` changes the chosen cost to `4` and calls `set_route(2, 1, 4)`,
node `1` is a live neighbour, and no message is sent. -/
theorem pv_cost_change_not_broadcast :
    (notify_receive_message line_host line_state 1 line_message).routes
      = [{ dest := 2, next_hop := 1, cost := 4 }] ∧
    line_state.neighbor_costs line_host.current_node 2 = 6 ∧
    (notify_receive_message line_host line_state 1 line_message).state.neighbor_costs
      line_host.current_node 2 = 4 ∧
    (1 : Int) ∈ line_host.nodes ∧ (1 : Int) ≠ line_host.current_node ∧
    line_host.link_cost 1 < line_host.COST_INFINITY ∧
    (notify_receive_message line_host line_state 1 line_message).sent = [] :=
  ⟨by decide, by decide, by decide, by decide, by decide, by decide, rfl⟩

/-- C10, amended. PV broadcast on path change: in both handlers, if the recomputation changes
some slot of the stored `paths` array, then the handler sends to every live neighbour (every
enumerated node other than the current node whose link cost is below `COST_INFINITY`) the
message that carries, for every enumerated destination, the chosen cost and the chosen path
of the state it leaves. -/
theorem pv_broadcast_on_path_change (h : Host) (s : state_t) :
    (∀ neighbor new_cost : Int,
      (∃ a b c : Nat, a < h.MAX_NODES ∧ b < h.MAX_NODES ∧ c < h.MAX_NODES ∧
          (recalculate_distance_vector h (link_change_update h s neighbor new_cost).1).state.paths
              (a : Int) (b : Int) (c : Int)
            ≠ (link_change_update h s neighbor new_cost).1.paths (a : Int) (b : Int) (c : Int)) →
        ∀ n ∈ h.nodes, n ≠ h.current_node → h.link_cost n < h.COST_INFINITY →
          (n, outgoing_message h (notify_link_change h s neighbor new_cost).state)
            ∈ (notify_link_change h s neighbor new_cost).sent) ∧
    (∀ (sender : Int) (received_message : message_t),
      (∃ a b c : Nat, a < h.MAX_NODES ∧ b < h.MAX_NODES ∧ c < h.MAX_NODES ∧
          (recalculate_distance_vector h (receive_update h s sender received_message)).state.paths
              (a : Int) (b : Int) (c : Int)
            ≠ (receive_update h s sender received_message).paths (a : Int) (b : Int) (c : Int)) →
        ∀ n ∈ h.nodes, n ≠ h.current_node → h.link_cost n < h.COST_INFINITY →
          (n, outgoing_message h (notify_receive_message h s sender received_message).state)
            ∈ (notify_receive_message h s sender received_message).sent) ∧
    (∀ (t : state_t), ∀ dest ∈ h.nodes,
      (outgoing_message h t).data dest = t.neighbor_costs h.current_node dest ∧
      (outgoing_message h t).path dest = t.paths h.current_node dest) := by
  refine ⟨?_, ?_, fun t dest hd => outgoing_message_at h t dest hd⟩
  · intro neighbor new_cost hchg n hn hne hlive
    have hu := (recalculate_updated_iff h _).mpr hchg
    unfold notify_link_change
    simp only []
    rw [if_pos hu]
    exact broadcast_live h _ h.nodes [] n hn hlive hne
  · intro sender received_message hchg n hn hne hlive
    have hu := (recalculate_updated_iff h _).mpr hchg
    unfold notify_receive_message
    simp only []
    rw [if_pos hu]
    exact broadcast_live h _ h.nodes [] n hn hlive hne

/-- Witness of the amended C10: on the three-node line, the first link change of node `0`
installs the path `[0]` to node `1`, and the message goes to node `1`. -/
theorem pv_broadcast_on_path_change_witness :
    (1, outgoing_message line_host (notify_link_change line_host (init_state line_host) 1 1).state)
      ∈ (notify_link_change line_host (init_state line_host) 1 1).sent :=
  (pv_broadcast_on_path_change line_host (init_state line_host)).1 1 1
    ⟨0, 1, 0, by decide, by decide, by decide, by decide⟩ 1 (by decide) (by decide) (by decide)

end PV

theorem cost_add_le (inf a b : Int) : COST_ADD inf a b ≤ inf := by
  unfold COST_ADD
  split_ifs
  · exact le_refl _
  · exact min_le_right _ _

theorem cost_add_nonneg (inf a b : Int) (hinf : 0 < inf) (ha : 0 ≤ a) (hb : 0 ≤ b) :
    0 ≤ COST_ADD inf a b := by
  unfold COST_ADD
  split_ifs
  · exact le_of_lt hinf
  · exact le_min (by omega) (le_of_lt hinf)

theorem cost_add_ge (inf a b : Int) (ha : a ≤ inf) (hb : 0 ≤ b) : a ≤ COST_ADD inf a b := by
  unfold COST_ADD
  split_ifs
  · exact ha
  · exact le_min (by omega) ha

theorem cost_add_mono (inf a c b : Int) (hac : a ≤ c) (hc : c ≤ inf) (hb : 0 ≤ b) :
    COST_ADD inf a b ≤ COST_ADD inf c b := by
  by_cases h1 : c = inf ∨ b = inf
  · have : COST_ADD inf c b = inf := by unfold COST_ADD; rw [if_pos h1]
    rw [this]
    exact cost_add_le _ _ _
  · have h2 : ¬ (a = inf ∨ b = inf) := by
      rintro (h2 | h2)
      · exact h1 (Or.inl (by omega))
      · exact h1 (Or.inr h2)
    unfold COST_ADD
    rw [if_neg h1, if_neg h2]
    exact min_le_min (by omega) (le_refl _)

theorem cost_add_inf (inf a b : Int) (ha : 0 ≤ a) (hb : inf ≤ b) : COST_ADD inf a b = inf := by
  unfold COST_ADD
  split_ifs
  · rfl
  · exact min_eq_right (by omega)

theorem cost_add_zero (inf b : Int) (hinf : 0 < inf) (hb : b < inf) : COST_ADD inf 0 b = b := by
  unfold COST_ADD
  rw [if_neg (by omega)]
  rw [zero_add]
  exact min_eq_left (le_of_lt hb)

namespace LS

theorem path_cost_append (h : Host) (s : state_t) (acc u : Int) (p : List Int) (v : Int)
    (l : List Int) :
    path_cost h s acc u (p ++ v :: l)
      = path_cost h s (path_cost h s acc u (p ++ [v])) v l := by
  induction p generalizing acc u with
  | nil => rfl
  | cons a p ih =>
    simp only [List.cons_append, path_cost]
    exact ih _ _

/-- With weights that are not negative, the cost of a path only grows along it. -/
theorem path_cost_ge (h : Host) (s : state_t)
    (hnonneg : ∀ u ∈ h.nodes, ∀ v ∈ h.nodes, 0 ≤ (s.link_states u).link_cost v)
    (p : List Int) (acc u : Int) (hu : u ∈ h.nodes) (hp : ∀ n ∈ p, n ∈ h.nodes)
    (hacc : acc ≤ h.COST_INFINITY) :
    acc ≤ path_cost h s acc u p ∧ path_cost h s acc u p ≤ h.COST_INFINITY := by
  induction p generalizing acc u with
  | nil => exact ⟨le_refl _, hacc⟩
  | cons a p ih =>
    have ha : a ∈ h.nodes := hp a (List.mem_cons_self _ _)
    obtain ⟨h1, h2⟩ := ih (COST_ADD h.COST_INFINITY acc ((s.link_states u).link_cost a)) a ha
      (fun n hn => hp n (List.mem_cons_of_mem _ hn)) (cost_add_le _ _ _)
    exact ⟨le_trans (cost_add_ge _ _ _ hacc (hnonneg u hu a ha)) h1, h2⟩

theorem route_cost_nonneg (h : Host) (s : state_t)
    (hinf : 0 < h.COST_INFINITY)
    (hnonneg : ∀ u ∈ h.nodes, ∀ v ∈ h.nodes, 0 ≤ (s.link_states u).link_cost v)
    (hcur : h.current_node ∈ h.nodes) (q : List Int) (v : Int)
    (hq : ∀ n ∈ q, n ∈ h.nodes) (hv : v ∈ h.nodes) : 0 ≤ route_cost h s q v := by
  unfold route_cost
  refine (path_cost_ge h s hnonneg _ 0 _ hcur ?_ (le_of_lt hinf)).1
  intro n hn
  rcases List.mem_append.mp hn with h1 | h1
  · exact hq n h1
  · rw [List.mem_singleton.mp h1]; exact hv

/-- The invariant holds before the first iteration. -/
theorem dinv_init (h : Host) (s : state_t)
    (hinf : 0 < h.COST_INFINITY)
    (hnonneg : ∀ u ∈ h.nodes, ∀ v ∈ h.nodes, 0 ≤ (s.link_states u).link_cost v)
    (hcur : h.current_node ∈ h.nodes) : DInv h s 0 (dijkstra_init h s) where
  dist_cur := dijkstra_init_dist_current h s
  dist_nonneg := by
    intro v hv
    rw [dijkstra_init_dist h s v hv]
    split_ifs
    · exact le_refl _
    · exact hnonneg _ hcur v hv
  sound := by
    intro v hv hne hlt
    rw [dijkstra_init_dist h s v hv, if_neg hne] at hlt ⊢
    refine ⟨[], by simp, ?_⟩
    show COST_ADD h.COST_INFINITY 0 ((s.link_states h.current_node).link_cost v) = _
    exact cost_add_zero _ _ hinf hlt
  settled := by
    intro v hv
    rw [dijkstra_init_visited] at hv
    exact absurd hv (by simp)
  frontier := by
    intro u hu v hv _ hw
    rcases hu with hu | hu
    · rw [dijkstra_init_visited] at hu
      exact absurd hu (by simp)
    · rw [hu, dijkstra_init_dist_current, dijkstra_init_dist h s v hv]
      rw [cost_add_zero _ _ hinf (hu ▸ hw)]
      split_ifs
      · exact hnonneg _ hcur v hv
      · exact le_refl _
  direct := by
    intro v hv hne _
    rw [dijkstra_init_dist h s v hv, if_neg hne]
  large := by
    intro v hv _
    exact dijkstra_init_pred h s v hv
  pred_visited := by
    intro v hv
    exact Or.inl (dijkstra_init_pred h s v hv)
  count := ⟨[], List.nodup_nil, rfl, by
    intro x
    rw [dijkstra_init_visited]
    simp⟩

/-- A path that leaves the settled region: a path to a node that is neither visited nor the
current node costs at least the distance of some unvisited node, or `COST_INFINITY`. The path
is followed from a settled node `x` reached at cost `a` by the nodes of `P`. -/
theorem path_leaves_settled (h : Host) (s : state_t)
    (hinf : 0 < h.COST_INFINITY)
    (hnonneg : ∀ u ∈ h.nodes, ∀ v ∈ h.nodes, 0 ≤ (s.link_states u).link_cost v)
    (hcur : h.current_node ∈ h.nodes) (k : Nat) (d : Dijkstra) (inv : DInv h s k d)
    (v : Int) (hv : v ∈ h.nodes) (hunv : d.visited v = false) (l : List Int) :
    ∀ (P : List Int) (x a : Int),
      (∀ r, path_cost h s 0 h.current_node (P ++ r) = path_cost h s a x r) →
      (∀ n ∈ P, n ∈ h.nodes) → (∀ n ∈ l, n ∈ h.nodes) →
      (d.visited x = true ∨ x = h.current_node) → d.dist x ≤ a → a ≤ h.COST_INFINITY →
      ∃ y ∈ h.nodes, d.visited y = false ∧
        (d.dist y ≤ path_cost h s a x (l ++ [v]) ∨
          h.COST_INFINITY ≤ path_cost h s a x (l ++ [v])) := by
  induction l with
  | nil =>
    intro P x a _ _ _ hT hxa ha
    have hx : x ∈ h.nodes := by
      rcases hT with hT | hT
      · exact (inv.settled x hT).1
      · rw [hT]; exact hcur
    have ha0 : 0 ≤ a := le_trans (inv.dist_nonneg x hx) hxa
    show ∃ y ∈ h.nodes, d.visited y = false ∧
      (d.dist y ≤ COST_ADD h.COST_INFINITY a ((s.link_states x).link_cost v) ∨
        h.COST_INFINITY ≤ COST_ADD h.COST_INFINITY a ((s.link_states x).link_cost v))
    by_cases hw : (s.link_states x).link_cost v < h.COST_INFINITY
    · exact ⟨v, hv, hunv, Or.inl (le_trans (inv.frontier x hT v hv hunv hw)
        (cost_add_mono _ _ _ _ hxa ha (hnonneg x hx v hv)))⟩
    · exact ⟨v, hv, hunv, Or.inr (le_of_eq (cost_add_inf _ _ _ ha0 (not_lt.mp hw)).symm)⟩
  | cons y l ih =>
    intro P x a hends hP hl hT hxa ha
    have hx : x ∈ h.nodes := by
      rcases hT with hT | hT
      · exact (inv.settled x hT).1
      · rw [hT]; exact hcur
    have hy : y ∈ h.nodes := hl y (List.mem_cons_self _ _)
    have hl2 : ∀ n ∈ l, n ∈ h.nodes := fun n hn => hl n (List.mem_cons_of_mem _ hn)
    have ha0 : 0 ≤ a := le_trans (inv.dist_nonneg x hx) hxa
    have hlv : ∀ n ∈ l ++ [v], n ∈ h.nodes := by
      intro n hn
      rcases List.mem_append.mp hn with h1 | h1
      · exact hl2 n h1
      · rw [List.mem_singleton.mp h1]; exact hv
    show ∃ z ∈ h.nodes, d.visited z = false ∧
      (d.dist z ≤ path_cost h s (COST_ADD h.COST_INFINITY a ((s.link_states x).link_cost y)) y
          (l ++ [v]) ∨
        h.COST_INFINITY ≤ path_cost h s
          (COST_ADD h.COST_INFINITY a ((s.link_states x).link_cost y)) y (l ++ [v]))
    have hge := (path_cost_ge h s hnonneg (l ++ [v])
      (COST_ADD h.COST_INFINITY a ((s.link_states x).link_cost y)) y hy hlv
      (cost_add_le _ _ _)).1
    by_cases hTy : d.visited y = true ∨ y = h.current_node
    · apply ih (P ++ [y]) y _ _ _ hl2 hTy _ (cost_add_le _ _ _)
      · intro r
        rw [List.append_assoc]
        exact hends (y :: r)
      · intro n hn
        rcases List.mem_append.mp hn with h1 | h1
        · exact hP n h1
        · rw [List.mem_singleton.mp h1]; exact hy
      · rcases hTy with hTy | hTy
        · have := (inv.settled y hTy).2.2 P hP
          unfold route_cost at this
          rw [hends [y]] at this
          exact this
        · rw [hTy, inv.dist_cur]
          exact cost_add_nonneg _ _ _ hinf ha0 (hnonneg x hx _ hcur)
    · have hyu : d.visited y = false := by
        by_contra h1
        exact hTy (Or.inl (by simpa using h1))
      by_cases hw : (s.link_states x).link_cost y < h.COST_INFINITY
      · exact ⟨y, hy, hyu, Or.inl (le_trans (le_trans (inv.frontier x hT y hy hyu hw)
          (cost_add_mono _ _ _ _ hxa ha (hnonneg x hx y hy))) hge)⟩
      · refine ⟨y, hy, hyu, Or.inr ?_⟩
        rw [cost_add_inf _ _ _ ha0 (not_lt.mp hw)] at hge ⊢
        exact hge

/-- Every path from the current node to a node that is neither visited nor the current node
costs at least the distance of some unvisited node, or `COST_INFINITY`. -/
theorem route_leaves_settled (h : Host) (s : state_t)
    (hinf : 0 < h.COST_INFINITY)
    (hnonneg : ∀ u ∈ h.nodes, ∀ v ∈ h.nodes, 0 ≤ (s.link_states u).link_cost v)
    (hcur : h.current_node ∈ h.nodes) (k : Nat) (d : Dijkstra) (inv : DInv h s k d)
    (v : Int) (hv : v ∈ h.nodes) (hunv : d.visited v = false)
    (q : List Int) (hq : ∀ n ∈ q, n ∈ h.nodes) :
    ∃ y ∈ h.nodes, d.visited y = false ∧
      (d.dist y ≤ route_cost h s q v ∨ h.COST_INFINITY ≤ route_cost h s q v) :=
  path_leaves_settled h s hinf hnonneg hcur k d inv v hv hunv q [] h.current_node 0
    (fun _ => rfl) (by simp) hq (Or.inr rfl) (le_of_eq inv.dist_cur) (le_of_lt hinf)

/-- The relaxation loop after marking `u`, entry by entry, against the state before. -/
theorem relax_entries (h : Host) (s : state_t) (u : Int) (d : Dijkstra) (v : Int) :
    (relax h s u { d with visited := store d.visited u true }).visited
        = store d.visited u true ∧
    (relax h s u { d with visited := store d.visited u true }).dist u = d.dist u ∧
    (((relax h s u { d with visited := store d.visited u true }).dist v = d.dist v ∧
        (relax h s u { d with visited := store d.visited u true }).pred v = d.pred v ∧
        (v ∈ h.nodes → store d.visited u true v = false →
          (s.link_states u).link_cost v < h.COST_INFINITY →
          d.dist v ≤ COST_ADD h.COST_INFINITY (d.dist u) ((s.link_states u).link_cost v))) ∨
      (v ∈ h.nodes ∧ store d.visited u true v = false ∧
        (s.link_states u).link_cost v < h.COST_INFINITY ∧
        (relax h s u { d with visited := store d.visited u true }).dist v
          = COST_ADD h.COST_INFINITY (d.dist u) ((s.link_states u).link_cost v) ∧
        COST_ADD h.COST_INFINITY (d.dist u) ((s.link_states u).link_cost v) < d.dist v ∧
        (relax h s u { d with visited := store d.visited u true }).pred v = u)) := by
  have hu : ({ d with visited := store d.visited u true } : Dijkstra).visited u = true :=
    store_same _ _ _
  obtain ⟨h1, h2, h3, h4⟩ := relax_scan h s u h.nodes _ hu v
  refine ⟨h1, h2, ?_⟩
  by_cases hc : v ∈ h.nodes ∧ store d.visited u true v = false ∧
      (s.link_states u).link_cost v < h.COST_INFINITY ∧
      COST_ADD h.COST_INFINITY (d.dist u) ((s.link_states u).link_cost v) < d.dist v
  · right
    obtain ⟨h5, h6⟩ := h3 hc
    exact ⟨hc.1, hc.2.1, hc.2.2.1, h5, hc.2.2.2, h6⟩
  · left
    obtain ⟨h5, h6⟩ := h4 hc
    refine ⟨h5, h6, ?_⟩
    intro hv hvis hw
    by_contra hlt
    exact hc ⟨hv, hvis, hw, not_le.mp hlt⟩

/-- Every iteration of the main loop re-establishes the invariant. -/
theorem dinv_step (h : Host) (s : state_t)
    (hinf : 0 < h.COST_INFINITY)
    (hnonneg : ∀ u ∈ h.nodes, ∀ v ∈ h.nodes, 0 ≤ (s.link_states u).link_cost v)
    (hcur : h.current_node ∈ h.nodes) (k : Nat) (d : Dijkstra) (inv : DInv h s k d)
    (hu : (closest_unvisited h d).1 ≠ -1) :
    DInv h s (k + 1) (relax h s (closest_unvisited h d).1
      { d with visited := store d.visited (closest_unvisited h d).1 true }) := by
  rcases closest_unvisited_spec h d with ⟨h1, _⟩ | ⟨hmem, hunv, hlt, hmin⟩
  · exact absurd h1 hu
  have hre := relax_entries h s (closest_unvisited h d).1 d
  generalize (closest_unvisited h d).1 = u at *
  generalize relax h s u { d with visited := store d.visited u true } = d2 at *
  have hvis : d2.visited = store d.visited u true := (hre u).1
  have hdu : d2.dist u = d.dist u := (hre u).2.1
  have hent := fun v => (hre v).2.2
  have hu0 : 0 ≤ d.dist u := inv.dist_nonneg u hmem
  have halt0 : ∀ v ∈ h.nodes,
      0 ≤ COST_ADD h.COST_INFINITY (d.dist u) ((s.link_states u).link_cost v) :=
    fun v hv => cost_add_nonneg _ _ _ hinf hu0 (hnonneg u hmem v hv)
  have hle : ∀ v, d2.dist v ≤ d.dist v := by
    intro v
    rcases hent v with ⟨h1, _, _⟩ | ⟨_, _, _, h4, h5, _⟩
    · exact le_of_eq h1
    · rw [h4]; exact le_of_lt h5
  have hvis_iff : ∀ x, d2.visited x = true ↔ (x = u ∨ d.visited x = true) := by
    intro x
    rw [hvis]
    unfold store
    by_cases hx : x = u
    · simp [hx]
    · simp [hx]
  have hvis_false : ∀ x, d2.visited x = false → x ≠ u ∧ d.visited x = false := by
    intro x hx
    constructor
    · intro hxu
      have := (hvis_iff x).mpr (Or.inl hxu)
      rw [hx] at this
      exact absurd this (by simp)
    · by_contra h1
      have := (hvis_iff x).mpr (Or.inr (by simpa using h1))
      rw [hx] at this
      exact absurd this (by simp)
  have hkeep : ∀ x, d2.visited x = true → d2.dist x = d.dist x ∧ d2.pred x = d.pred x := by
    intro x hx
    rcases hent x with ⟨h1, h2, _⟩ | ⟨_, h2, _⟩
    · exact ⟨h1, h2⟩
    · rw [← hvis, hx] at h2
      exact absurd h2 (by simp)
  have hcur_keep : d2.dist h.current_node = d.dist h.current_node := by
    rcases hent h.current_node with ⟨h1, _, _⟩ | ⟨h1, _, _, _, h5, _⟩
    · exact h1
    · have := halt0 _ h1
      rw [inv.dist_cur] at h5
      omega
  have hT : ∀ x, (d2.visited x = true ∨ x = h.current_node) → d2.dist x = d.dist x := by
    intro x hx
    rcases hx with hx | hx
    · exact (hkeep x hx).1
    · rw [hx]; exact hcur_keep
  have hopt : ∀ q, (∀ n ∈ q, n ∈ h.nodes) → d.dist u ≤ route_cost h s q u := by
    intro q hq
    obtain ⟨y, hy, hyu, h1 | h1⟩ :=
      route_leaves_settled h s hinf hnonneg hcur k d inv u hmem hunv q hq
    · exact le_trans (hmin y hy hyu) h1
    · exact le_trans (le_of_lt hlt) h1
  refine
    { dist_cur := ?_, dist_nonneg := ?_, sound := ?_, settled := ?_, frontier := ?_,
      direct := ?_, large := ?_, pred_visited := ?_, count := ?_ }
  · rw [hcur_keep]; exact inv.dist_cur
  · intro v hv
    rcases hent v with ⟨h1, _, _⟩ | ⟨_, _, _, h4, _, _⟩
    · rw [h1]; exact inv.dist_nonneg v hv
    · rw [h4]; exact halt0 v hv
  · intro v hv hne hfin
    rcases hent v with ⟨h1, _, _⟩ | ⟨_, _, hw, h4, _, _⟩
    · rw [h1] at hfin ⊢
      exact inv.sound v hv hne hfin
    · rw [h4]
      by_cases huc : u = h.current_node
      · refine ⟨[], by simp, ?_⟩
        show COST_ADD h.COST_INFINITY 0 ((s.link_states h.current_node).link_cost v) = _
        rw [huc, inv.dist_cur]
      · obtain ⟨qu, hqu, hcost⟩ := inv.sound u hmem huc hlt
        refine ⟨qu ++ [u], ?_, ?_⟩
        · intro n hn
          rcases List.mem_append.mp hn with h1 | h1
          · exact hqu n h1
          · rw [List.mem_singleton.mp h1]; exact hmem
        · unfold route_cost at hcost ⊢
          rw [List.append_assoc, List.singleton_append, path_cost_append, hcost]
          rfl
  · intro x hx
    rcases (hvis_iff x).mp hx with hxu | hxo
    · rw [hxu, hdu]
      exact ⟨hmem, hlt, hopt⟩
    · rw [(hkeep x hx).1]
      exact inv.settled x hxo
  · intro x hx v hv hvun hw
    rw [hT x hx]
    by_cases hxu : x = u
    · rw [hxu] at hw ⊢
      rcases hent v with ⟨h1, _, h3⟩ | ⟨_, _, _, h4, _, _⟩
      · rw [h1]
        exact h3 hv (by rw [← hvis]; exact hvun) hw
      · rw [h4]
    · have hxo : d.visited x = true ∨ x = h.current_node := by
        rcases hx with hx | hx
        · rcases (hvis_iff x).mp hx with h1 | h1
          · exact absurd h1 hxu
          · exact Or.inl h1
        · exact Or.inr hx
      exact le_trans (hle v) (inv.frontier x hxo v hv (hvis_false v hvun).2 hw)
  · intro v hv hne hp
    rcases hent v with ⟨h1, h2, _⟩ | ⟨_, _, hw, h4, _, h6⟩
    · rw [h1]
      rw [h2] at hp
      exact inv.direct v hv hne hp
    · rw [h6] at hp
      rw [h4, hp, inv.dist_cur]
      rw [hp] at hw
      exact cost_add_zero _ _ hinf hw
  · intro v hv hbig
    rcases hent v with ⟨h1, h2, _⟩ | ⟨_, _, _, h4, _, _⟩
    · rw [h1] at hbig
      rw [h2]
      exact inv.large v hv hbig
    · rw [h4] at hbig
      exact absurd (cost_add_le _ _ _) (not_le.mpr hbig)
  · intro v hv
    rcases hent v with ⟨_, h2, _⟩ | ⟨_, _, _, _, _, h6⟩
    · rw [h2]
      rcases inv.pred_visited v hv with h1 | h1
      · exact Or.inl h1
      · exact Or.inr ((hvis_iff _).mpr (Or.inr h1))
    · rw [h6]
      exact Or.inr ((hvis_iff _).mpr (Or.inl rfl))
  · obtain ⟨vs, hnd, hlen, hiff⟩ := inv.count
    refine ⟨u :: vs, List.nodup_cons.mpr ⟨?_, hnd⟩, by simp [hlen], ?_⟩
    · intro hin
      have := (hiff u).mp hin
      rw [hunv] at this
      exact absurd this (by simp)
    · intro x
      rw [hvis_iff, List.mem_cons, hiff]

/-- After the main loop the invariant holds, and every enumerated node that was not visited
is at distance `COST_INFINITY` or more. -/
theorem main_loop_final (h : Host) (s : state_t)
    (hinf : 0 < h.COST_INFINITY)
    (hnonneg : ∀ u ∈ h.nodes, ∀ v ∈ h.nodes, 0 ≤ (s.link_states u).link_cost v)
    (hcur : h.current_node ∈ h.nodes) (hnodes : ∀ v ∈ h.nodes, v ≠ -1) :
    ∃ k, DInv h s k (main_loop h s h.nodes (dijkstra_init h s)) ∧
      ∀ v ∈ h.nodes, (main_loop h s h.nodes (dijkstra_init h s)).visited v = false →
        h.COST_INFINITY ≤ (main_loop h s h.nodes (dijkstra_init h s)).dist v := by
  obtain ⟨k, hk, hinv, hexit⟩ := main_loop_rule h s (DInv h s)
    (fun k d hP hu => dinv_step h s hinf hnonneg hcur k d hP hu) h.nodes 0 _
    (dinv_init h s hinf hnonneg hcur)
  refine ⟨k, hinv, ?_⟩
  intro v hv hvun
  rcases hexit with hexit | hexit
  · rcases closest_unvisited_spec h (main_loop h s h.nodes (dijkstra_init h s)) with
      ⟨_, h2⟩ | ⟨h1, _⟩
    · exact h2 v hv hvun
    · exact absurd hexit (hnodes _ h1)
  · obtain ⟨vs, hnd, hlen, hiff⟩ := hinv.count
    have hsub : vs ⊆ h.nodes := fun x hx => (hinv.settled x ((hiff x).mp hx)).1
    have hperm : vs.Perm h.nodes :=
      (List.subperm_of_subset hnd hsub).perm_of_length_le (by omega)
    have hvin : v ∈ vs := hperm.mem_iff.mpr hv
    have := (hiff v).mp hvin
    rw [hvun] at this
    exact absurd this (by simp)

/-- Where the predecessor walk ends: at a node whose predecessor is the current node; this
node is the start, or a visited node other than the current node, which then also is the
next hop. -/
theorem walk_pred_end (h : Host) (d : Dijkstra)
    (hpv : ∀ v ∈ h.nodes, d.pred v = h.current_node ∨ d.visited (d.pred v) = true)
    (hset : ∀ x, d.visited x = true → x ∈ h.nodes)
    (hcur : h.current_node ∈ h.nodes) (hnodes : ∀ v ∈ h.nodes, v ≠ -1)
    (f : Nat) (nh v : Int) (hv : v ∈ h.nodes) (r : Int × Int)
    (hr : walk_pred h.current_node d.pred f nh v = some r) :
    r.2 ∈ h.nodes ∧ d.pred r.2 = h.current_node ∧
      ((r.2 = v ∧ r.1 = nh) ∨
        (d.visited r.2 = true ∧ r.1 = r.2 ∧ r.2 ≠ h.current_node)) := by
  induction f generalizing nh v with
  | zero => simp [walk_pred] at hr
  | succ f ih =>
    unfold walk_pred at hr
    by_cases hc : d.pred v ≠ h.current_node ∧ d.pred v ≠ -1
    · rw [if_pos hc] at hr
      have hpvis : d.visited (d.pred v) = true := by
        rcases hpv v hv with h1 | h1
        · exact absurd h1 hc.1
        · exact h1
      obtain ⟨h1, h2, h3⟩ := ih (d.pred v) (d.pred v) (hset _ hpvis) hr
      refine ⟨h1, h2, Or.inr ?_⟩
      rcases h3 with ⟨h4, h5⟩ | h3
      · rw [h4]
        exact ⟨hpvis, by rw [h5], hc.1⟩
      · exact h3
    · rw [if_neg hc] at hr
      have hrv : r = (nh, v) := by
        have := Option.some.inj hr
        exact this.symm
      rw [hrv]
      refine ⟨hv, ?_, Or.inl ⟨rfl, rfl⟩⟩
      rcases hpv v hv with h1 | h1
      · exact h1
      · by_contra h2
        have h3 : d.pred v = -1 := by
          by_contra h3
          exact hc ⟨h2, h3⟩
        exact hnodes _ (hset _ h1) h3

/-- The `set_route` calls of the last loop: one for every enumerated node other than the
current node, the one that the loop body makes for it. -/
theorem install_routes_mem (fuel : Nat) (h : Host) (d : Dijkstra) (l : List Int)
    (rs : List Route) (hrs : install_routes fuel h d l = some rs) (r : Route) :
    r ∈ rs ↔ ∃ n ∈ l, n ≠ h.current_node ∧ route_to fuel h d n = some r := by
  induction l generalizing rs with
  | nil =>
    have : rs = [] := by
      have := Option.some.inj hrs
      exact this.symm
    simp [this]
  | cons a l ih =>
    unfold install_routes at hrs
    by_cases hc : a = h.current_node
    · rw [if_pos hc] at hrs
      rw [ih rs hrs]
      constructor
      · rintro ⟨n, h1, h2, h3⟩
        exact ⟨n, List.mem_cons_of_mem _ h1, h2, h3⟩
      · rintro ⟨n, h1, h2, h3⟩
        rcases List.mem_cons.mp h1 with h4 | h4
        · exact absurd (h4 ▸ hc) h2
        · exact ⟨n, h4, h2, h3⟩
    · rw [if_neg hc] at hrs
      cases hrt : route_to fuel h d a with
      | none => rw [hrt] at hrs; simp at hrs
      | some ra =>
        rw [hrt] at hrs
        cases hrest : install_routes fuel h d l with
        | none => rw [hrest] at hrs; simp at hrs
        | some rest =>
          rw [hrest] at hrs
          have hrs2 : rs = ra :: rest := by
            have := Option.some.inj hrs
            exact this.symm
          rw [hrs2, List.mem_cons, ih rest hrest]
          constructor
          · rintro (h1 | ⟨n, h1, h2, h3⟩)
            · exact ⟨a, List.mem_cons_self _ _, hc, by rw [h1]; exact hrt⟩
            · exact ⟨n, List.mem_cons_of_mem _ h1, h2, h3⟩
          · rintro ⟨n, h1, h2, h3⟩
            rcases List.mem_cons.mp h1 with h4 | h4
            · left
              rw [h4, hrt] at h3
              exact (Option.some.inj h3).symm
            · exact Or.inr ⟨n, h4, h2, h3⟩

/-- The call of the loop body for `n` is a call for destination `n`. -/
theorem route_to_dest (fuel : Nat) (h : Host) (d : Dijkstra) (n : Int) (r : Route)
    (hr : route_to fuel h d n = some r) : r.dest = n := by
  unfold route_to at hr
  by_cases hd : d.dist n = h.COST_INFINITY
  · rw [if_pos hd] at hr
    rw [← Option.some.inj hr]
  · rw [if_neg hd] at hr
    cases hw : walk_pred h.current_node d.pred fuel n n with
    | none => rw [hw] at hr; simp at hr
    | some p =>
      rw [hw] at hr
      simp only [] at hr
      split_ifs at hr
      · rw [← Option.some.inj hr]
      · rw [← Option.some.inj hr]

/-- When the loop body makes the call `r` for `dest`, the calls of `run_dijkstra` for `dest`
are this call. -/
theorem run_dijkstra_calls (fuel : Nat) (h : Host) (s : state_t) (dest : Int) (r : Route)
    (rs : List Route) (hrs : run_dijkstra fuel h s = some rs)
    (hdest : dest ∈ h.nodes) (hne : dest ≠ h.current_node)
    (hr : route_to fuel h (main_loop h s h.nodes (dijkstra_init h s)) dest = some r) :
    r ∈ rs ∧ ∀ r2 ∈ rs, r2.dest = dest → r2 = r := by
  have hmem := install_routes_mem fuel h _ h.nodes rs hrs
  constructor
  · exact (hmem r).mpr ⟨dest, hdest, hne, hr⟩
  · intro r2 hr2 hd2
    obtain ⟨n, _, _, h3⟩ := (hmem r2).mp hr2
    have := route_to_dest fuel h _ n r2 h3
    rw [hd2] at this
    rw [← this, hr] at h3
    exact (Option.some.inj h3).symm

/-- C5. LS Dijkstra correctness: for a database with costs that are not negative and whose
own row agrees with the live link costs, and for every enumerated destination `dest` other
than the current node, `run_dijkstra` returns and makes for `dest` the call
`set_route(dest, hop, d)` only; if some directed path from the current node to `dest` over
enumerated nodes costs less than `COST_INFINITY` (edge weights
`link_states[u].link_cost[v]`, saturating addition), then `hop` is an enumerated node and `d`
is the least cost of such a path; if there is none, the call is
`set_route(dest, -1, COST_INFINITY)`. -/
theorem ls_dijkstra_least_cost (fuel : Nat) (h : Host) (s : state_t) (dest : Int)
    (hfuel : h.nodes.length + 1 ≤ fuel)
    (hinf : 0 < h.COST_INFINITY)
    (hnonneg : ∀ u ∈ h.nodes, ∀ v ∈ h.nodes, 0 ≤ (s.link_states u).link_cost v)
    (hown : ∀ v ∈ h.nodes, (s.link_states h.current_node).link_cost v = h.link_cost v)
    (hcur : h.current_node ∈ h.nodes) (hnodes : ∀ v ∈ h.nodes, v ≠ -1)
    (hdest : dest ∈ h.nodes) (hne : dest ≠ h.current_node) :
    ∃ (routes : List Route) (hop d : Int),
      run_dijkstra fuel h s = some routes ∧
      { dest := dest, next_hop := hop, cost := d } ∈ routes ∧
      (∀ r ∈ routes, r.dest = dest → r = { dest := dest, next_hop := hop, cost := d }) ∧
      ((∃ q, (∀ n ∈ q, n ∈ h.nodes) ∧ route_cost h s q dest < h.COST_INFINITY) →
        hop ∈ h.nodes ∧ d < h.COST_INFINITY ∧
        (∃ q, (∀ n ∈ q, n ∈ h.nodes) ∧ route_cost h s q dest = d) ∧
        (∀ q, (∀ n ∈ q, n ∈ h.nodes) → d ≤ route_cost h s q dest)) ∧
      ((¬ ∃ q, (∀ n ∈ q, n ∈ h.nodes) ∧ route_cost h s q dest < h.COST_INFINITY) →
        hop = -1 ∧ d = h.COST_INFINITY) := by
  obtain ⟨k, inv, hexit⟩ := main_loop_final h s hinf hnonneg hcur hnodes
  obtain ⟨rs, hrs⟩ := run_dijkstra_returns fuel h s hfuel
  have hcne : h.current_node ≠ -1 := hnodes _ hcur
  generalize hD : main_loop h s h.nodes (dijkstra_init h s) = D at inv hexit
  have hcalls := fun r hr => run_dijkstra_calls fuel h s dest r rs hrs hdest hne (hD ▸ hr)
  obtain ⟨⟨nh, c⟩, hw⟩ := walk_pred_of_stops _ _ _ _ dest dest
    (stops_mono _ _ _ _ _ _ hfuel (main_loop_stops h s dest hdest))
  rw [hD] at hw
  obtain ⟨hc1, hc2, hc3⟩ := walk_pred_end h D inv.pred_visited
    (fun x hx => (inv.settled x hx).1) hcur hnodes fuel dest dest hdest _ hw
  simp only [] at hc1 hc2 hc3
  by_cases hvis : D.visited dest = true
  · -- `dest` was visited: its distance is final and below `COST_INFINITY`
    obtain ⟨_, hlt, hopt⟩ := inv.settled dest hvis
    obtain ⟨q, hq, hcost⟩ := inv.sound dest hdest hne hlt
    have hnhc : nh = c := by
      rcases hc3 with ⟨h1, h2⟩ | ⟨_, h2, _⟩
      · rw [h1, h2]
      · exact h2
    have hcne2 : c ≠ h.current_node := by
      rcases hc3 with ⟨h1, _⟩ | ⟨_, _, h3⟩
      · rw [h1]; exact hne
      · exact h3
    have hclt : D.dist c < h.COST_INFINITY := by
      rcases hc3 with ⟨h1, _⟩ | ⟨h1, _, _⟩
      · rw [h1]; exact hlt
      · exact (inv.settled c h1).2.1
    have hlive : h.link_cost nh < h.COST_INFINITY := by
      rw [hnhc, ← hown c hc1, ← inv.direct c hc1 hcne2 hc2]
      exact hclt
    have hroute : route_to fuel h D dest
        = some { dest := dest, next_hop := nh, cost := D.dist dest } := by
      unfold route_to
      rw [if_neg (ne_of_lt hlt), hw]
      simp only []
      rw [if_pos ⟨by rw [hc2]; exact hcne, hlive⟩]
    obtain ⟨hin, huniq⟩ := hcalls _ hroute
    refine ⟨rs, nh, D.dist dest, hrs, hin, huniq, ?_, ?_⟩
    · intro _
      exact ⟨hnhc ▸ hc1, hlt, ⟨q, hq, hcost⟩, hopt⟩
    · intro hno
      exact absurd ⟨q, hq, by rw [hcost]; exact hlt⟩ hno
  · -- `dest` was not visited: no path of cost below `COST_INFINITY` leads to it
    have hunv : D.visited dest = false := by simpa using hvis
    have hge := hexit dest hdest hunv
    have hnone : ¬ ∃ q, (∀ n ∈ q, n ∈ h.nodes) ∧ route_cost h s q dest < h.COST_INFINITY := by
      rintro ⟨q, hq, hfin⟩
      obtain ⟨y, hy, hyu, h1 | h1⟩ :=
        route_leaves_settled h s hinf hnonneg hcur k D inv dest hdest hunv q hq
      · have := hexit y hy hyu
        omega
      · omega
    have hroute : route_to fuel h D dest
        = some { dest := dest, next_hop := -1, cost := h.COST_INFINITY } := by
      unfold route_to
      by_cases heq : D.dist dest = h.COST_INFINITY
      · rw [if_pos heq]
      · rw [if_neg heq, hw]
        simp only []
        have hbig : h.COST_INFINITY < D.dist dest := lt_of_le_of_ne hge (Ne.symm heq)
        have hpd := inv.large dest hdest hbig
        have hcd : c = dest ∧ nh = dest := by
          rcases hc3 with h1 | ⟨h1, _, _⟩
          · exact h1
          · have := (inv.settled c h1).2.1
            -- the walk stops at once, since the predecessor of `dest` is the current node
            have hw2 := hw
            have hf : ∃ f, fuel = f + 1 := ⟨fuel - 1, by omega⟩
            obtain ⟨f, hf⟩ := hf
            rw [hf] at hw2
            unfold walk_pred at hw2
            rw [if_neg (by rw [hpd]; simp)] at hw2
            have h2 := Option.some.inj hw2
            have h3 : c = dest := (congrArg Prod.snd h2).symm
            have h4 : nh = dest := (congrArg Prod.fst h2).symm
            exact ⟨h3, h4⟩
        rw [if_neg]
        rintro ⟨_, hl⟩
        rw [hcd.2, ← hown dest hdest, ← inv.direct dest hdest hne hpd] at hl
        omega
    obtain ⟨hin, huniq⟩ := hcalls _ hroute
    refine ⟨rs, -1, h.COST_INFINITY, hrs, hin, huniq, ?_, ?_⟩
    · intro hex
      exact absurd hex hnone
    · intro _
      exact ⟨rfl, rfl⟩

/-- Witness of C5 on the three-node line: the route of node `0` to node `2`. -/
theorem ls_dijkstra_least_cost_witness :
    line_host.nodes.length + 1 ≤ 4 ∧ 0 < line_host.COST_INFINITY ∧
    (∀ u ∈ line_host.nodes, ∀ v ∈ line_host.nodes, 0 ≤ (line_db.link_states u).link_cost v) ∧
    (∀ v ∈ line_host.nodes,
      (line_db.link_states line_host.current_node).link_cost v = line_host.link_cost v) ∧
    line_host.current_node ∈ line_host.nodes ∧ (∀ v ∈ line_host.nodes, v ≠ -1) ∧
    (2 : Int) ∈ line_host.nodes ∧ (2 : Int) ≠ line_host.current_node ∧
    ∃ (routes : List Route) (hop d : Int),
      run_dijkstra 4 line_host line_db = some routes ∧
      { dest := 2, next_hop := hop, cost := d } ∈ routes ∧
      (∀ q, (∀ n ∈ q, n ∈ line_host.nodes) → route_cost line_host line_db q 2 < 1000 →
        d ≤ route_cost line_host line_db q 2) :=
  ⟨by decide, by decide, by decide, by decide, by decide, by decide, by decide, by decide,
    (ls_dijkstra_least_cost 4 line_host line_db 2 (by decide) (by decide) (by decide)
      (by decide) (by decide) (by decide) (by decide) (by decide)).imp
      (fun _ hr => hr.imp (fun _ hh => hh.imp (fun _ hd =>
        ⟨hd.1, hd.2.1, fun q hq hfin => (hd.2.2.2.1 ⟨q, hq, hfin⟩).2.2.2 q hq⟩)))⟩

end LS

namespace DV

/-- C11 at its failing input. On the line, node `0` first learns the link to node `1` at cost
`1`; then the link goes down. The recomputation finds best cost `COST_INFINITY` for
destination `1`, updates it, and the call is `set_route(1, 2, COST_INFINITY)`: the next hop
stored and installed is node `2`, not `-1`. -/
theorem dv_unreachable_installs_hop :
    (notify_link_change line_host_down
      (notify_link_change line_host (init_state line_host) 1 1).state 1 1000).routes
      = [{ dest := 1, next_hop := 2, cost := 1000 }] ∧
    (notify_link_change line_host_down
      (notify_link_change line_host (init_state line_host) 1 1).state 1 1000).state.best_next_hop 1
      = 2 ∧
    line_host_down.COST_INFINITY = 1000 :=
  ⟨by decide, by decide, rfl⟩

/-- A scan over neighbours that all cost strictly more than the best so far changes nothing. -/
theorem best_scan_keep (h : Host) (s : state_t) (dest : Int) (l : List Int) (b : Int × Int)
    (hgt : ∀ m ∈ l, m ≠ h.current_node →
      b.1 < COST_ADD h.COST_INFINITY (h.link_cost m) (s.neighbor_costs m dest)) :
    l.foldl (fun (best : Int × Int) n =>
      if n = h.current_node then best
      else
        let cost_via_n := COST_ADD h.COST_INFINITY (h.link_cost n) (s.neighbor_costs n dest)
        if cost_via_n ≤ best.1 then (cost_via_n, n) else best) b = b := by
  induction l with
  | nil => rfl
  | cons a l ih =>
    rw [List.foldl_cons]
    by_cases ha : a = h.current_node
    · rw [if_pos ha]
      exact ih (fun m hm => hgt m (List.mem_cons_of_mem _ hm))
    · rw [if_neg ha]
      simp only []
      rw [if_neg (not_le.mpr (hgt a (List.mem_cons_self _ _) ha))]
      exact ih (fun m hm => hgt m (List.mem_cons_of_mem _ hm))

/-- The scan ends on the last neighbour of least cost, when this cost is at most the cost
the scan starts with. -/
theorem best_scan_last (h : Host) (s : state_t) (dest : Int) (l1 : List Int) (n : Int)
    (l2 : List Int) (b0 : Int × Int) (hn : n ≠ h.current_node)
    (hb0 : COST_ADD h.COST_INFINITY (h.link_cost n) (s.neighbor_costs n dest) ≤ b0.1)
    (hl1 : ∀ m ∈ l1, m ≠ h.current_node →
      COST_ADD h.COST_INFINITY (h.link_cost n) (s.neighbor_costs n dest)
        ≤ COST_ADD h.COST_INFINITY (h.link_cost m) (s.neighbor_costs m dest))
    (hl2 : ∀ m ∈ l2, m ≠ h.current_node →
      COST_ADD h.COST_INFINITY (h.link_cost n) (s.neighbor_costs n dest)
        < COST_ADD h.COST_INFINITY (h.link_cost m) (s.neighbor_costs m dest)) :
    (l1 ++ n :: l2).foldl (fun (best : Int × Int) n =>
      if n = h.current_node then best
      else
        let cost_via_n := COST_ADD h.COST_INFINITY (h.link_cost n) (s.neighbor_costs n dest)
        if cost_via_n ≤ best.1 then (cost_via_n, n) else best) b0
      = (COST_ADD h.COST_INFINITY (h.link_cost n) (s.neighbor_costs n dest), n) := by
  rw [List.foldl_append, List.foldl_cons]
  obtain ⟨_, _, h3⟩ := best_scan_spec h s dest l1 b0
  simp only [] at h3
  have hle : COST_ADD h.COST_INFINITY (h.link_cost n) (s.neighbor_costs n dest)
      ≤ (l1.foldl (fun (best : Int × Int) n =>
        if n = h.current_node then best
        else
          let cost_via_n := COST_ADD h.COST_INFINITY (h.link_cost n) (s.neighbor_costs n dest)
          if cost_via_n ≤ best.1 then (cost_via_n, n) else best) b0).1 := by
    rcases h3 with h3 | ⟨m, hm, hmc, _, h5⟩
    · rw [h3]; exact hb0
    · rw [h5]; exact hl1 m hm hmc
  rw [if_neg hn]
  simp only []
  rw [if_pos hle]
  exact best_scan_keep h s dest l2 _ hl2

/-- An iteration of the outer loop only adds `set_route` calls. -/
theorem recalculate_step_routes (h : Host) (acc : Recalc) (d : Int) (r : Route)
    (hr : r ∈ acc.routes) : r ∈ (recalculate_step h acc d).routes := by
  unfold recalculate_step
  by_cases hc : d = h.current_node
  · rw [if_pos hc]; exact hr
  · rw [if_neg hc]
    simp only []
    split_ifs
    · exact List.mem_append_left _ hr
    · exact hr

/-- What an iteration of the outer loop does to the entries of a destination. -/
theorem recalculate_step_entry (h : Host) (acc : Recalc) (d dest : Int) :
    ((recalculate_step h acc d).state.distance_vector dest = acc.state.distance_vector dest ∧
      (recalculate_step h acc d).state.best_next_hop dest = acc.state.best_next_hop dest ∧
      (recalculate_step h acc d).routes = acc.routes) ∨
    (d ≠ h.current_node ∧
      (best_route h acc.state d).1 ≠ acc.state.distance_vector d ∧
      (recalculate_step h acc d).routes = acc.routes ++
        [{ dest := d, next_hop := (best_route h acc.state d).2,
           cost := (best_route h acc.state d).1 }] ∧
      (recalculate_step h acc d).state.distance_vector
        = store acc.state.distance_vector d (best_route h acc.state d).1 ∧
      (recalculate_step h acc d).state.best_next_hop
        = store acc.state.best_next_hop d (best_route h acc.state d).2) := by
  unfold recalculate_step
  by_cases hc : d = h.current_node
  · rw [if_pos hc]; exact Or.inl ⟨rfl, rfl, rfl⟩
  · rw [if_neg hc]
    simp only []
    by_cases hb : (best_route h acc.state d).1 ≠ acc.state.distance_vector d
    · rw [if_pos hb]
      exact Or.inr ⟨hc, hb, rfl, rfl, rfl⟩
    · rw [if_neg hb]
      exact Or.inl ⟨rfl, rfl, rfl⟩

theorem recalculate_fold_routes (h : Host) (l : List Int) (acc : Recalc) (r : Route)
    (hr : r ∈ acc.routes) : r ∈ (l.foldl (recalculate_step h) acc).routes := by
  induction l generalizing acc with
  | nil => exact hr
  | cons a l ih =>
    rw [List.foldl_cons]
    exact ih _ (recalculate_step_routes h acc a r hr)

/-- During the outer loop every `set_route` call made so far is the result of the scan for
its destination, and the state holds its cost and next hop. -/
theorem recalculate_fold_installed (h : Host) (s : state_t) (l : List Int) (acc : Recalc)
    (hnc : acc.state.neighbor_costs = s.neighbor_costs)
    (hacc : ∀ r ∈ acc.routes, r.cost = (best_route h s r.dest).1 ∧
      r.next_hop = (best_route h s r.dest).2 ∧
      acc.state.distance_vector r.dest = r.cost ∧ acc.state.best_next_hop r.dest = r.next_hop) :
    ∀ r ∈ (l.foldl (recalculate_step h) acc).routes, r.cost = (best_route h s r.dest).1 ∧
      r.next_hop = (best_route h s r.dest).2 ∧
      (l.foldl (recalculate_step h) acc).state.distance_vector r.dest = r.cost ∧
      (l.foldl (recalculate_step h) acc).state.best_next_hop r.dest = r.next_hop := by
  induction l generalizing acc with
  | nil => exact hacc
  | cons a l ih =>
    rw [List.foldl_cons]
    apply ih
    · rw [recalculate_step_neighbor_costs, hnc]
    · have hb := best_route_congr h acc.state s a hnc
      intro r hr
      rcases recalculate_step_entry h acc a r.dest with ⟨h1, h2, h3⟩ | ⟨_, hne, h3, h4, h5⟩
      · rw [h3] at hr
        rw [h1, h2]
        exact hacc r hr
      · rw [h3] at hr
        rcases List.mem_append.mp hr with hr | hr
        · obtain ⟨i1, i2, i3, i4⟩ := hacc r hr
          have hra : r.dest ≠ a := by
            intro hra
            rw [hra] at i1 i3
            exact hne (by rw [hb, i3, i1])
          rw [h4, h5, store_other _ _ _ _ hra, store_other _ _ _ _ hra]
          exact ⟨i1, i2, i3, i4⟩
        · rw [List.mem_singleton.mp hr, h4, h5]
          simp only [store_same]
          exact ⟨by rw [hb], by rw [hb], trivial, trivial⟩

/-- Every `set_route` call of `recalculate_distance_vector` is the result of the scan for its
destination, and the state after it holds its cost and next hop. -/
theorem recalculate_installed (h : Host) (s : state_t) :
    ∀ r ∈ (recalculate_distance_vector h s).routes, r.cost = (best_route h s r.dest).1 ∧
      r.next_hop = (best_route h s r.dest).2 ∧
      (recalculate_distance_vector h s).state.distance_vector r.dest = r.cost ∧
      (recalculate_distance_vector h s).state.best_next_hop r.dest = r.next_hop :=
  recalculate_fold_installed h s h.nodes _ rfl (by simp)

/-- A destination whose stored distance is not the scanned best cost gets its `set_route`
call during the outer loop. -/
theorem recalculate_fold_call (h : Host) (s : state_t) (l : List Int) (acc : Recalc)
    (dest : Int) (hnc : acc.state.neighbor_costs = s.neighbor_costs)
    (hmem : dest ∈ l) (hne : dest ≠ h.current_node)
    (hupd : (best_route h s dest).1 ≠ acc.state.distance_vector dest) :
    ({ dest := dest, next_hop := (best_route h s dest).2, cost := (best_route h s dest).1 }
      : Route) ∈ (l.foldl (recalculate_step h) acc).routes := by
  induction l generalizing acc with
  | nil => cases hmem
  | cons a l ih =>
    rw [List.foldl_cons]
    have hb := best_route_congr h acc.state s dest hnc
    by_cases ha : dest = a
    · subst ha
      apply recalculate_fold_routes
      rcases recalculate_step_entry h acc dest dest with ⟨h1, _, _⟩ | ⟨_, _, h3, _, _⟩
      · -- no change is impossible: the stored distance differs from the best cost
        exfalso
        have hstep := recalculate_step_at h acc dest hne
        rw [h1, hb] at hstep
        exact hupd hstep.symm
      · rw [h3, hb]
        exact List.mem_append_right _ (List.mem_singleton_self _)
    · apply ih
      · rw [recalculate_step_neighbor_costs, hnc]
      · rcases List.mem_cons.mp hmem with h1 | h1
        · exact absurd h1 ha
        · exact h1
      · rcases recalculate_step_entry h acc a dest with ⟨h1, _, _⟩ | ⟨_, _, _, h4, _⟩
        · rw [h1]; exact hupd
        · rw [h4, store_other _ _ _ _ ha]; exact hupd

/-- C12 as stated fails. On the fork, node `0` has learned cost `1` to node `3` from
neighbour `1` and cost `2` from neighbour `2` (distance `2`, next hop `1`). Neighbour `1` now
advertises cost `2`: neighbours `1` and `2` both reach destination `3` at the minimal cost
`3`, the distance of `3` is updated from `2` to `3`, and the next hop stored and installed is
node `2`, the last of the two in enumeration order, not node `1`. -/
theorem dv_tie_break_not_first :
    fork_host.nodes = [0, 1, 2, 3] ∧
    fork_tied.distance_vector 3 = 2 ∧ fork_tied.best_next_hop 3 = 1 ∧
    COST_ADD fork_host.COST_INFINITY (fork_host.link_cost 1)
      ((receive_vector fork_host fork_tied 1 (fork_vector_far 1)).neighbor_costs 1 3) = 3 ∧
    COST_ADD fork_host.COST_INFINITY (fork_host.link_cost 2)
      ((receive_vector fork_host fork_tied 1 (fork_vector_far 1)).neighbor_costs 2 3) = 3 ∧
    (∀ n ∈ fork_host.nodes, n ≠ fork_host.current_node →
      3 ≤ COST_ADD fork_host.COST_INFINITY (fork_host.link_cost n)
        ((receive_vector fork_host fork_tied 1 (fork_vector_far 1)).neighbor_costs n 3)) ∧
    (notify_receive_message fork_host fork_tied 1 (fork_vector_far 1)).state.distance_vector 3
      = 3 ∧
    (notify_receive_message fork_host fork_tied 1 (fork_vector_far 1)).state.best_next_hop 3
      = 2 ∧
    (notify_receive_message fork_host fork_tied 1 (fork_vector_far 1)).routes
      = [{ dest := 3, next_hop := 2, cost := 3 }] :=
  ⟨rfl, by decide, by decide, by decide, by decide, by decide, by decide, by decide, by decide⟩

/-- C12, amended. DV tie-break: in `recalculate_distance_vector`, for an enumerated
destination other than the current node whose distance is updated, if a neighbour `n`
achieves the new distance as `COST_ADD(linkCost(n), neighbor_costs[n][dest])` and no
neighbour after `n` in the enumeration does, then `n` is the next hop stored in
`best_next_hop[dest]` and passed to `set_route`: among the neighbours of minimal cost the
last one in enumeration order wins. -/
theorem dv_tie_break_last (h : Host) (s : state_t) (dest : Int) (l1 : List Int) (n : Int)
    (l2 : List Int) (hnodes : h.nodes = l1 ++ n :: l2)
    (hmem : dest ∈ h.nodes) (hne : dest ≠ h.current_node) (hn : n ≠ h.current_node)
    (hupd : (recalculate_distance_vector h s).state.distance_vector dest
      ≠ s.distance_vector dest)
    (hmin : COST_ADD h.COST_INFINITY (h.link_cost n) (s.neighbor_costs n dest)
      = (recalculate_distance_vector h s).state.distance_vector dest)
    (hlast : ∀ m ∈ l2, m ≠ h.current_node →
      COST_ADD h.COST_INFINITY (h.link_cost m) (s.neighbor_costs m dest)
        ≠ COST_ADD h.COST_INFINITY (h.link_cost n) (s.neighbor_costs n dest)) :
    (recalculate_distance_vector h s).state.best_next_hop dest = n ∧
    ({ dest := dest, next_hop := n,
       cost := COST_ADD h.COST_INFINITY (h.link_cost n) (s.neighbor_costs n dest) } : Route)
      ∈ (recalculate_distance_vector h s).routes := by
  have hdv := recalculate_distance h s dest hmem hne
  rw [hdv] at hupd hmin
  obtain ⟨h1, h2, _⟩ := best_scan_spec h s dest h.nodes (h.link_cost dest, -1)
  simp only [] at h1 h2
  have hbest : best_route h s dest
      = (COST_ADD h.COST_INFINITY (h.link_cost n) (s.neighbor_costs n dest), n) := by
    have hb1 : (best_route h s dest).1 ≤ h.link_cost dest := h1
    have hb2 : ∀ m ∈ h.nodes, m ≠ h.current_node → (best_route h s dest).1
        ≤ COST_ADD h.COST_INFINITY (h.link_cost m) (s.neighbor_costs m dest) := h2
    unfold best_route
    rw [hnodes]
    apply best_scan_last h s dest l1 n l2 _ hn
    · rw [hmin]; exact hb1
    · intro m hm hmc
      rw [hmin]
      exact hb2 m (by rw [hnodes]; exact List.mem_append_left _ hm) hmc
    · intro m hm hmc
      have hle := hb2 m (by
        rw [hnodes]
        exact List.mem_append_right _ (List.mem_cons_of_mem _ hm)) hmc
      rw [← hmin] at hle
      exact lt_of_le_of_ne hle (Ne.symm (hlast m hm hmc))
  have hcall := recalculate_fold_call h s h.nodes
    { state := s, routes := [], updated := false } dest rfl hmem hne hupd
  rw [hbest] at hcall
  refine ⟨?_, hcall⟩
  have := (recalculate_installed h s _ hcall).2.2.2
  exact this

/-- Witness of the amended C12 on the fork: node `2` is the last neighbour at cost `2`. -/
theorem dv_tie_break_last_witness :
    fork_host.nodes = [0, 1] ++ 2 :: [3] ∧
    (recalculate_distance_vector fork_host fork_state).state.best_next_hop 3 = 2 ∧
    ({ dest := 3, next_hop := 2,
       cost := COST_ADD fork_host.COST_INFINITY (fork_host.link_cost 2)
         (fork_state.neighbor_costs 2 3) } : Route)
      ∈ (recalculate_distance_vector fork_host fork_state).routes :=
  ⟨rfl, dv_tie_break_last fork_host fork_state 3 [0, 1] 2 [3] rfl (by decide) (by decide)
    (by decide) (by decide) (by decide) (by decide)⟩

/-- Every `set_route` call of `recalculate_distance_vector` agrees with the state it leaves. -/
theorem recalculate_consistent (h : Host) (s : state_t) :
    ∀ r ∈ (recalculate_distance_vector h s).routes,
      Consistent h (recalculate_distance_vector h s).state r := by
  intro r hr
  obtain ⟨h1, h2, h3, h4⟩ := recalculate_installed h s r hr
  refine ⟨h3, h4, ?_⟩
  intro hhop
  have hnc : (recalculate_distance_vector h s).state.neighbor_costs = s.neighbor_costs :=
    recalculate_fold_neighbor_costs h h.nodes _
  rw [hnc, h1, h2]
  obtain ⟨_, _, h5⟩ := best_scan_spec h s r.dest h.nodes (h.link_cost r.dest, -1)
  simp only [] at h5
  rcases h5 with h5 | ⟨n, _, _, h6, h7⟩
  · exfalso
    apply hhop
    rw [h2]
    show (best_route h s r.dest).2 = -1
    unfold best_route
    rw [h5]
  · have h6b : (best_route h s r.dest).2 = n := h6
    have h7b : (best_route h s r.dest).1
        = COST_ADD h.COST_INFINITY (h.link_cost n) (s.neighbor_costs n r.dest) := h7
    rw [h6b, h7b]

/-- The state and the `set_route` calls of `notify_link_change` are those of the
recomputation, in both branches of its last test. -/
theorem link_change_recalc (h : Host) (s : state_t) (neighbor new_cost : Int) :
    (notify_link_change h s neighbor new_cost).state
      = (recalculate_distance_vector h { s with
          neighbor_costs := store s.neighbor_costs h.current_node
            (store (s.neighbor_costs h.current_node) neighbor new_cost) }).state ∧
    (notify_link_change h s neighbor new_cost).routes
      = (recalculate_distance_vector h { s with
          neighbor_costs := store s.neighbor_costs h.current_node
            (store (s.neighbor_costs h.current_node) neighbor new_cost) }).routes := by
  unfold notify_link_change
  simp only []
  split_ifs <;> exact ⟨rfl, rfl⟩

theorem receive_routes (h : Host) (s : state_t) (sender : Int) (message : data_t) :
    (notify_receive_message h s sender message).routes
      = (recalculate_distance_vector h (receive_vector h s sender message)).routes := by
  unfold notify_receive_message
  simp only []
  split_ifs <;> rfl

/-- C18 as stated fails. On the fork, node `0` starts from `init_state`, receives from
neighbours `1` and `2` their cost `1` to node `3` (the distance to `3` becomes `2`, next hop
`1`), and then its link to node `1` changes to cost `5`. After `notify_link_change` the
distance to `3` is still the finite `2` (now through node `2`), the stored next hop is still
node `1`, and `COST_ADD(linkCost(1), neighbor_costs[1][3])` is `6`. -/
theorem dv_next_hop_stale :
    (3 : Int) ∈ fork_host_slow.nodes ∧ (3 : Int) ≠ fork_host_slow.current_node ∧
    (notify_link_change fork_host_slow fork_learned 1 5).state.distance_vector 3 = 2 ∧
    (2 : Int) < fork_host_slow.COST_INFINITY ∧
    (notify_link_change fork_host_slow fork_learned 1 5).state.best_next_hop 3 = 1 ∧
    COST_ADD fork_host_slow.COST_INFINITY (fork_host_slow.link_cost 1)
      ((notify_link_change fork_host_slow fork_learned 1 5).state.neighbor_costs 1 3) = 6 :=
  ⟨by decide, by decide, by decide, by decide, by decide, by decide⟩

/-- C18, amended. DV next-hop consistency of the installed routes: for every state, host and
event (`notify_link_change` or `notify_receive_message`), for every call
`set_route(dest, h, c)` that the handler makes, after the handler `distance_vector[dest]` is
`c`, `best_next_hop[dest]` is `h`, and if `h` is a node (not `-1`) then
`COST_ADD(linkCost(h), neighbor_costs[h][dest]) == c`. -/
theorem dv_installed_hop_consistent (h : Host) (s : state_t) :
    (∀ neighbor new_cost : Int, ∀ r ∈ (notify_link_change h s neighbor new_cost).routes,
      Consistent h (notify_link_change h s neighbor new_cost).state r) ∧
    (∀ (sender : Int) (message : data_t),
      ∀ r ∈ (notify_receive_message h s sender message).routes,
        Consistent h (notify_receive_message h s sender message).state r) := by
  constructor
  · intro neighbor new_cost r hr
    obtain ⟨h1, h2⟩ := link_change_recalc h s neighbor new_cost
    rw [h2] at hr
    rw [h1]
    exact recalculate_consistent h _ r hr
  · intro sender message r hr
    rw [receive_routes] at hr
    rw [receive_state]
    exact recalculate_consistent h _ r hr

/-- Witness of the amended C18 on the fork: the call made when the link to node `1` slows. -/
theorem dv_installed_hop_consistent_witness :
    Consistent fork_host_slow (notify_link_change fork_host_slow fork_learned 1 5).state
      { dest := 1, next_hop := 1, cost := 5 } :=
  (dv_installed_hop_consistent fork_host_slow fork_learned).1 1 5 _ (by decide)

end DV

namespace PV

/-- C13 at its failing input. In the example state of node `0` the chosen route to node `2`
has the path `[0, 1]`, first hop node `1`, at cost `6`, and the own row is as the
recomputation writes it (a recomputation changes nothing). `invalidate_route(0, 1)` compares
slot `0` of each chosen path, which holds the current node, with the neighbour: it issues no
`set_route` call and leaves the cost `6` and the path `[0, 1]` in place. -/
theorem pv_invalidate_route_misses :
    (recalculate_distance_vector line_host line_state).routes = [] ∧
    line_state.paths 0 2 0 = 0 ∧ line_state.paths 0 2 1 = 1 ∧
    (invalidate_route line_host line_state 0 1).2 = [] ∧
    (invalidate_route line_host line_state 0 1).1.neighbor_costs 0 2 = 6 ∧
    path_entries line_host ((invalidate_route line_host line_state 0 1).1.paths 0 2) = [0, 1] :=
  ⟨by decide, by decide, by decide, by decide, by decide, by decide⟩

/-- C14 at its failing input. In a universe without node `0` the loop of `init_state` never
writes slot `0` of a path, which keeps the `0` of `calloc`: the path from node `1` to node
`2` reads as `[0]`, and `contains_cycle` finds node `0` in it. The costs are as claimed. -/
theorem pv_init_sparse_path :
    sparse_host.nodes = [1, 2] ∧
    path_entries sparse_host ((init_state sparse_host).paths 1 2) = [0] ∧
    contains_cycle sparse_host ((init_state sparse_host).paths 1 2) 0 = true ∧
    (init_state sparse_host).neighbor_costs 1 1 = 0 ∧
    (init_state sparse_host).neighbor_costs 1 2 = sparse_host.COST_INFINITY :=
  ⟨rfl, by decide, by decide, by decide, by decide⟩

/-- C19 at its failing input. In the example state of node `0` the chosen cost to node `1`
is `1` over the direct link. The link changes to cost `3`: `notify_link_change(1, 3)` first
stores `3` in `neighbor_costs[0][1]`, the recomputation then finds the best cost `3` already
stored and the path unchanged, and makes no call for destination `1`; the only call is
`set_route(2, 1, 8)`. -/
theorem pv_link_change_no_route :
    line_state.neighbor_costs line_host_far.current_node 1 = 1 ∧
    (notify_link_change line_host_far line_state 1 3).state.neighbor_costs
      line_host_far.current_node 1 = 3 ∧
    (notify_link_change line_host_far line_state 1 3).routes
      = [{ dest := 2, next_hop := 1, cost := 8 }] :=
  ⟨by decide, by decide, by decide⟩

end PV

namespace LS

/-- C15 as stated fails: the databases `line_db` and `line_db_stale` differ only in the cost
vector of the own row of node `0`, the host is the same, and `run_dijkstra` installs the
routes at costs `1` and `2` for the first and at costs `7` and `8` for the second: the own
edge weights come from the stored row. -/
theorem ls_own_row_is_read :
    (∀ n, n ≠ line_host.current_node → line_db_stale.link_states n = line_db.link_states n) ∧
    (line_db_stale.link_states line_host.current_node).version
      = (line_db.link_states line_host.current_node).version ∧
    run_dijkstra 4 line_host line_db
      = some [{ dest := 1, next_hop := 1, cost := 1 }, { dest := 2, next_hop := 1, cost := 2 }] ∧
    run_dijkstra 4 line_host line_db_stale
      = some [{ dest := 1, next_hop := 1, cost := 7 }, { dest := 2, next_hop := 1, cost := 8 }] :=
  ⟨fun n hn => store_other _ _ _ _ hn, rfl, by decide, by decide⟩

theorem main_loop_live (h : Host) (s : state_t) (f : Int → Int) (l : List Int) (d : Dijkstra) :
    main_loop { h with link_cost := f } s l d = main_loop h s l d := by
  induction l generalizing d with
  | nil => rfl
  | cons a l ih =>
    unfold main_loop
    have hc : closest_unvisited { h with link_cost := f } d = closest_unvisited h d := rfl
    rw [hc]
    simp only []
    split_ifs
    · rfl
    · rw [ih]
      rfl

theorem route_to_live (fuel : Nat) (h : Host) (f : Int → Int) (d : Dijkstra) (n : Int)
    (hlive : ∀ n, f n < h.COST_INFINITY ↔ h.link_cost n < h.COST_INFINITY) :
    route_to fuel { h with link_cost := f } d n = route_to fuel h d n := by
  unfold route_to
  by_cases hd : d.dist n = h.COST_INFINITY
  · rw [if_pos hd, if_pos hd]
  · rw [if_neg hd, if_neg hd]
    cases hw : walk_pred h.current_node d.pred fuel n n with
    | none => simp only [hw]
    | some p =>
      simp only [hw]
      by_cases hc : d.pred p.2 ≠ -1 ∧ h.link_cost p.1 < h.COST_INFINITY
      · rw [if_pos hc, if_pos ⟨hc.1, (hlive p.1).mpr hc.2⟩]
      · rw [if_neg hc, if_neg (fun hc2 => hc ⟨hc2.1, (hlive p.1).mp hc2.2⟩)]

theorem install_routes_live (fuel : Nat) (h : Host) (f : Int → Int) (d : Dijkstra)
    (l : List Int)
    (hlive : ∀ n, f n < h.COST_INFINITY ↔ h.link_cost n < h.COST_INFINITY) :
    install_routes fuel { h with link_cost := f } d l = install_routes fuel h d l := by
  induction l with
  | nil => rfl
  | cons a l ih =>
    unfold install_routes
    rw [ih, route_to_live fuel h f d a hlive]

/-- C15, amended. LS recompute reads the live link costs only to test whether the link to a
derived next hop is up: on the same database, for two live link-cost functions that are
below `COST_INFINITY` on the same nodes, `run_dijkstra` makes the same sequence of
`set_route` calls. The weights of the own outgoing edges are those stored in
`link_states[self].link_cost`. -/
theorem ls_dijkstra_reads_liveness (fuel : Nat) (h : Host) (s : state_t) (f : Int → Int)
    (hlive : ∀ n, f n < h.COST_INFINITY ↔ h.link_cost n < h.COST_INFINITY) :
    run_dijkstra fuel { h with link_cost := f } s = run_dijkstra fuel h s := by
  unfold run_dijkstra
  have hi : dijkstra_init { h with link_cost := f } s = dijkstra_init h s := rfl
  rw [install_routes_live fuel h f _ _ hlive]
  show install_routes fuel h (main_loop { h with link_cost := f } s h.nodes
    (dijkstra_init { h with link_cost := f } s)) h.nodes = _
  rw [main_loop_live, hi]

/-- Witness of the amended C15 on the line: the live cost of the link to node `1` is `3`
instead of `1`, and the calls are the same. -/
theorem ls_dijkstra_reads_liveness_witness :
    run_dijkstra 4 { line_host with link_cost := line_host_far.link_cost } line_db
      = run_dijkstra 4 line_host line_db :=
  ls_dijkstra_reads_liveness 4 line_host line_db line_host_far.link_cost (by
    intro n
    show (if n = 0 then (0 : Int) else if n = 1 then 3 else 1000) < 1000
      ↔ (if n = 0 then (0 : Int) else if n = 1 then 1 else 1000) < 1000
    split_ifs <;> simp)

/-- C17 as stated fails: node `0` of the line, in its initial state (own version `0`, own
cost `1` to node `1`), receives a database whose entry for node `0` has version `5`; after
`notify_receive_message` its own entry has version `5` and cost `9` to node `1`. -/
theorem ls_own_entry_replaced :
    ((init_state line_host).link_states line_host.current_node).version = 0 ∧
    ((init_state line_host).link_states line_host.current_node).link_cost 1 = 1 ∧
    (notify_receive_message 4 line_host (init_state line_host) 1 forged_update).map
      (fun o => ((o.state.link_states line_host.current_node).version,
        (o.state.link_states line_host.current_node).link_cost 1)) = some (5, 9) :=
  ⟨by decide, by decide, by decide⟩

/-- C17, amended. LS own entry: `notify_receive_message` returns; for every state, sender and
received database whose entry for the current node has a version that is not greater than
the stored one, it leaves `link_states[self]`, cost vector and version, unchanged; and when
the received version of the entry for the (enumerated) current node is strictly greater, the
own entry is replaced by the received one, as the entry of any other owner is. -/
theorem ls_own_entry_kept (fuel : Nat) (h : Host) (s : state_t) (sender : Int)
    (received_data : data_t) (hfuel : h.nodes.length + 1 ≤ fuel) :
    ∃ o, notify_receive_message fuel h s sender received_data = some o ∧
      ((received_data.ls h.current_node).version ≤ (s.link_states h.current_node).version →
        o.state.link_states h.current_node = s.link_states h.current_node) ∧
      (h.current_node ∈ h.nodes →
        (received_data.ls h.current_node).version > (s.link_states h.current_node).version →
        o.state.link_states h.current_node = received_data.ls h.current_node) := by
  obtain ⟨o, h1, h2, _⟩ := receive_returns fuel h s sender received_data hfuel
  refine ⟨o, h1, ?_, ?_⟩
  · intro hver
    rw [h2, (receive_entries_spec h s received_data h.current_node).1, if_neg]
    rintro ⟨_, hgt⟩
    omega
  · intro hcur hgt
    rw [h2, (receive_entries_spec h s received_data h.current_node).1, if_pos ⟨hcur, hgt⟩]

/-- Witness of the amended C17 on the line: the database of node `1` leaves the own entry of
node `0` as it is. -/
theorem ls_own_entry_kept_witness :
    line_host.nodes.length + 1 ≤ 4 ∧
    (line_update.ls line_host.current_node).version
      ≤ ((init_state line_host).link_states line_host.current_node).version ∧
    ∃ o, notify_receive_message 4 line_host (init_state line_host) 1 line_update = some o ∧
      o.state.link_states line_host.current_node
        = (init_state line_host).link_states line_host.current_node :=
  ⟨by decide, by decide,
    (ls_own_entry_kept 4 line_host (init_state line_host) 1 line_update (by decide)).imp
      (fun _ ho => ⟨ho.1, ho.2.1 (by decide)⟩)⟩

/-- After the main loop every visited node is an enumerated one, and the predecessor of an
enumerated node is the current node or a visited node. -/
theorem main_loop_pred (h : Host) (s : state_t) :
    (∀ x, (main_loop h s h.nodes (dijkstra_init h s)).visited x = true → x ∈ h.nodes) ∧
    (∀ x, (main_loop h s h.nodes (dijkstra_init h s)).visited x = true → x ≠ -1) ∧
    (∀ v ∈ h.nodes, (main_loop h s h.nodes (dijkstra_init h s)).pred v = h.current_node ∨
      (main_loop h s h.nodes (dijkstra_init h s)).visited
        ((main_loop h s h.nodes (dijkstra_init h s)).pred v) = true) := by
  obtain ⟨k, _, hinv, _⟩ := main_loop_rule h s
    (fun _ d => (∀ x, d.visited x = true → x ∈ h.nodes) ∧
      (∀ x, d.visited x = true → x ≠ -1) ∧
      (∀ v ∈ h.nodes, d.pred v = h.current_node ∨ d.visited (d.pred v) = true))
    (by
      intro k d ⟨h1, h1b, h2⟩ hu
      obtain ⟨hv1, hv2, hv3⟩ := relax_marked h s (closest_unvisited h d).1 d
      rcases closest_unvisited_spec h d with ⟨h3, _⟩ | ⟨hmem, _, _, _⟩
      · exact absurd h3 hu
      generalize (closest_unvisited h d).1 = u at *
      generalize relax h s u { d with visited := store d.visited u true } = d2 at *
      refine ⟨?_, ?_, ?_⟩
      · intro x hx
        rw [hv1] at hx
        by_cases hxu : x = u
        · rw [hxu]; exact hmem
        · rw [store_other _ _ _ _ hxu] at hx
          exact h1 x hx
      · intro x hx
        rw [hv1] at hx
        by_cases hxu : x = u
        · rw [hxu]; exact hu
        · rw [store_other _ _ _ _ hxu] at hx
          exact h1b x hx
      · intro v hv
        rcases hv3 v with hp | hp
        · rcases h2 v hv with h4 | h4
          · left; rw [hp]; exact h4
          · right
            rw [hp, hv1]
            unfold store
            split_ifs
            · rfl
            · exact h4
        · right
          rw [hp, hv1]
          exact store_same _ _ _)
    h.nodes 0 (dijkstra_init h s)
    ⟨fun x hx => by rw [dijkstra_init_visited] at hx; exact absurd hx (by simp),
      fun x hx => by rw [dijkstra_init_visited] at hx; exact absurd hx (by simp),
      fun v hv => Or.inl (dijkstra_init_pred h s v hv)⟩
  exact hinv

/-- A predecessor walk that stops within `f` tests makes `k` steps with `k + 1 ≤ f`, ends at
the `k`-th predecessor of its start, and the predecessor of that node is the current node. -/
theorem walk_pred_iterate (cur : Int) (vis : Int → Bool) (pred : Int → Int) (nodes : List Int)
    (hvis : ∀ x, vis x = true → x ∈ nodes ∧ x ≠ -1)
    (hpred : ∀ v ∈ nodes, pred v = cur ∨ vis (pred v) = true)
    (f : Nat) (v nh : Int) (hv : v ∈ nodes) (hs : Stops cur vis pred f v) :
    ∃ k nh2, k + 1 ≤ f ∧
      (∀ fuel, k + 1 ≤ fuel →
        walk_pred cur pred fuel nh v = some (nh2, Nat.iterate pred k v)) ∧
      pred (Nat.iterate pred k v) = cur := by
  induction f generalizing v nh with
  | zero => exact absurd hs (by simp [Stops])
  | succ f ih =>
    by_cases hc : pred v ≠ cur ∧ pred v ≠ -1
    · rcases hs with h1 | ⟨h1, h2⟩
      · rcases h1 with h1 | h1
        · exact absurd h1 hc.1
        · exact absurd h1 hc.2
      · obtain ⟨k, nh2, hk, hw, hp⟩ := ih (pred v) (pred v) (hvis _ h1).1 h2
        refine ⟨k + 1, nh2, by omega, ?_, ?_⟩
        · intro fuel hfuel
          obtain ⟨g, hg⟩ : ∃ g, fuel = g + 1 := ⟨fuel - 1, by omega⟩
          rw [hg]
          unfold walk_pred
          rw [if_pos hc, Function.iterate_succ_apply]
          exact hw g (by omega)
        · rw [Function.iterate_succ_apply]
          exact hp
    · refine ⟨0, nh, by omega, ?_, ?_⟩
      · intro fuel hfuel
        obtain ⟨g, hg⟩ : ∃ g, fuel = g + 1 := ⟨fuel - 1, by omega⟩
        rw [hg]
        unfold walk_pred
        rw [if_neg hc]
        rfl
      · show pred v = cur
        rcases hpred v hv with h1 | h1
        · exact h1
        · by_contra h2
          exact hc ⟨h2, (hvis _ h1).2⟩

/-- C20. LS predecessor walk terminates: for every host and every database, after the main
loop of `run_dijkstra` the `while` loop that follows `pred[]` from an enumerated destination
(of any computed distance) makes `k` steps with `k` at most the number of enumerated nodes
and leaves at the `k`-th predecessor of the destination, whose predecessor is the current
node; hence `run_dijkstra` returns whenever the fuel allows `|nodes| + 1` tests of the loop
condition. -/
theorem ls_walk_terminates (h : Host) (s : state_t) :
    (∀ dest ∈ h.nodes, ∃ (k : Nat) (next_hop : Int), k ≤ h.nodes.length ∧
      (∀ fuel, k + 1 ≤ fuel →
        walk_pred h.current_node (main_loop h s h.nodes (dijkstra_init h s)).pred fuel dest dest
          = some (next_hop,
              Nat.iterate (main_loop h s h.nodes (dijkstra_init h s)).pred k dest)) ∧
      (main_loop h s h.nodes (dijkstra_init h s)).pred
        (Nat.iterate (main_loop h s h.nodes (dijkstra_init h s)).pred k dest)
          = h.current_node) ∧
    (∀ fuel, h.nodes.length + 1 ≤ fuel → ∃ routes, run_dijkstra fuel h s = some routes) := by
  obtain ⟨h1, h2, h3⟩ := main_loop_pred h s
  constructor
  · intro dest hdest
    obtain ⟨k, nh2, hk, hw, hp⟩ := walk_pred_iterate h.current_node _ _ h.nodes
      (fun x hx => ⟨h1 x hx, h2 x hx⟩) h3 _ dest dest hdest (main_loop_stops h s dest hdest)
    exact ⟨k, nh2, by omega, hw, hp⟩
  · intro fuel hfuel
    exact run_dijkstra_returns fuel h s hfuel

/-- C20 on the line with the database `line_db`: the walk from node `2` makes one step and
leaves at node `1`, and `run_dijkstra` returns with fuel for four tests. -/
theorem ls_walk_terminates_witness :
    (∃ (k : Nat) (next_hop : Int), k ≤ line_host.nodes.length ∧
      (∀ fuel, k + 1 ≤ fuel →
        walk_pred line_host.current_node
            (main_loop line_host line_db line_host.nodes (dijkstra_init line_host line_db)).pred
            fuel 2 2
          = some (next_hop, Nat.iterate
              (main_loop line_host line_db line_host.nodes
                (dijkstra_init line_host line_db)).pred k 2)) ∧
      (main_loop line_host line_db line_host.nodes (dijkstra_init line_host line_db)).pred
        (Nat.iterate (main_loop line_host line_db line_host.nodes
          (dijkstra_init line_host line_db)).pred k 2) = line_host.current_node) ∧
    ∃ routes, run_dijkstra 4 line_host line_db = some routes :=
  ⟨(ls_walk_terminates line_host line_db).1 2 (by decide),
    (ls_walk_terminates line_host line_db).2 4 (by decide)⟩

end LS

theorem cost_add_eq_min (inf a b : Int) (hinf : 0 ≤ inf) (ha : 0 ≤ a) (hb : 0 ≤ b) :
    COST_ADD inf a b = min (a + b) inf := by
  unfold COST_ADD
  split_ifs with hc
  · rcases hc with hc | hc
    · exact (min_eq_right (by omega)).symm
    · exact (min_eq_right (by omega)).symm
  · rfl

namespace LS

/-- With weights that are not negative, a path walked on from cost `a` costs `a` more than
the same path walked from cost `0`, up to saturation. -/
theorem path_cost_shift (h : Host) (s : state_t)
    (hinf : 0 < h.COST_INFINITY)
    (hnonneg : ∀ u ∈ h.nodes, ∀ v ∈ h.nodes, 0 ≤ (s.link_states u).link_cost v)
    (p : List Int) (a u : Int) (hu : u ∈ h.nodes) (hp : ∀ n ∈ p, n ∈ h.nodes)
    (ha0 : 0 ≤ a) (ha : a ≤ h.COST_INFINITY) :
    path_cost h s a u p = min (a + path_cost h s 0 u p) h.COST_INFINITY := by
  induction p generalizing a u with
  | nil =>
    show a = min (a + 0) h.COST_INFINITY
    rw [add_zero, min_eq_left ha]
  | cons v p ih =>
    have hv : v ∈ h.nodes := hp v (List.mem_cons_self _ _)
    have hp2 : ∀ n ∈ p, n ∈ h.nodes := fun n hn => hp n (List.mem_cons_of_mem _ hn)
    have hw := hnonneg u hu v hv
    have h1 := ih (COST_ADD h.COST_INFINITY a ((s.link_states u).link_cost v)) v hv hp2
      (cost_add_nonneg _ _ _ hinf ha0 hw) (cost_add_le _ _ _)
    have h2 := ih (COST_ADD h.COST_INFINITY 0 ((s.link_states u).link_cost v)) v hv hp2
      (cost_add_nonneg _ _ _ hinf (le_refl _) hw) (cost_add_le _ _ _)
    have hx := (path_cost_ge h s hnonneg p 0 v hv hp2 (le_of_lt hinf)).1
    show path_cost h s (COST_ADD h.COST_INFINITY a ((s.link_states u).link_cost v)) v p
      = min (a + path_cost h s (COST_ADD h.COST_INFINITY 0 ((s.link_states u).link_cost v)) v p)
          h.COST_INFINITY
    rw [h1, h2, cost_add_eq_min _ _ _ (le_of_lt hinf) ha0 hw,
      cost_add_eq_min _ _ _ (le_of_lt hinf) (le_refl _) hw]
    generalize path_cost h s 0 v p = x at hx
    generalize (s.link_states u).link_cost v = w at hw
    generalize h.COST_INFINITY = inf at hinf ha
    simp only [min_def]
    split_ifs <;> omega

/-- The cost of a path extended by one node. -/
theorem path_cost_concat (h : Host) (s : state_t) (p : List Int) (acc c u v : Int)
    (hlast : (c :: p).getLast? = some u) :
    path_cost h s acc c (p ++ [v])
      = COST_ADD h.COST_INFINITY (path_cost h s acc c p) ((s.link_states u).link_cost v) := by
  induction p generalizing acc c with
  | nil =>
    have hcu : c = u := by simpa using hlast
    rw [hcu]
    rfl
  | cons a p ih =>
    rw [List.getLast?_cons_cons] at hlast
    exact ih _ a hlast

/-- After the main loop, the distance of an enumerated node whose predecessor is not the
current node is the distance of its predecessor plus the weight of the edge between them. -/
theorem main_loop_tree (h : Host) (s : state_t) :
    ∀ v ∈ h.nodes, (main_loop h s h.nodes (dijkstra_init h s)).pred v = h.current_node ∨
      (main_loop h s h.nodes (dijkstra_init h s)).dist v
        = COST_ADD h.COST_INFINITY
            ((main_loop h s h.nodes (dijkstra_init h s)).dist
              ((main_loop h s h.nodes (dijkstra_init h s)).pred v))
            ((s.link_states ((main_loop h s h.nodes (dijkstra_init h s)).pred v)).link_cost v) := by
  obtain ⟨k, _, hinv, _⟩ := main_loop_rule h s
    (fun _ d => (∀ v ∈ h.nodes, d.pred v = h.current_node ∨ d.visited (d.pred v) = true) ∧
      (∀ v ∈ h.nodes, d.pred v = h.current_node ∨
        d.dist v = COST_ADD h.COST_INFINITY (d.dist (d.pred v))
          ((s.link_states (d.pred v)).link_cost v)))
    (by
      intro k d ⟨h1, h2⟩ hu
      obtain ⟨hv1, hv2, _⟩ := relax_marked h s (closest_unvisited h d).1 d
      have hent := relax_entries h s (closest_unvisited h d).1 d
      generalize (closest_unvisited h d).1 = u at *
      generalize relax h s u { d with visited := store d.visited u true } = d2 at *
      have hkeep : ∀ x, d.visited x = true → store d.visited u true x = true := by
        intro x hx
        unfold store
        split_ifs
        · rfl
        · exact hx
      constructor
      · intro v hv
        rcases (hent v).2.2 with ⟨_, hp, _⟩ | ⟨_, _, _, _, _, hp⟩
        · rcases h1 v hv with h4 | h4
          · left; rw [hp]; exact h4
          · right
            rw [hp, hv1]
            exact hkeep _ h4
        · right
          rw [hp, hv1]
          exact store_same _ _ _
      · intro v hv
        rcases (hent v).2.2 with ⟨hd, hp, _⟩ | ⟨_, _, _, hd, _, hp⟩
        · rcases h2 v hv with h4 | h4
          · left; rw [hp]; exact h4
          · rcases h1 v hv with h5 | h5
            · left; rw [hp]; exact h5
            · right
              rw [hp, hd, (hv2 _ (hkeep _ h5)).2]
              exact h4
        · right
          rw [hp, hd, (hent v).2.1])
    h.nodes 0 (dijkstra_init h s)
    ⟨fun v hv => Or.inl (dijkstra_init_pred h s v hv),
      fun v hv => Or.inl (dijkstra_init_pred h s v hv)⟩
  exact hinv.2

/-- The predecessor walk from `v` ends at a node from which the predecessor chain is a path
to `v` whose cost, walked on from the distance of that node, is the distance of `v`. -/
theorem walk_pred_path (h : Host) (s : state_t) (d : Dijkstra)
    (hpv : ∀ v ∈ h.nodes, d.pred v = h.current_node ∨ d.visited (d.pred v) = true)
    (hset : ∀ x, d.visited x = true → x ∈ h.nodes)
    (htree : ∀ v ∈ h.nodes, d.pred v = h.current_node ∨
      d.dist v = COST_ADD h.COST_INFINITY (d.dist (d.pred v))
        ((s.link_states (d.pred v)).link_cost v))
    (f : Nat) (nh v : Int) (hv : v ∈ h.nodes) (r : Int × Int)
    (hr : walk_pred h.current_node d.pred f nh v = some r) :
    (d.pred v = h.current_node → r.2 = v) ∧
    ∃ p, IsPath h r.2 v p ∧ path_cost h s (d.dist r.2) r.2 p = d.dist v := by
  induction f generalizing nh v with
  | zero => simp [walk_pred] at hr
  | succ f ih =>
    unfold walk_pred at hr
    by_cases hc : d.pred v ≠ h.current_node ∧ d.pred v ≠ -1
    · rw [if_pos hc] at hr
      have hpvis : d.visited (d.pred v) = true := by
        rcases hpv v hv with h1 | h1
        · exact absurd h1 hc.1
        · exact h1
      have hpin := hset _ hpvis
      obtain ⟨_, p, ⟨hp1, hp2⟩, hp3⟩ := ih (d.pred v) (d.pred v) hpin hr
      refine ⟨fun h1 => absurd h1 hc.1, p ++ [v], ⟨?_, ?_⟩, ?_⟩
      · intro n hn
        rcases List.mem_append.mp hn with h1 | h1
        · exact hp1 n h1
        · rw [List.mem_singleton.mp h1]; exact hv
      · rw [← List.cons_append]
        exact List.getLast?_concat _
      · rw [path_cost_concat h s p _ _ _ v hp2, hp3]
        rcases htree v hv with h1 | h1
        · exact absurd h1 hc.1
        · exact h1.symm
    · rw [if_neg hc] at hr
      have hrv : r = (nh, v) := (Option.some.inj hr).symm
      rw [hrv]
      exact ⟨fun _ => rfl, [], ⟨by simp, rfl⟩, rfl⟩

/-- C16. LS next-hop derivation: for a database with costs that are not negative and an own
row with costs of at most `COST_INFINITY`, `run_dijkstra` returns, and whenever it calls
`set_route(dest, hop, d)` with `hop` other than `-1`, `hop` is an enumerated node,
`link_states[self].link_cost[hop]` and the live `linkCost(hop)` are below `COST_INFINITY`,
`hop` is `dest` when the predecessor of `dest` is the current node, and `d` is
`link_states[self].link_cost[hop]` plus the least cost `L` of a directed path from `hop` to
`dest` over enumerated nodes (edge weights `link_states[u].link_cost[v]`, saturating
addition), with `L = 0` when `hop` is `dest`. -/
theorem ls_next_hop_adjacent (fuel : Nat) (h : Host) (s : state_t)
    (hfuel : h.nodes.length + 1 ≤ fuel)
    (hinf : 0 < h.COST_INFINITY)
    (hnonneg : ∀ u ∈ h.nodes, ∀ v ∈ h.nodes, 0 ≤ (s.link_states u).link_cost v)
    (hle : ∀ v ∈ h.nodes, (s.link_states h.current_node).link_cost v ≤ h.COST_INFINITY)
    (hcur : h.current_node ∈ h.nodes) (hnodes : ∀ v ∈ h.nodes, v ≠ -1) :
    ∃ routes, run_dijkstra fuel h s = some routes ∧
      ∀ r ∈ routes, r.next_hop ≠ -1 →
        r.next_hop ∈ h.nodes ∧
        (s.link_states h.current_node).link_cost r.next_hop < h.COST_INFINITY ∧
        h.link_cost r.next_hop < h.COST_INFINITY ∧
        ((main_loop h s h.nodes (dijkstra_init h s)).pred r.dest = h.current_node →
          r.next_hop = r.dest) ∧
        ∃ L, r.cost = (s.link_states h.current_node).link_cost r.next_hop + L ∧
          (r.next_hop = r.dest → L = 0) ∧
          (∃ p, IsPath h r.next_hop r.dest p ∧ path_cost h s 0 r.next_hop p = L) ∧
          ∀ p, IsPath h r.next_hop r.dest p → L ≤ path_cost h s 0 r.next_hop p := by
  obtain ⟨k, inv, hexit⟩ := main_loop_final h s hinf hnonneg hcur hnodes
  obtain ⟨rs, hrs⟩ := run_dijkstra_returns fuel h s hfuel
  have htree := main_loop_tree h s
  refine ⟨rs, hrs, ?_⟩
  intro r hr hreal
  obtain ⟨n, hn, hne, hrt⟩ := (install_routes_mem fuel h _ h.nodes rs hrs r).mp hr
  generalize main_loop h s h.nodes (dijkstra_init h s) = D at inv hexit htree hrt ⊢
  have hset : ∀ x, D.visited x = true → x ∈ h.nodes := fun x hx => (inv.settled x hx).1
  unfold route_to at hrt
  by_cases hd : D.dist n = h.COST_INFINITY
  · rw [if_pos hd] at hrt
    rw [← Option.some.inj hrt] at hreal
    exact absurd rfl hreal
  rw [if_neg hd] at hrt
  cases hw : walk_pred h.current_node D.pred fuel n n with
  | none => rw [hw] at hrt; simp at hrt
  | some pr =>
    obtain ⟨nh, c⟩ := pr
    rw [hw] at hrt
    simp only [] at hrt
    by_cases hcond : D.pred c ≠ -1 ∧ h.link_cost nh < h.COST_INFINITY
    swap
    · rw [if_neg hcond] at hrt
      rw [← Option.some.inj hrt] at hreal
      exact absurd rfl hreal
    rw [if_pos hcond] at hrt
    have hreq : r = { dest := n, next_hop := nh, cost := D.dist n } := (Option.some.inj hrt).symm
    obtain ⟨hc1, hc2, hc3⟩ := walk_pred_end h D inv.pred_visited hset hcur hnodes fuel n n hn _ hw
    obtain ⟨hp0, p, ⟨hp1, hp2⟩, hp3⟩ :=
      walk_pred_path h s D inv.pred_visited hset htree fuel n n hn _ hw
    simp only [] at hc1 hc2 hc3 hp0 hp1 hp2 hp3
    have hnhc : nh = c := by
      rcases hc3 with ⟨h1, h2⟩ | ⟨_, h2, _⟩
      · rw [h1, h2]
      · exact h2
    have hcne : c ≠ h.current_node := by
      rcases hc3 with ⟨h1, _⟩ | ⟨_, _, h3⟩
      · rw [h1]; exact hne
      · exact h3
    have hdc : D.dist c = (s.link_states h.current_node).link_cost c :=
      inv.direct c hc1 hcne hc2
    -- the destination was visited, so its distance is final
    have hvis : D.visited n = true := by
      by_contra hvis
      have hunv : D.visited n = false := by simpa using hvis
      have hge := hexit n hn hunv
      have hbig : h.COST_INFINITY < D.dist n := lt_of_le_of_ne hge (Ne.symm hd)
      have hpd := inv.large n hn hbig
      have := inv.direct n hn hne hpd
      have := hle n hn
      omega
    obtain ⟨_, hlt, hopt⟩ := inv.settled n hvis
    have hclt : D.dist c < h.COST_INFINITY := by
      rcases hc3 with ⟨h1, _⟩ | ⟨h1, _, _⟩
      · rw [h1]; exact hlt
      · exact (inv.settled c h1).2.1
    have hc0 : 0 ≤ D.dist c := inv.dist_nonneg c hc1
    have hshift := fun q hq =>
      path_cost_shift h s hinf hnonneg q (D.dist c) c hc1 hq hc0 (le_of_lt hclt)
    rw [hreq]
    simp only []
    rw [hnhc]
    refine ⟨hc1, hdc ▸ hclt, hnhc ▸ hcond.2, hp0, D.dist n - D.dist c, ?_, ?_, ?_, ?_⟩
    · rw [← hdc]; omega
    · intro hcn
      rw [hcn]; omega
    · refine ⟨p, ⟨hp1, hp2⟩, ?_⟩
      have h1 := hshift p hp1
      rw [hp3] at h1
      have h2 : D.dist n ≤ D.dist c + path_cost h s 0 c p := by
        rw [h1]; exact min_le_left _ _
      have h3 : ¬ (h.COST_INFINITY ≤ D.dist c + path_cost h s 0 c p) := by
        intro h3
        rw [min_eq_right h3] at h1
        omega
      rw [min_eq_left (by omega)] at h1
      omega
    · rintro q ⟨hq1, hq2⟩
      obtain ⟨ys, hys⟩ := List.getLast?_eq_some_iff.mp hq2
      have hysn : ∀ x ∈ ys, x ∈ h.nodes := by
        intro x hx
        have hx2 : x ∈ c :: q := by rw [hys]; exact List.mem_append_left _ hx
        rcases List.mem_cons.mp hx2 with h1 | h1
        · rw [h1]; exact hc1
        · exact hq1 x h1
      have h1 := hopt ys hysn
      have h2 : route_cost h s ys n = path_cost h s (D.dist c) c q := by
        unfold route_cost
        rw [← hys]
        show path_cost h s (COST_ADD h.COST_INFINITY 0
          ((s.link_states h.current_node).link_cost c)) c q = _
        rw [cost_add_zero _ _ hinf (hdc ▸ hclt), hdc]
      rw [h2, hshift q hq1] at h1
      have h3 := min_le_left (D.dist c + path_cost h s 0 c q) h.COST_INFINITY
      omega

/-- Witness of C16 on the three-node line with the database `line_db`. -/
theorem ls_next_hop_adjacent_witness :
    line_host.nodes.length + 1 ≤ 4 ∧ 0 < line_host.COST_INFINITY ∧
    (∀ u ∈ line_host.nodes, ∀ v ∈ line_host.nodes, 0 ≤ (line_db.link_states u).link_cost v) ∧
    (∀ v ∈ line_host.nodes,
      (line_db.link_states line_host.current_node).link_cost v ≤ line_host.COST_INFINITY) ∧
    line_host.current_node ∈ line_host.nodes ∧ (∀ v ∈ line_host.nodes, v ≠ -1) ∧
    ∃ routes, run_dijkstra 4 line_host line_db = some routes ∧
      ∀ r ∈ routes, r.next_hop ≠ -1 →
        (line_db.link_states line_host.current_node).link_cost r.next_hop < 1000 ∧
        line_host.link_cost r.next_hop < 1000 ∧
        ∃ L, r.cost = (line_db.link_states line_host.current_node).link_cost r.next_hop + L ∧
          ∀ p, IsPath line_host r.next_hop r.dest p →
            L ≤ path_cost line_host line_db 0 r.next_hop p :=
  ⟨by decide, by decide, by decide, by decide, by decide, by decide,
    (ls_next_hop_adjacent 4 line_host line_db (by decide) (by decide) (by decide)
      (by decide) (by decide) (by decide)).imp
      (fun _ hr => ⟨hr.1, fun r hmem hreal =>
        ⟨(hr.2 r hmem hreal).2.1, (hr.2 r hmem hreal).2.2.1,
          (hr.2 r hmem hreal).2.2.2.2.imp (fun _ hL => ⟨hL.1, hL.2.2.2⟩)⟩⟩)⟩

end LS

namespace PV

/-- The copy loop writes nothing from `path_index` plus the number of copied entries on. -/
theorem copy_path_above (src : Int → Int) (k : Nat) (i p : Int) (best : Int → Int) (j : Int)
    (hj : p + ((path_entries_from src k i).length : Int) ≤ j) :
    copy_path src k i p best j = best j := by
  induction k generalizing i p best with
  | zero => rfl
  | succ k ih =>
    by_cases h1 : src i = -1
    · unfold copy_path
      simp [h1]
    · have he : path_entries_from src (k + 1) i = src i :: path_entries_from src k (i + 1) := by
        conv_lhs => unfold path_entries_from
        rw [if_neg h1]
      rw [he, List.length_cons] at hj
      push_cast at hj
      unfold copy_path
      rw [if_pos h1, ih _ _ _ (by omega), store_other _ _ _ _ (by omega)]

/-- The path built for a winning neighbour holds `-1` in every slot after its entries. -/
theorem new_path_tail (h : Host) (src : Int → Int) (j : Int)
    (hj : 1 + ((path_entries h src).length : Int) ≤ j) : new_path h src j = -1 := by
  unfold new_path
  rw [copy_path_above _ _ _ _ _ _ hj, store_other _ _ _ _ (by omega)]

/-- A path of sentinels has no entries. -/
theorem path_entries_empty (h : Host) : path_entries h (fun _ => -1) = [] := by
  unfold path_entries
  cases h.MAX_NODES with
  | zero => rfl
  | succ k => simp [path_entries_from]

/-- C21. PV chosen paths stay duplicate-free: for an enumerated destination `dest` other than
the current node, in a state in which the path `paths[n][dest]` advertised by every
enumerated node `n` other than the current node has no node twice before its sentinel and
has fewer than `MAX_NODES` entries, after `recalculate_distance_vector` the chosen path
`paths[self][dest]` has no node twice before its sentinel, and every slot of it after these
entries holds `-1`, so that no node occurs twice in the whole array. -/
theorem pv_chosen_path_nodup (h : Host) (s : state_t) (dest : Int)
    (hnodup : ∀ n ∈ h.nodes, n ≠ h.current_node → (path_entries h (s.paths n dest)).Nodup)
    (hbound : ∀ n ∈ h.nodes, n ≠ h.current_node →
      (path_entries h (s.paths n dest)).length < h.MAX_NODES)
    (hcur : h.current_node ≠ -1) (hmem : dest ∈ h.nodes) (hne : dest ≠ h.current_node) :
    (path_entries h ((recalculate_distance_vector h s).state.paths h.current_node dest)).Nodup ∧
    ∀ i : Nat, i < h.MAX_NODES →
      (path_entries h
        ((recalculate_distance_vector h s).state.paths h.current_node dest)).length ≤ i →
      (recalculate_distance_vector h s).state.paths h.current_node dest (i : Int) = -1 := by
  obtain ⟨_, hpath⟩ := recalculate_chosen h s dest hmem hne
  have hent := path_entries_congr h _ _ hpath
  have hslots := (same_path_iff h _ _).mp hpath
  rcases best_route_spec h s dest with ⟨h1, _⟩ | ⟨l1, n, l2, hl, hcand, h1, _⟩
  · rw [h1] at hent hslots
    simp only [] at hent hslots
    rw [hent, path_entries_empty]
    exact ⟨List.nodup_nil, fun i hi _ => hslots i hi⟩
  · rw [h1] at hent hslots
    simp only [] at hent hslots
    have hn : n ∈ h.nodes := by
      rw [hl]
      exact List.mem_append_right _ (List.mem_cons_self _ _)
    rw [hent, new_path_entries h _ hcur (hbound n hn hcand.1)]
    constructor
    · exact List.nodup_cons.mpr ⟨hcand.2.2, hnodup n hn hcand.1⟩
    · intro i hi hlen
      rw [hslots i hi]
      apply new_path_tail
      rw [List.length_cons] at hlen
      omega

/-- Witness of C21 on the three-node line: destination `2` seen from node `0`, whose chosen
path reads `[0, 1]`. -/
theorem pv_chosen_path_nodup_witness :
    (∀ n ∈ line_host.nodes, n ≠ line_host.current_node →
      (path_entries line_host (line_state.paths n 2)).Nodup) ∧
    (∀ n ∈ line_host.nodes, n ≠ line_host.current_node →
      (path_entries line_host (line_state.paths n 2)).length < line_host.MAX_NODES) ∧
    line_host.current_node ≠ -1 ∧ (2 : Int) ∈ line_host.nodes ∧
    (2 : Int) ≠ line_host.current_node ∧
    (path_entries line_host
      ((recalculate_distance_vector line_host line_state).state.paths
        line_host.current_node 2)).Nodup ∧
    path_entries line_host
      ((recalculate_distance_vector line_host line_state).state.paths
        line_host.current_node 2) = [0, 1] :=
  ⟨by decide, by decide, by decide, by decide, by decide,
    (pv_chosen_path_nodup line_host line_state 2 (by decide) (by decide) (by decide)
      (by decide) (by decide)).1, by decide⟩

end PV

namespace LS

/-- The loop of `broadcast_message` from any list of earlier sends: one message per
enumerated node with a live link other than the current node, in enumeration order, each
carrying the whole array `link_states`. -/
theorem ls_broadcast_scan (h : Host) (s : state_t) (l : List Int) (acc : List (Int × data_t)) :
    l.foldl (fun sent n =>
      if h.link_cost n < h.COST_INFINITY ∧ n ≠ h.current_node then
        sent ++ [(n, ({ ls := s.link_states } : data_t))]
      else sent) acc
      = acc ++ (l.filter (fun n =>
          decide (h.link_cost n < h.COST_INFINITY ∧ n ≠ h.current_node))).map
          (fun n => (n, ({ ls := s.link_states } : data_t))) := by
  induction l generalizing acc with
  | nil => simp
  | cons a l ih =>
    rw [List.foldl_cons, ih]
    by_cases hc : h.link_cost a < h.COST_INFINITY ∧ a ≠ h.current_node
    · rw [if_pos hc, List.filter_cons_of_pos (by simpa using hc)]
      simp
    · rw [if_neg hc, List.filter_cons_of_neg (by simpa using hc)]

/-- The `send_message` calls of `broadcast_message`. -/
theorem ls_broadcast_calls (h : Host) (s : state_t) :
    broadcast_message h s
      = (h.nodes.filter (fun n =>
          decide (h.link_cost n < h.COST_INFINITY ∧ n ≠ h.current_node))).map
          (fun n => (n, ({ ls := s.link_states } : data_t))) := by
  unfold broadcast_message
  rw [ls_broadcast_scan]
  simp

/-- The destinations of the `set_route` calls of the last loop of `run_dijkstra`: every
enumerated node other than the current node, once, in enumeration order. -/
theorem install_routes_dests (fuel : Nat) (h : Host) (d : Dijkstra) (l : List Int)
    (rs : List Route) (hrs : install_routes fuel h d l = some rs) :
    rs.map (fun r => r.dest) = l.filter (fun n => decide (n ≠ h.current_node)) := by
  induction l generalizing rs with
  | nil =>
    have : rs = [] := (Option.some.inj hrs).symm
    simp [this]
  | cons a l ih =>
    unfold install_routes at hrs
    by_cases hc : a = h.current_node
    · rw [if_pos hc] at hrs
      rw [List.filter_cons_of_neg (by simpa using hc)]
      exact ih rs hrs
    · rw [if_neg hc] at hrs
      cases hrt : route_to fuel h d a with
      | none => rw [hrt] at hrs; simp at hrs
      | some ra =>
        rw [hrt] at hrs
        cases hrest : install_routes fuel h d l with
        | none => rw [hrest] at hrs; simp at hrs
        | some rest =>
          rw [hrest] at hrs
          have hrs2 : rs = ra :: rest := (Option.some.inj hrs).symm
          rw [hrs2, List.filter_cons_of_pos (by simpa using hc), List.map_cons,
            ih rest hrest, route_to_dest fuel h d a ra hrt]

/-- C7. LS on_message postcondition: `notify_receive_message` returns; after it, for every
enumerated owner, `link_states[owner]` is the received entry (cost vector and version) if the
received version is strictly greater than the stored one and is unchanged otherwise. If some
enumerated owner's entry was replaced, `run_dijkstra` runs on the new state (its `set_route`
calls are the ones made, one for every enumerated node other than the current node, in
enumeration order) and the new database is flooded: the `send_message` calls are those of
`broadcast_message`, that is, one to every enumerated node with a live link other than the
current node, in enumeration order, each carrying the new `link_states`. Otherwise no
`set_route` and no `send_message` call is made. -/
theorem ls_receive_postcondition (fuel : Nat) (h : Host) (s : state_t) (sender : Int)
    (received_data : data_t) (hfuel : h.nodes.length + 1 ≤ fuel) :
    ∃ o, notify_receive_message fuel h s sender received_data = some o ∧
      (∀ owner ∈ h.nodes, o.state.link_states owner
        = if (received_data.ls owner).version > (s.link_states owner).version
          then received_data.ls owner else s.link_states owner) ∧
      ((∃ owner ∈ h.nodes, (received_data.ls owner).version > (s.link_states owner).version) →
        run_dijkstra fuel h o.state = some o.routes ∧
        o.routes.map (fun r => r.dest)
          = h.nodes.filter (fun n => decide (n ≠ h.current_node)) ∧
        o.sent = broadcast_message h o.state ∧
        o.sent = (h.nodes.filter (fun n =>
            decide (h.link_cost n < h.COST_INFINITY ∧ n ≠ h.current_node))).map
            (fun n => (n, ({ ls := o.state.link_states } : data_t)))) ∧
      ((¬ ∃ owner ∈ h.nodes, (received_data.ls owner).version > (s.link_states owner).version) →
        o.routes = [] ∧ o.sent = []) := by
  obtain ⟨o, h1, h2, h3, h4⟩ := receive_returns fuel h s sender received_data hfuel
  refine ⟨o, h1, ?_, ?_, ?_⟩
  · intro owner ho
    rw [h2, (receive_entries_spec h s received_data owner).1]
    simp [ho]
  · intro hex
    obtain ⟨h5, h6⟩ := h3 ((receive_entries_spec h s received_data 0).2.1.mpr hex)
    refine ⟨h5, install_routes_dests fuel h _ h.nodes o.routes h5, h6, ?_⟩
    rw [h6, ls_broadcast_calls]
  · intro hex
    apply h4
    rw [(receive_entries_spec h s received_data 0).2.2 hex]

/-- Witness of C7 on the three-node line: node `0` receives the database of node `1`; the
entry of node `1` is replaced, routes to nodes `1` and `2` are set and the new database is
sent to node `1`, the only live neighbour. -/
theorem ls_receive_postcondition_witness :
    line_host.nodes.length + 1 ≤ 4 ∧
    ∃ o, notify_receive_message 4 line_host (init_state line_host) 1 line_update = some o ∧
      (∀ owner ∈ line_host.nodes, o.state.link_states owner
        = if (line_update.ls owner).version > ((init_state line_host).link_states owner).version
          then line_update.ls owner else (init_state line_host).link_states owner) ∧
      o.routes.map (fun r => r.dest) = [1, 2] ∧
      o.sent = [(1, ({ ls := o.state.link_states } : data_t))] :=
  ⟨by decide,
    (ls_receive_postcondition 4 line_host (init_state line_host) 1 line_update (by decide)).imp
      (fun _ ho => ⟨ho.1, ho.2.1,
        (ho.2.2.1 ⟨1, by decide, by decide⟩).2.1.trans (by decide),
        (ho.2.2.1 ⟨1, by decide, by decide⟩).2.2.2.trans rfl⟩)⟩

end LS

namespace PV

end PV
